import Mathlib

/-!
Verification of the rparse parser VM (src/vm.rs, src/compiler.rs).

The Rust source is shallowly embedded: `Vec` becomes `List` (with the
vector's push/pop end made explicit at each use site), `usize::MAX`
sentinels become `Option Nat`, panics become the `Res.panic` outcome and
the unbounded loops of `run` are driven by explicit fuel, with `Res.fuelOut`
signalling exhaustion.  All definitions are executable so that concrete
runs evaluate by `rfl`/`decide`.
-/

namespace Rparse

/-- Outcome of a partial computation: normal result, Rust panic, or fuel
exhaustion (the Rust original would still be looping). -/
inductive Res (α : Type) where
  | ok : α → Res α
  | panic : Res α
  | fuelOut : Res α
deriving DecidableEq, Repr

/-- Opcode from src/compiler.rs.  `Return {ntnameidx, nameidx}`,
`Fork {ntidx, nameidx}`, `Match {validx, nameidx}`. -/
inductive Opcode where
  | Return : Nat → Option Nat → Opcode
  | Fork : Nat → Option Nat → Opcode
  | Match : Nat → Option Nat → Opcode
deriving DecidableEq, Repr

/-- CompiledGrammar from src/compiler.rs: the `nt_names` HashMap is
modelled as an association list with distinct keys. -/
structure CompiledGrammar where
  ntNames : List (Nat × List Nat)
  strings : List String
  opcodes : List Opcode
deriving DecidableEq, Repr

/-- CompiledGrammar::at; out-of-bounds access (a Rust panic) is `none`. -/
def CompiledGrammar.opAt (cg : CompiledGrammar) (ip : Nat) : Option Opcode :=
  cg.opcodes.get? ip

/-- CompiledGrammar::lookup_nonterm_idx: addresses for a nonterminal,
empty when absent. -/
def CompiledGrammar.lookupNontermIdx (cg : CompiledGrammar) (ntidx : Nat) : List Nat :=
  match cg.ntNames.find? (fun p => p.1 = ntidx) with
  | some p => p.2
  | none => []

/-- CompiledGrammar::lookup_string: position of the first equal string. -/
def CompiledGrammar.lookupString (cg : CompiledGrammar) (s : String) : Option Nat :=
  cg.strings.findIdx? (fun x => x = s)

/-- FragmentType from src/vm.rs.  `RuleStart {parent, name, ntname}`,
`RuleTermValue {prev, tokidx, name}`, `RuleNonTerm {child, ntnameidx, ev_name}`. -/
inductive FragmentType where
  | RuleStart : Option Nat → Option Nat → Nat → FragmentType
  | RuleTermValue : Nat → Nat → Option Nat → FragmentType
  | RuleNonTerm : Nat → Nat → Option Nat → FragmentType
deriving DecidableEq, Repr

/-- ParseFragment from src/vm.rs. -/
structure ParseFragment where
  refcount : Nat
  value : FragmentType
deriving DecidableEq, Repr

/-- prev_fragment from src/vm.rs, on a fragment value; the `usize::MAX`
default (for a parentless RuleStart) is `none`. -/
def ParseFragment.prevIdx (f : ParseFragment) : Option Nat :=
  match f.value with
  | .RuleStart parent _ _ => parent
  | .RuleTermValue prev _ _ => some prev
  | .RuleNonTerm child _ _ => some child

/-- SharedStackItem from src/vm.rs (`u` is a return address; `prev` is the
previous stack pointer, `none` for `usize::MAX`). -/
structure SharedStackItem where
  u : Nat
  prev : Option Nat
deriving DecidableEq, Repr

/-- VMThread from src/vm.rs: `sp` (shared-stack pointer or `usize::MAX`),
`ip`, `fragidx`. -/
structure VMThread where
  sp : Option Nat
  ip : Nat
  fragidx : Nat
deriving DecidableEq, Repr

/-- The mutable state of `run` (src/vm.rs).  `runnable` is stored with the
Vec's push/pop end at the head of the list; `matchable`, `freelist`,
`fragments`, `tails` and `sharedStack` are stored in Vec order (index `i`
of the Vec is position `i` of the list).  `calls` and `completions` are
ghost instrumentation: `calls` records each actual `match_fn` invocation
as `(validx, tokidx)`; `completions` records every top-level `Return`
as `(fragidx, tokidx)`, whether or not it met `min_match`. -/
structure VMState where
  fragments : List ParseFragment
  tails : List (Nat × Nat)
  runnable : List VMThread
  freelist : List Nat
  matchable : List (Nat × VMThread)
  sharedStack : List SharedStackItem
  tokidx : Nat
  matched : List Int
  calls : List (Nat × Nat)
  completions : List (Nat × Nat)
deriving DecidableEq, Repr

/-- One step of Rust's slice binary search (the `base/size` formulation):
`size > 1` loop body.  Returns `Sum.inl pos` for `Ok(pos)` and
`Sum.inr pos` for `Err(pos)`.  `keyAt` reads the key at an index. -/
def binarySearchLoop (keyAt : Nat → Nat) (k : Nat) : Nat → Nat → Nat → Sum Nat Nat
  | 0, base, _ => .inr base  -- fuel exhausted: unreachable for fuel ≥ size
  | fuel + 1, base, size =>
    if size > 1 then
      -- half = size / 2, mid = base + half; Greater keeps base, else moves to mid
      binarySearchLoop keyAt k fuel
        (if k < keyAt (base + size / 2) then base else base + size / 2)
        (size - size / 2)
    else
      -- final comparison at `base`
      if keyAt base = k then .inl base
      else if keyAt base < k then .inr (base + 1)
      else .inr base

/-- Rust `slice::binary_search_by_key` over a list of keys. -/
def binarySearch (keys : List Nat) (k : Nat) : Sum Nat Nat :=
  if keys.length = 0 then .inr 0
  else binarySearchLoop (fun i => (keys.get? i).getD 0) k (keys.length + 1) 0 keys.length

/-- The position carried by either binary-search outcome. -/
def sumPos : Sum Nat Nat → Nat
  | .inl pos => pos
  | .inr pos => pos

/-- Insertion position: `Ok(pos)` and `Err(pos)` are both used for
`insert(pos, _)` in src/vm.rs, so only the position matters. -/
def binarySearchPos (keys : List Nat) (k : Nat) : Nat :=
  sumPos (binarySearch keys k)

/-- Fragment allocation as in src/vm.rs: reuse the popped free-list slot
(`Vec::pop`, the last = highest element of the sorted free-list) if
present, else push.  Returns (fragments, freelist, slot index). -/
def allocFrag (fragments : List ParseFragment) (freelist : List Nat)
    (frag : ParseFragment) : List ParseFragment × List Nat × Nat :=
  match freelist.getLast? with
  | some idx => (fragments.set idx frag, freelist.dropLast, idx)
  | none => (fragments ++ [frag], freelist, fragments.length)

/-- Increment the refcount of the fragment at `i` (in-bounds by
construction at every use site). -/
def rcInc (fragments : List ParseFragment) (i : Nat) : List ParseFragment :=
  match fragments.get? i with
  | some f => fragments.set i ⟨f.refcount + 1, f.value⟩
  | none => fragments

/-- Decrement the refcount of the fragment at `i`. -/
def rcDec (fragments : List ParseFragment) (i : Nat) : List ParseFragment :=
  match fragments.get? i with
  | some f => fragments.set i ⟨f.refcount - 1, f.value⟩
  | none => fragments

/-- The Fork child loop of src/vm.rs: for each initial address of the
forked nonterminal, bump the new fragment's refcount, push a shared-stack
item continuing the parent's stack, and push a runnable child thread. -/
def forkChildren (retIp : Nat) (parentSp : Option Nat) (slot : Nat) :
    List Nat → VMState → VMState
  | [], st => st
  | addr :: rest, st =>
    let st' : VMState :=
      { st with
        fragments := rcInc st.fragments slot,
        sharedStack := st.sharedStack ++ [⟨retIp, parentSp⟩],
        runnable := ⟨some st.sharedStack.length, addr, slot⟩ :: st.runnable }
    forkChildren retIp parentSp slot rest st'

/-- Dispatch of a single popped thread (the body of the inner dispatch
loop of src/vm.rs).  `st.runnable` no longer contains `thread`. -/
def dispatchOne (cg : CompiledGrammar) (minMatch : Nat) (st : VMState)
    (thread : VMThread) : Res VMState :=
  match cg.opAt thread.ip with
  | none => .panic
  | some (.Match validx _) =>
    let pos := binarySearchPos (st.matchable.map (fun x => x.1)) validx
    .ok { st with matchable := st.matchable.insertIdx pos (validx, thread) }
  | some (.Fork ntidx nameidx) =>
    let frag : ParseFragment := ⟨0, .RuleStart (some thread.fragidx) nameidx ntidx⟩
    let (frags, fl, slot) := allocFrag st.fragments st.freelist frag
    .ok (forkChildren thread.ip thread.sp slot (cg.lookupNontermIdx ntidx)
      { st with fragments := frags, freelist := fl })
  | some (.Return ntnameidx nameidx) =>
    match thread.sp with
    | some spv =>
      match st.sharedStack.get? spv with
      | none => .panic
      | some item =>
        let frag : ParseFragment := ⟨1, .RuleNonTerm thread.fragidx ntnameidx nameidx⟩
        let (frags, fl, slot) := allocFrag st.fragments st.freelist frag
        .ok { st with
          fragments := frags, freelist := fl,
          runnable := ⟨item.prev, item.u + 1, slot⟩ :: st.runnable }
    | none =>
      let st' := { st with completions := st.completions ++ [(thread.fragidx, st.tokidx)] }
      if minMatch ≤ st.tokidx then
        .ok { st' with tails := st'.tails ++ [(thread.fragidx, st.tokidx)] }
      else
        .ok st'

/-- The inner dispatch loop of src/vm.rs: pop and dispatch until
`runnable` is empty.  Fuel-driven since Fork keeps the loop alive. -/
def dispatchLoop (cg : CompiledGrammar) (minMatch : Nat) :
    Nat → VMState → Res VMState
  | 0, _ => .fuelOut
  | fuel + 1, st =>
    match st.runnable with
    | [] => .ok st
    | thread :: rest =>
      match dispatchOne cg minMatch { st with runnable := rest } thread with
      | .ok st' => dispatchLoop cg minMatch fuel st'
      | .panic => .panic
      | .fuelOut => .fuelOut

/-- The dead-thread reclamation walk of src/vm.rs: decrement refcounts
backward along the fragment chain, returning zero-refcount slots to the
sorted free-list, stopping at the first fragment that stays referenced.
The `assert!(refcount > 0)` is a panic.  Fuel bounds the walk. -/
def reclaim : Nat → Option Nat → List ParseFragment → List Nat →
    Res (List ParseFragment × List Nat)
  | _, none, fragments, freelist => .ok (fragments, freelist)
  | 0, some _, _, _ => .fuelOut
  | fuel + 1, some i, fragments, freelist =>
    match fragments.get? i with
    | none => .panic
    | some f =>
      if f.refcount = 0 then .panic
      else if f.refcount - 1 = 0 then
        reclaim fuel f.prevIdx (fragments.set i ⟨f.refcount - 1, f.value⟩)
          (freelist.insertIdx (binarySearchPos freelist i) i)
      else
        .ok (fragments.set i ⟨f.refcount - 1, f.value⟩, freelist)

/-- The per-token cache consultation of the match phase of src/vm.rs:
reuse a cached decision when present, else invoke `match_fn` (recording
the ghost call) and cache the result. -/
def matchConsult (cg : CompiledGrammar) (matchFn : String → Nat → Bool)
    (validx : Nat) (st : VMState) : Res (Bool × VMState) :=
  match st.matched.get? validx with
  | none => .panic
  | some m =>
    if m = 1 then .ok (true, st)
    else if m = -1 then .ok (false, st)
    else
      match cg.strings.get? validx with
      | none => .panic
      | some s =>
        let r := matchFn s st.tokidx
        .ok (r, { st with
          matched := st.matched.set validx (if r then 1 else -1),
          calls := st.calls ++ [(validx, st.tokidx)] })

/-- On a successful match the thread advances past the Match opcode with a
fresh RuleTermValue fragment; on failure it dies and its fragment chain is
reclaimed. -/
def matchProceed (thread : VMThread) (vkey : Nat) (nameidx : Option Nat)
    (r : Bool) (st1 : VMState) : Res (VMState × Option Nat) :=
  if r then
    let frag : ParseFragment := ⟨1, .RuleTermValue thread.fragidx st1.tokidx nameidx⟩
    let (frags, fl, slot) := allocFrag st1.fragments st1.freelist frag
    .ok ({ st1 with
      fragments := frags, freelist := fl,
      runnable := ⟨thread.sp, thread.ip + 1, slot⟩ :: st1.runnable }, some vkey)
  else
    match reclaim (st1.fragments.length + 1) (some thread.fragidx)
        st1.fragments st1.freelist with
    | .ok (frags, fl) =>
      .ok ({ st1 with fragments := frags, freelist := fl }, some vkey)
    | .panic => .panic
    | .fuelOut => .fuelOut

/-- One iteration of the match phase of src/vm.rs (one thread popped from
the reversed `matchable`, i.e. taken in ascending `validx` order).
`prevValidx` models the sortedness assertion.  Returns the updated state
plus the new `prevValidx`. -/
def matchOne (cg : CompiledGrammar) (matchFn : String → Nat → Bool)
    (prevValidx : Option Nat) (vkey : Nat) (thread : VMThread) (st : VMState) :
    Res (VMState × Option Nat) :=
  -- assert!(prev_validx == usize::MAX || prev_validx <= tuple.0)
  if (match prevValidx with | none => false | some p => decide (vkey < p)) then .panic
  else
    match cg.opAt thread.ip with
    | some (.Match validx nameidx) =>
      match matchConsult cg matchFn validx st with
      | .ok (r, st1) => matchProceed thread vkey nameidx r st1
      | .panic => .panic
      | .fuelOut => .fuelOut
    | _ => .panic  -- "matchable not at Match instruction"

/-- The match-phase loop of src/vm.rs, processing the drained `matchable`
work list in ascending order. -/
def matchLoop (cg : CompiledGrammar) (matchFn : String → Nat → Bool) :
    List (Nat × VMThread) → Option Nat → VMState → Res VMState
  | [], _, st => .ok st
  | (vkey, thread) :: rest, prevValidx, st =>
    match matchOne cg matchFn prevValidx vkey thread st with
    | .ok (st', prev') => matchLoop cg matchFn rest prev' st'
    | .panic => .panic
    | .fuelOut => .fuelOut

/-- One iteration of the outer token loop of src/vm.rs: drain `runnable`
(dispatch), reset the `matched` cache, drain `matchable` (match phase),
increment `tokidx`. -/
def outerIter (cg : CompiledGrammar) (matchFn : String → Nat → Bool)
    (minMatch : Nat) (dispatchFuel : Nat) (st : VMState) : Res VMState :=
  match dispatchLoop cg minMatch dispatchFuel st with
  | .ok st1 =>
    match matchLoop cg matchFn st1.matchable none
        { st1 with matchable := [], matched := List.replicate cg.strings.length 0 } with
    | .ok st3 => .ok { st3 with tokidx := st3.tokidx + 1 }
    | .panic => .panic
    | .fuelOut => .fuelOut
  | .panic => .panic
  | .fuelOut => .fuelOut

/-- The outer token loop of src/vm.rs: iterate while `runnable` is
non-empty. -/
def outerLoop (cg : CompiledGrammar) (matchFn : String → Nat → Bool)
    (minMatch : Nat) (dispatchFuel : Nat) : Nat → VMState → Res VMState
  | 0, _ => .fuelOut
  | fuel + 1, st =>
    match st.runnable with
    | [] => .ok st
    | _ :: _ =>
      match outerIter cg matchFn minMatch dispatchFuel st with
      | .ok st' => outerLoop cg matchFn minMatch dispatchFuel fuel st'
      | .panic => .panic
      | .fuelOut => .fuelOut

/-- The initialization loop of `run`: one root RuleStart fragment (refcount
1, no parent) and one runnable thread per production of the start
nonterminal. -/
def initLoop (ntStartIdx : Nat) : List Nat → VMState → VMState
  | [], st => st
  | addr :: rest, st =>
    initLoop ntStartIdx rest
      { st with
        fragments := st.fragments ++ [⟨1, .RuleStart none none ntStartIdx⟩],
        runnable := ⟨none, addr, st.fragments.length⟩ :: st.runnable }

/-- The state of `run` just before the outer loop. -/
def initState (cg : CompiledGrammar) (ntStartIdx : Nat) : VMState :=
  initLoop ntStartIdx (cg.lookupNontermIdx ntStartIdx)
    { fragments := [], tails := [], runnable := [], freelist := [],
      matchable := [], sharedStack := [],
      tokidx := 0, matched := List.replicate cg.strings.length 0,
      calls := [], completions := [] }

/-- vm::run, returning the final VM state.  The `.unwrap()` on
`lookup_string(nt_start)` is the first possible panic. -/
def runVM (cg : CompiledGrammar) (ntStart : String)
    (matchFn : String → Nat → Bool) (minMatch : Nat) (fuel : Nat) : Res VMState :=
  match cg.lookupString ntStart with
  | none => .panic
  | some idx => outerLoop cg matchFn minMatch fuel fuel (initState cg idx)

/-- ParsedTrees from src/vm.rs. -/
structure ParsedTrees where
  fragments : List ParseFragment
  tails : List (Nat × Nat)
  strings : List String
deriving DecidableEq, Repr

/-- ParsedTrees built from the final VM state, as in the last line of
vm::run. -/
def mkParsedTrees (cg : CompiledGrammar) (st : VMState) : ParsedTrees :=
  ⟨st.fragments, st.tails, cg.strings⟩

/-- vm::run as the public API: the returned ParsedTrees. -/
def runF (cg : CompiledGrammar) (ntStart : String)
    (matchFn : String → Nat → Bool) (minMatch : Nat) (fuel : Nat) : Res ParsedTrees :=
  match runVM cg ntStart matchFn minMatch fuel with
  | .ok st => .ok (mkParsedTrees cg st)
  | .panic => .panic
  | .fuelOut => .fuelOut

/-- ParsedTrees::count. -/
def ParsedTrees.count (p : ParsedTrees) : Nat :=
  p.tails.length

/-- ParsedTrees::count_at_n. -/
def ParsedTrees.countAtN (p : ParsedTrees) (n : Nat) : Nat :=
  (p.tails.filter (fun x => n ≤ x.2)).length

/-- Streaming events: the three StreamingHandler callbacks, with string
table indices already resolved. -/
inductive Event where
  | startEv : String → Option String → Event
  | endEv : String → Option String → Event
  | termEv : Nat → Option String → Event
deriving DecidableEq, Repr

/-- Resolution of an optional string-table index; an out-of-bounds index
is a Rust panic (`none`). -/
def resolveName (strings : List String) : Option Nat → Option (Option String)
  | none => some none
  | some x => (strings.get? x).map some

/-- The event a non-first spine entry produces in ParsedTrees::stream. -/
def fragEvent (strings : List String) (fragments : List ParseFragment)
    (i : Nat) : Option Event :=
  match fragments.get? i with
  | none => none
  | some f =>
    match f.value with
    | .RuleStart _ name ntname =>
      match resolveName strings name, strings.get? ntname with
      | some ns, some nt => some (.startEv nt ns)
      | _, _ => none
    | .RuleTermValue _ tok name =>
      match resolveName strings name with
      | some ns => some (.termEv tok ns)
      | none => none
    | .RuleNonTerm _ ntnameidx evName =>
      match resolveName strings evName, strings.get? ntnameidx with
      | some ns, some nt => some (.endEv nt ns)
      | _, _ => none

/-- ParsedTrees::stream: the first spine entry must be a RuleStart (else
panic); it emits `start`, then one event per following entry, then a
closing `end` with the root's names. -/
def streamEvents (strings : List String) (fragments : List ParseFragment)
    (indexes : List Nat) : Option (List Event) :=
  match indexes with
  | [] => none
  | i0 :: rest =>
    match fragments.get? i0 with
    | some ⟨_, .RuleStart _ name ntname⟩ =>
      match resolveName strings name, strings.get? ntname with
      | some ns, some nt =>
        match rest.mapM (fragEvent strings fragments) with
        | some evs => some (.startEv nt ns :: evs ++ [.endEv nt ns])
        | none => none
      | _, _ => none
    | _ => none

/-- The backward chain walk of ParsedTrees::execute, collecting fragment
indices from the tail down to the root (`usize::MAX`). -/
def chainWalk (fragments : List ParseFragment) : Nat → Nat → Option (List Nat)
  | 0, _ => none
  | fuel + 1, curr =>
    match fragments.get? curr with
    | none => none
    | some f =>
      match f.prevIdx with
      | none => some [curr]
      | some p => (chainWalk fragments fuel p).map (fun l => curr :: l)

/-- ParsedTrees::execute on tail `tidx`, as the emitted event list;
`none` is a panic (bad `tidx`, broken chain or bad string index) or a
chain longer than the arena (impossible for states `run` produces). -/
def executeEvents (p : ParsedTrees) (tidx : Nat) : Option (List Event) :=
  match p.tails.get? tidx with
  | none => none
  | some (fragidx, _) =>
    match chainWalk p.fragments (p.fragments.length + 1) fragidx with
    | none => none
    | some idxs => streamEvents p.strings p.fragments idxs.reverse

/-! Concrete grammars used as witnesses and counterexamples.  Each is the
image under `compile_grammar` of the surface grammar named in its
comment (string table in interning order, opcodes in emission order). -/

/-- Grammar `S : 'a' ;` (strings S=0, a=1). -/
def cgA : CompiledGrammar :=
  ⟨[(0, [0])], ["S", "a"], [.Match 1 none, .Return 0 none]⟩

/-- Oracle for `cgA`: the single input token is `a`. -/
def orA : String → Nat → Bool := fun s i => s = "a" && i = 0

/-- Grammar `S : X(b) ; X : 'x' \`p\` ;` (strings S=0 X=1 b=2 x=3 p=4): the
component X is bound under name `b`, the production of X is labelled `p`. -/
def cgBind : CompiledGrammar :=
  ⟨[(0, [0]), (1, [2])], ["S", "X", "b", "x", "p"],
   [.Fork 1 (some 2), .Return 0 none, .Match 3 none, .Return 1 (some 4)]⟩

/-- Oracle for `cgBind`: the single input token is `x`. -/
def orX : String → Nat → Bool := fun s i => s = "x" && i = 0

/-- Grammar `S : 'x' | 'y' | 'z' ;` (strings S=0 x=1 y=2 z=3). -/
def cg3 : CompiledGrammar :=
  ⟨[(0, [0, 2, 4])], ["S", "x", "y", "z"],
   [.Match 1 none, .Return 0 none, .Match 2 none, .Return 0 none,
    .Match 3 none, .Return 0 none]⟩

/-- Oracle for `cg3`: the single input token is `z`. -/
def orZ : String → Nat → Bool := fun s i => s = "z" && i = 0

/-- Grammar `S : 'a' | 'a' ;` (strings S=0 a=1): two productions whose
first component expects the same literal. -/
def cgAA : CompiledGrammar :=
  ⟨[(0, [0, 2])], ["S", "a"],
   [.Match 1 none, .Return 0 none, .Match 1 none, .Return 0 none]⟩

/-- Grammar `Q : Q ;` (strings Q=0): the start nonterminal forks into
itself before consuming any token. -/
def cgQ : CompiledGrammar := ⟨[(0, [0])], ["Q"], [.Fork 0 none, .Return 0 none]⟩

/-- The final state of running `cgA` on token `a` with `min_match = 5`
(used to instantiate theorems at a concrete successful run). -/
def stA5 : VMState :=
  match runVM cgA "S" orA 5 10 with
  | .ok st => st
  | _ => initState cgA 0

/-- The final state of running `cgA` on token `a` with `min_match = 0`. -/
def stA0 : VMState :=
  match runVM cgA "S" orA 0 10 with
  | .ok st => st
  | _ => initState cgA 0

/-- The final state of running `cgBind` on token `x` with `min_match = 0`. -/
def stBind : VMState :=
  match runVM cgBind "S" orX 0 10 with
  | .ok st => st
  | _ => initState cgBind 0

/-- The final state of running `cg3` on token `z` with `min_match = 0`. -/
def stC3run : VMState :=
  match runVM cg3 "S" orZ 0 10 with
  | .ok st => st
  | _ => initState cg3 0

/-- The state of `cgA`'s run after its first outer iteration. -/
def stC10 : VMState :=
  match outerIter cgA orA 0 10 (initState cgA 0) with
  | .ok st => st
  | _ => initState cgA 0

/-- The state of `cgA`'s run after the first dispatch phase. -/
def stC10d : VMState :=
  match dispatchLoop cgA 0 10 (initState cgA 0) with
  | .ok st => st
  | _ => initState cgA 0

/-- The final state of running `cgAA` (two productions expecting the same
literal) on token `a`. -/
def stAArun : VMState :=
  match runVM cgAA "S" orA 0 10 with
  | .ok st => st
  | _ => initState cgAA 0

/-- The `matched` cache only ever holds 0, 1 or -1. -/
def MatchedVals (st : VMState) : Prop :=
  ∀ m ∈ st.matched, m = 0 ∨ m = 1 ∨ m = -1

/-- Invariant of the ghost call log inside a match phase: every recorded
call has a valid string index and either belongs to an earlier token
phase or to the current one — and in the latter case the per-token cache
holds its (nonzero) decision, which is what prevents a second call for
the same literal. -/
def CallsPhaseInv (cg : CompiledGrammar) (st : VMState) : Prop :=
  (∀ c ∈ st.calls, c.1 < cg.strings.length ∧
    (c.2 < st.tokidx ∨ (c.2 = st.tokidx ∧ ∃ m, st.matched.get? c.1 = some m ∧ m ≠ 0))) ∧
  st.calls.Nodup ∧ MatchedVals st

/-- Invariant of the ghost call log at the top of the outer token loop. -/
def CallsOuterInv (cg : CompiledGrammar) (st : VMState) : Prop :=
  (∀ c ∈ st.calls, c.1 < cg.strings.length ∧ c.2 < st.tokidx) ∧ st.calls.Nodup

/-- The `matchable` work list is sorted by nondecreasing `value_idx`. -/
def MatchableSorted (st : VMState) : Prop :=
  (st.matchable.map (fun x => x.1)).Pairwise (· ≤ ·)

/-- The state of `cgAA`'s run after the first dispatch phase: both
productions' threads are parked on the same `value_idx`. -/
def stAAd : VMState :=
  match dispatchLoop cgAA 0 10 (initState cgAA 0) with
  | .ok st => st
  | _ => initState cgAA 0

/-- The `freelist` is sorted ascending. -/
def FreelistSorted (st : VMState) : Prop :=
  st.freelist.Pairwise (· ≤ ·)

/-- The state of `cg3`'s run after its first outer iteration: the `x` and
`y` threads died (freeing two slots), the `z` thread allocated. -/
def stC8 : VMState :=
  match outerIter cg3 orZ 0 10 (initState cg3 0) with
  | .ok st => st
  | _ => initState cg3 0

/-- Refcount stored at an arena slot (0 out of bounds). -/
def rcAt (frags : List ParseFragment) (i : Nat) : Nat :=
  match frags.get? i with
  | some f => f.refcount
  | none => 0

/-- Whether the fragment at slot `i` stores an arena reference (a
`parent`, `prev` or `child` out-edge); only a parentless RuleStart has
none. -/
def hasEdgeB (frags : List ParseFragment) (i : Nat) : Bool :=
  match frags.get? i with
  | some f => f.prevIdx.isSome
  | none => false

/-- Sum of all refcounts in the arena.  Freed slots hold refcount 0 (part
of `RcInv`), so this equals the sum of refcounts over live fragments. -/
def totalRc (frags : List ParseFragment) : Nat :=
  (frags.map (fun f => f.refcount)).sum

/-- Number of arena slots (live or freed) whose fragment stores an
out-edge. -/
def edgesAll (frags : List ParseFragment) : Nat :=
  (frags.map (fun f => if f.prevIdx.isSome then 1 else 0)).sum

/-- Number of freed slots whose stale fragment stores an out-edge. -/
def freedEdges (frags : List ParseFragment) (fl : List Nat) : Nat :=
  (fl.map (fun i => if hasEdgeB frags i then 1 else 0)).sum

/-- The refcount accounting invariant: freed slots hold refcount 0, the
free-list is duplicate-free and in bounds, and the sum of refcounts over
live fragments (= `totalRc`) equals live threads + recorded top-level
completions + live fragments possessing an out-edge
(= `edgesAll - freedEdges`). -/
def RcInv (st : VMState) : Prop :=
  (∀ i ∈ st.freelist, rcAt st.fragments i = 0) ∧
  (∀ i ∈ st.freelist, i < st.fragments.length) ∧
  st.freelist.Nodup ∧
  totalRc st.fragments + freedEdges st.fragments st.freelist =
    st.runnable.length + st.matchable.length + st.completions.length +
      edgesAll st.fragments

/-- The refcount accounting with `pending` additional references held by
popped threads or the drained match work list. -/
def RcPend (st : VMState) (pending : Nat) : Prop :=
  (∀ i ∈ st.freelist, rcAt st.fragments i = 0) ∧
  (∀ i ∈ st.freelist, i < st.fragments.length) ∧
  st.freelist.Nodup ∧
  totalRc st.fragments + freedEdges st.fragments st.freelist =
    st.runnable.length + st.matchable.length + pending + st.completions.length +
      edgesAll st.fragments

/-- The fragment value stored at a slot (refcount stripped): reclamation
only rewrites refcounts, so chain structure depends on `valueAt` alone. -/
def valueAt (frags : List ParseFragment) (i : Nat) : Option FragmentType :=
  match frags.get? i with
  | some f => some f.value
  | none => none

/-- prev_fragment as a partial arena function. -/
def prevOf (frags : List ParseFragment) (j : Nat) : Option Nat :=
  match frags.get? j with
  | some f => f.prevIdx
  | none => none

/-- The chain from a fragment head down to a root, together with the
stack of still-open `(ntname, binding-name)` pairs it leaves behind.
`ns` lists the visited slots head-first (exactly the list the backward
walk of ParsedTrees::execute collects); `ops` lists the open
nonterminals outermost-first.  A `close` node must close the innermost
open nonterminal with an equal name index, and run-produced chains never
empty the stack mid-chain, which `term`/`close` record. -/
inductive SpineL (frags : List ParseFragment) :
    Nat → List Nat → List (Nat × Option Nat) → Prop where
  | root (i : Nat) (name : Option Nat) (nt : Nat)
      (h : valueAt frags i = some (.RuleStart none name nt)) :
      SpineL frags i [i] [(nt, name)]
  | start (i p : Nat) (name : Option Nat) (nt : Nat) (ns : List Nat)
      (ops : List (Nat × Option Nat))
      (h : valueAt frags i = some (.RuleStart (some p) name nt))
      (hp : SpineL frags p ns ops) :
      SpineL frags i (i :: ns) (ops ++ [(nt, name)])
  | term (i p tok : Nat) (name : Option Nat) (ns : List Nat)
      (ops : List (Nat × Option Nat))
      (h : valueAt frags i = some (.RuleTermValue p tok name))
      (hp : SpineL frags p ns ops) (hne : ops ≠ []) :
      SpineL frags i (i :: ns) ops
  | close (i c nt : Nat) (ev : Option Nat) (name : Option Nat) (ns : List Nat)
      (ops : List (Nat × Option Nat))
      (h : valueAt frags i = some (.RuleNonTerm c nt ev))
      (hp : SpineL frags c ns (ops ++ [(nt, name)])) (hne : ops ≠ []) :
      SpineL frags i (i :: ns) ops

/-- The correspondence between a thread's shared-stack pointer and its
spine's open-nonterminal stack: each stack level was pushed by a Fork
whose address the item records, and the opens below that level end in
the forking production's nonterminal. -/
inductive TChain (cg : CompiledGrammar) (ntOf : Nat → Nat)
    (stack : List SharedStackItem) :
    Option Nat → List (Nat × Option Nat) → Prop where
  | top (p : Nat × Option Nat) : TChain cg ntOf stack none [p]
  | push (s : Nat) (item : SharedStackItem) (ops : List (Nat × Option Nat))
      (p : Nat × Option Nat) (ntidx : Nat) (fnam : Option Nat)
      (hs : stack.get? s = some item)
      (hop : cg.opAt item.u = some (.Fork ntidx fnam))
      (hnt : (ops.getLast?).map Prod.fst = some (ntOf item.u))
      (hrec : TChain cg ntOf stack item.prev ops) :
      TChain cg ntOf stack (some s) (ops ++ [p])

/-- A live thread's chain facts: its fragment heads a duplicate-free
spine whose opens agree with its shared-stack pointer and end in the
nonterminal of the production its `ip` sits in. -/
def ThreadOk (cg : CompiledGrammar) (ntOf : Nat → Nat) (st : VMState)
    (t : VMThread) : Prop :=
  ∃ ns ops, SpineL st.fragments t.fragidx ns ops ∧ ns.Nodup ∧
    TChain cg ntOf st.sharedStack t.sp ops ∧
    (ops.getLast?).map Prod.fst = some (ntOf t.ip)

/-- A recorded tail heads a duplicate-free spine with exactly the root
nonterminal left open. -/
def TailOk (frags : List ParseFragment) (k : Nat) : Prop :=
  ∃ ns nt name, SpineL frags k ns [(nt, name)] ∧ ns.Nodup

/-- Number of live references a slot receives from fragment out-edges
(freed slots' stale edges do not count). -/
def linkRefs (frags : List ParseFragment) (fl : List Nat) (i : Nat) : Nat :=
  ((List.range frags.length).filter
    (fun j => decide (j ∉ fl) && decide (prevOf frags j = some i))).length

/-- Number of references a slot receives from thread heads and recorded
tails. -/
def headRefs (st : VMState) (i : Nat) : Nat :=
  (st.runnable.map (fun t => t.fragidx)).count i +
  (st.matchable.map (fun p => p.2.fragidx)).count i +
  (st.tails.map (fun c => c.1)).count i

/-- Per-slot refcount soundness with `pend` additional pending references
(for popped threads and the drained match work list): each slot's stored
refcount dominates the references it receives. -/
def RcBoundP (st : VMState) (pend : Nat → Nat) : Prop :=
  ∀ i, headRefs st i + linkRefs st.fragments st.freelist i + pend i ≤
    rcAt st.fragments i

/-- Bounded optional string index. -/
def optLtB (nstr : Nat) : Option Nat → Bool
  | none => true
  | some x => decide (x < nstr)

/-- All string indices stored in a fragment are within the string table. -/
def fragStrOkB (nstr : Nat) (f : ParseFragment) : Bool :=
  match f.value with
  | .RuleStart _ name nt => optLtB nstr name && decide (nt < nstr)
  | .RuleTermValue _ _ name => optLtB nstr name
  | .RuleNonTerm _ nt ev => optLtB nstr ev && decide (nt < nstr)

/-- The grammar-shape facts that hold for every `compile_grammar` output:
`ntOf` assigns each opcode address the nonterminal of its enclosing
production; production entry addresses carry their nonterminal (L1);
Match and Fork never end a production (L2, L3); a Return names its own
production's nonterminal (L4); and all opcode string indices are within
the string table (L5). -/
def GrammarShapeOk (cg : CompiledGrammar) (ntOf : Nat → Nat) : Prop :=
  (∀ pr ∈ cg.ntNames, ∀ a ∈ pr.2, ntOf a = pr.1) ∧
  (∀ ip < cg.opcodes.length,
    match cg.opcodes.get? ip with
    | some (.Match _ _) => ntOf (ip + 1) = ntOf ip
    | some (.Fork _ _) => ntOf (ip + 1) = ntOf ip
    | some (.Return nt _) => nt = ntOf ip
    | _ => True) ∧
  (∀ ip < cg.opcodes.length,
    match cg.opcodes.get? ip with
    | some (.Match v nm) => v < cg.strings.length ∧ optLtB cg.strings.length nm = true
    | some (.Fork nt nm) => nt < cg.strings.length ∧ optLtB cg.strings.length nm = true
    | some (.Return nt nm) => nt < cg.strings.length ∧ optLtB cg.strings.length nm = true
    | none => True)

/-- The chain invariant of `run`: every live head (runnable thread,
parked matchable thread, recorded tail) heads a well-formed spine,
per-slot refcounts dominate references, and all stored string indices
are in bounds. -/
def ChainInv (cg : CompiledGrammar) (ntOf : Nat → Nat) (st : VMState) : Prop :=
  (∀ t ∈ st.runnable, ThreadOk cg ntOf st t) ∧
  (∀ p ∈ st.matchable, ThreadOk cg ntOf st p.2) ∧
  (∀ c ∈ st.tails, TailOk st.fragments c.1) ∧
  RcBoundP st (fun _ => 0) ∧
  (∀ f ∈ st.fragments, fragStrOkB cg.strings.length f = true) ∧
  (∀ i ∈ st.freelist, rcAt st.fragments i = 0) ∧
  (∀ i ∈ st.freelist, i < st.fragments.length) ∧
  st.freelist.Nodup

/-- The depth counter of claim C3 run over an event list: `start`
increments, `end` decrements (failing at depth 0), `term` requires
depth at least 1. -/
def depthRun : Nat → List Event → Option Nat
  | d, [] => some d
  | d, .startEv _ _ :: r => depthRun (d + 1) r
  | d, .termEv _ _ :: r => if d = 0 then none else depthRun d r
  | d, .endEv _ _ :: r => if d = 0 then none else depthRun (d - 1) r

/-- The nesting checker for the amended claim C2: a stack of open
nonterminal names; each `end` must close the innermost open `start`
with an equal nonterminal name; `term` requires an open nonterminal. -/
def stackRun : List String → List Event → Option (List String)
  | stk, [] => some stk
  | stk, .startEv nt _ :: r => stackRun (nt :: stk) r
  | stk, .termEv _ _ :: r =>
    match stk with
    | [] => none
    | _ :: _ => stackRun stk r
  | stk, .endEv nt _ :: r =>
    match stk with
    | [] => none
    | t :: stk' => if t = nt then stackRun stk' r else none

/-- The checker for claim C2 as stated: each `end` must carry both the
same nonterminal name and the same optional binding name as the `start`
it closes. -/
def pairRun : List (String × Option String) → List Event →
    Option (List (String × Option String))
  | stk, [] => some stk
  | stk, .startEv nt nm :: r => pairRun ((nt, nm) :: stk) r
  | stk, .termEv _ _ :: r =>
    match stk with
    | [] => none
    | _ :: _ => pairRun stk r
  | stk, .endEv nt nm :: r =>
    match stk with
    | [] => none
    | t :: stk' => if t.1 = nt ∧ t.2 = nm then pairRun stk' r else none

/-- `ntOf` for `cgA` and `cg3` (every address is in a production of the
single nonterminal `S`). -/
def ntOfZero : Nat → Nat := fun _ => 0

/-- `ntOf` for `cgBind`: addresses 0, 1 belong to `S`, addresses 2, 3 to
`X`. -/
def ntOfBind : Nat → Nat := fun ip => if ip < 2 then 0 else 1

/-! ### Basic field-preservation lemmas -/

theorem forkChildren_fields (retIp : Nat) (parentSp : Option Nat) (slot : Nat) :
    ∀ (l : List Nat) (st : VMState),
    (forkChildren retIp parentSp slot l st).tails = st.tails ∧
    (forkChildren retIp parentSp slot l st).completions = st.completions ∧
    (forkChildren retIp parentSp slot l st).freelist = st.freelist ∧
    (forkChildren retIp parentSp slot l st).matchable = st.matchable ∧
    (forkChildren retIp parentSp slot l st).tokidx = st.tokidx ∧
    (forkChildren retIp parentSp slot l st).matched = st.matched ∧
    (forkChildren retIp parentSp slot l st).calls = st.calls := by
  intro l
  induction l with
  | nil => intro st; simp [forkChildren]
  | cons a rest ih =>
    intro st
    simpa [forkChildren] using ih _

/-- dispatchOne only ever appends to `tails` and `completions`, keeping
`tails` equal to the `min_match`-filtered completions. -/
theorem dispatchOne_tails_filter (cg : CompiledGrammar) (minMatch : Nat)
    (st : VMState) (t : VMThread) (st' : VMState)
    (h : dispatchOne cg minMatch st t = .ok st')
    (hinv : st.tails = st.completions.filter (fun c => minMatch ≤ c.2)) :
    st'.tails = st'.completions.filter (fun c => minMatch ≤ c.2) := by
  unfold dispatchOne at h
  repeat' split at h
  all_goals try exact Res.noConfusion h
  all_goals (simp only [Res.ok.injEq] at h; subst h)
  all_goals first
    | simpa using hinv
    | (obtain ⟨h1, h2, -⟩ := forkChildren_fields _ _ _ _ _
       rw [h1, h2]; simpa using hinv)
    | simp_all [List.filter_append]

theorem dispatchLoop_tails_filter (cg : CompiledGrammar) (minMatch : Nat) :
    ∀ (fuel : Nat) (st st' : VMState),
    dispatchLoop cg minMatch fuel st = .ok st' →
    st.tails = st.completions.filter (fun c => minMatch ≤ c.2) →
    st'.tails = st'.completions.filter (fun c => minMatch ≤ c.2) := by
  intro fuel
  induction fuel with
  | zero => intro st st' h; exact Res.noConfusion h
  | succ n ih =>
    intro st st' h hinv
    rw [dispatchLoop] at h
    split at h
    · simp only [Res.ok.injEq] at h
      subst h; exact hinv
    · split at h
      · rename_i st1 hd
        exact ih _ _ h (dispatchOne_tails_filter cg minMatch _ _ st1 hd (by simpa using hinv))
      · exact Res.noConfusion h
      · exact Res.noConfusion h

theorem matchConsult_tails_completions (cg : CompiledGrammar)
    (matchFn : String → Nat → Bool) (validx : Nat) (st : VMState)
    (r : Bool) (st1 : VMState)
    (h : matchConsult cg matchFn validx st = .ok (r, st1)) :
    st1.tails = st.tails ∧ st1.completions = st.completions := by
  unfold matchConsult at h
  repeat' split at h
  all_goals try exact Res.noConfusion h
  all_goals
    (simp only [Res.ok.injEq, Prod.mk.injEq] at h
     obtain ⟨-, h⟩ := h
     subst h
     exact ⟨rfl, rfl⟩)

theorem matchProceed_tails_completions (thread : VMThread) (vkey : Nat)
    (nameidx : Option Nat) (r : Bool) (st1 : VMState) (st' : VMState)
    (prev' : Option Nat)
    (h : matchProceed thread vkey nameidx r st1 = .ok (st', prev')) :
    st'.tails = st1.tails ∧ st'.completions = st1.completions := by
  unfold matchProceed at h
  repeat' split at h
  all_goals try exact Res.noConfusion h
  all_goals
    (simp only [Res.ok.injEq, Prod.mk.injEq] at h
     obtain ⟨h, -⟩ := h
     subst h
     exact ⟨rfl, rfl⟩)

/-- matchOne never touches `tails` or `completions`. -/
theorem matchOne_tails_completions (cg : CompiledGrammar)
    (matchFn : String → Nat → Bool) (prevValidx : Option Nat) (vkey : Nat)
    (thread : VMThread) (st : VMState) (st' : VMState) (prev' : Option Nat)
    (h : matchOne cg matchFn prevValidx vkey thread st = .ok (st', prev')) :
    st'.tails = st.tails ∧ st'.completions = st.completions := by
  unfold matchOne at h
  repeat' split at h
  all_goals try exact Res.noConfusion h
  rename_i r st1 hc
  obtain ⟨h1, h2⟩ := matchConsult_tails_completions _ _ _ _ _ _ hc
  obtain ⟨h3, h4⟩ := matchProceed_tails_completions _ _ _ _ _ _ _ h
  exact ⟨h3.trans h1, h4.trans h2⟩

theorem matchLoop_tails_completions (cg : CompiledGrammar)
    (matchFn : String → Nat → Bool) :
    ∀ (work : List (Nat × VMThread)) (prev : Option Nat) (st st' : VMState),
    matchLoop cg matchFn work prev st = .ok st' →
    st'.tails = st.tails ∧ st'.completions = st.completions := by
  intro work
  induction work with
  | nil =>
    intro prev st st' h
    simp only [matchLoop, Res.ok.injEq] at h
    subst h; exact ⟨rfl, rfl⟩
  | cons p rest ih =>
    intro prev st st' h
    rw [matchLoop] at h
    split at h
    · rename_i st1 prev1 hm
      obtain ⟨h1, h2⟩ := matchOne_tails_completions _ _ _ _ _ _ _ _ hm
      obtain ⟨h3, h4⟩ := ih _ _ _ h
      exact ⟨h3.trans h1, h4.trans h2⟩
    · exact Res.noConfusion h
    · exact Res.noConfusion h

theorem outerIter_tails_filter (cg : CompiledGrammar)
    (matchFn : String → Nat → Bool) (minMatch dfuel : Nat) (st st' : VMState)
    (h : outerIter cg matchFn minMatch dfuel st = .ok st')
    (hinv : st.tails = st.completions.filter (fun c => minMatch ≤ c.2)) :
    st'.tails = st'.completions.filter (fun c => minMatch ≤ c.2) := by
  unfold outerIter at h
  split at h
  · rename_i st1 hd
    have hinv1 := dispatchLoop_tails_filter cg minMatch dfuel st st1 hd hinv
    split at h
    · rename_i st3 hm
      obtain ⟨h1, h2⟩ := matchLoop_tails_completions _ _ _ _ _ _ hm
      simp only [Res.ok.injEq] at h
      subst h
      simp only [h1, h2]
      simpa using hinv1
    · exact Res.noConfusion h
    · exact Res.noConfusion h
  · exact Res.noConfusion h
  · exact Res.noConfusion h

theorem outerLoop_tails_filter (cg : CompiledGrammar)
    (matchFn : String → Nat → Bool) (minMatch dfuel : Nat) :
    ∀ (fuel : Nat) (st st' : VMState),
    outerLoop cg matchFn minMatch dfuel fuel st = .ok st' →
    st.tails = st.completions.filter (fun c => minMatch ≤ c.2) →
    st'.tails = st'.completions.filter (fun c => minMatch ≤ c.2) := by
  intro fuel
  induction fuel with
  | zero => intro st st' h; exact Res.noConfusion h
  | succ n ih =>
    intro st st' h hinv
    rw [outerLoop] at h
    split at h
    · simp only [Res.ok.injEq] at h; subst h; exact hinv
    · split at h
      · rename_i st1 ho
        exact ih _ _ h (outerIter_tails_filter cg matchFn minMatch dfuel st st1 ho hinv)
      · exact Res.noConfusion h
      · exact Res.noConfusion h

theorem initLoop_fields (n : Nat) :
    ∀ (l : List Nat) (st : VMState),
    (initLoop n l st).tails = st.tails ∧
    (initLoop n l st).completions = st.completions ∧
    (initLoop n l st).tokidx = st.tokidx ∧
    (initLoop n l st).matchable = st.matchable ∧
    (initLoop n l st).calls = st.calls ∧
    (initLoop n l st).freelist = st.freelist ∧
    (initLoop n l st).sharedStack = st.sharedStack ∧
    (initLoop n l st).matched = st.matched := by
  intro l
  induction l with
  | nil => intro st; simp [initLoop]
  | cons a rest ih =>
    intro st
    simpa [initLoop] using ih _

/-! ### Claim C1 -/

/-- Claim C1, counterexample: `run` does not return normally for every
compiled grammar and start string.  On the compiled grammar of
`S : 'a' ;` with start nonterminal "T" (absent from the string table)
the `.unwrap()` of `lookup_string` panics. -/
theorem c1_counterexample_run_panics : runF cgA "T" orA 0 10 = .panic := by rfl

/-- Claim C1 (amended): whenever `run` does return a ParsedTrees, its
`tails` are exactly the top-level completions that consumed at least
`min_match` tokens; in particular if no top-level derivation completed
with at least `min_match` tokens then `count() == 0`. -/
theorem c1_amended_no_completion_count_zero (cg : CompiledGrammar) (s : String)
    (matchFn : String → Nat → Bool) (minMatch fuel : Nat) (st : VMState)
    (h : runVM cg s matchFn minMatch fuel = .ok st) :
    st.tails = st.completions.filter (fun c => minMatch ≤ c.2) ∧
    ((∀ c ∈ st.completions, c.2 < minMatch) → (mkParsedTrees cg st).count = 0) := by
  unfold runVM at h
  split at h
  · exact Res.noConfusion h
  · rename_i idx hidx
    have hinit : (initState cg idx).tails =
        (initState cg idx).completions.filter (fun c => minMatch ≤ c.2) := by
      unfold initState
      obtain ⟨h1, h2, -⟩ := initLoop_fields idx (cg.lookupNontermIdx idx) _
      rw [h1, h2]
      rfl
    have hinv := outerLoop_tails_filter cg matchFn minMatch fuel fuel _ st h hinit
    refine ⟨hinv, fun hall => ?_⟩
    have : st.completions.filter (fun c => minMatch ≤ c.2) = [] := by
      apply List.filter_eq_nil_iff.mpr
      intro c hc
      simpa using Nat.not_le.mpr (hall c hc)
    simp [mkParsedTrees, ParsedTrees.count, hinv, this]

/-- Claim C1, witness: the grammar `S : 'a' ;` on input token `a` with
`min_match = 5` terminates with one completion (at token index 1 < 5)
and zero tails, and the amended theorem applies to it. -/
theorem c1_witness :
    runVM cgA "S" orA 5 10 = .ok stA5 ∧
    stA5.tails = stA5.completions.filter (fun c => 5 ≤ c.2) ∧
    ((∀ c ∈ stA5.completions, c.2 < 5) → (mkParsedTrees cgA stA5).count = 0) ∧
    (mkParsedTrees cgA stA5).count = 0 := by
  have h : runVM cgA "S" orA 5 10 = .ok stA5 := by rfl
  have := c1_amended_no_completion_count_zero cgA "S" orA 5 10 stA5 h
  exact ⟨h, this.1, this.2, this.2 (by decide)⟩

/-! ### Claim C9 -/

theorem forkChildren_runnable_mono (retIp : Nat) (parentSp : Option Nat)
    (slot : Nat) :
    ∀ (l : List Nat) (st : VMState) (x : VMThread),
    x ∈ st.runnable → x ∈ (forkChildren retIp parentSp slot l st).runnable := by
  intro l
  induction l with
  | nil => intro st x hx; simpa [forkChildren] using hx
  | cons a rest ih =>
    intro st x hx
    rw [forkChildren]
    exact ih _ x (by simp [hx])

theorem forkChildren_child_mem (retIp : Nat) (parentSp : Option Nat)
    (slot : Nat) :
    ∀ (l : List Nat) (st : VMState) (a : Nat),
    a ∈ l → ∃ t, t ∈ (forkChildren retIp parentSp slot l st).runnable ∧ t.ip = a := by
  intro l
  induction l with
  | nil => intro st a ha; exact absurd ha (by simp)
  | cons b rest ih =>
    intro st a ha
    rw [forkChildren]
    rcases List.mem_cons.mp ha with h | h
    · subst h
      exact ⟨⟨some st.sharedStack.length, a, slot⟩,
        forkChildren_runnable_mono retIp parentSp slot rest _ _ (by simp), rfl⟩
    · exact ih _ a h

theorem dispatchOne_runnable_mono (cg : CompiledGrammar) (minMatch : Nat)
    (st : VMState) (t : VMThread) (st' : VMState)
    (h : dispatchOne cg minMatch st t = .ok st') :
    ∀ x ∈ st.runnable, x ∈ st'.runnable := by
  unfold dispatchOne at h
  repeat' split at h
  all_goals try exact Res.noConfusion h
  all_goals (simp only [Res.ok.injEq] at h; subst h)
  all_goals intro x hx
  all_goals first
    | exact hx
    | simpa using hx
    | exact forkChildren_runnable_mono _ _ _ _ _ _ (by simpa using hx)
    | simp [hx]

/-- A fork-closed set of addresses: every address in `L` holds a Fork
opcode one of whose target production addresses is again in `L`. -/
def ForkClosed (cg : CompiledGrammar) (L : List Nat) : Prop :=
  ∀ ip ∈ L, ∃ nt nm, cg.opAt ip = some (.Fork nt nm) ∧
    ∃ a, a ∈ cg.lookupNontermIdx nt ∧ a ∈ L

theorem dispatchLoop_stuck (cg : CompiledGrammar) (minMatch : Nat)
    (L : List Nat) (hL : ForkClosed cg L) :
    ∀ (fuel : Nat) (st : VMState), (∃ t ∈ st.runnable, t.ip ∈ L) →
    ∀ st', dispatchLoop cg minMatch fuel st ≠ .ok st' := by
  intro fuel
  induction fuel with
  | zero => intro st _ st' h; exact Res.noConfusion h
  | succ n ih =>
    intro st hex st' h
    obtain ⟨t, ht, htL⟩ := hex
    rw [dispatchLoop] at h
    split at h
    · rename_i heq
      rw [heq] at ht
      exact absurd ht (by simp)
    · rename_i thread rest heq
      split at h
      · rename_i st1 hd
        rw [heq] at ht
        rcases List.mem_cons.mp ht with hth | hth
        · -- the fork-closed thread is the dispatched one: it forks a child
          -- whose address is again in L
          subst hth
          obtain ⟨nt, nm, hop, a, ha, haL⟩ := hL t.ip htL
          unfold dispatchOne at hd
          simp only [hop] at hd
          simp only [Res.ok.injEq] at hd
          subst hd
          obtain ⟨th, hthmem, hthip⟩ :=
            forkChildren_child_mem t.ip t.sp _ (cg.lookupNontermIdx nt) _ a ha
          exact ih _ ⟨th, hthmem, hthip ▸ haL⟩ st' h
        · have := dispatchOne_runnable_mono cg minMatch _ thread st1 hd t (by simpa using hth)
          exact ih _ ⟨t, this, htL⟩ st' h
      · exact Res.noConfusion h
      · exact Res.noConfusion h

theorem outerIter_stuck (cg : CompiledGrammar) (matchFn : String → Nat → Bool)
    (minMatch dfuel : Nat) (L : List Nat) (hL : ForkClosed cg L) (st : VMState)
    (hex : ∃ t ∈ st.runnable, t.ip ∈ L) :
    ∀ st', outerIter cg matchFn minMatch dfuel st ≠ .ok st' := by
  intro st' h
  unfold outerIter at h
  split at h
  · rename_i st1 hd
    exact dispatchLoop_stuck cg minMatch L hL dfuel st hex st1 hd
  · exact Res.noConfusion h
  · exact Res.noConfusion h

theorem outerLoop_stuck (cg : CompiledGrammar) (matchFn : String → Nat → Bool)
    (minMatch dfuel : Nat) (L : List Nat) (hL : ForkClosed cg L) :
    ∀ (fuel : Nat) (st : VMState), (∃ t ∈ st.runnable, t.ip ∈ L) →
    ∀ st', outerLoop cg matchFn minMatch dfuel fuel st ≠ .ok st' := by
  intro fuel
  cases fuel with
  | zero => intro st _ st' h; exact Res.noConfusion h
  | succ n =>
    intro st hex st' h
    rw [outerLoop] at h
    split at h
    · rename_i heq
      obtain ⟨t, ht, -⟩ := hex
      rw [heq] at ht
      exact absurd ht (by simp)
    · split at h
      · rename_i st1 ho
        exact outerIter_stuck cg matchFn minMatch dfuel L hL _ hex st1 ho
      · exact Res.noConfusion h
      · exact Res.noConfusion h

theorem initLoop_child_mem (n : Nat) :
    ∀ (l : List Nat) (st : VMState) (a : Nat),
    a ∈ l → ∃ t, t ∈ (initLoop n l st).runnable ∧ t.ip = a := by
  intro l
  have mono : ∀ (l' : List Nat) (st : VMState) (x : VMThread),
      x ∈ st.runnable → x ∈ (initLoop n l' st).runnable := by
    intro l'
    induction l' with
    | nil => intro st x hx; simpa [initLoop] using hx
    | cons b rest ih =>
      intro st x hx
      rw [initLoop]
      exact ih _ x (by simp [hx])
  induction l with
  | nil => intro st a ha; exact absurd ha (by simp)
  | cons b rest ih =>
    intro st a ha
    rw [initLoop]
    rcases List.mem_cons.mp ha with h | h
    · subst h
      exact ⟨⟨none, a, st.fragments.length⟩, mono rest _ _ (by simp), rfl⟩
    · exact ih _ a h

/-- Claim C9: on any grammar with a fork-closed address set reachable at
the start nonterminal's first position — e.g. a start nonterminal `Q`
whose only production is the single component `Q` — the inner dispatch
loop forks forever in the first token step, so `run` never returns a
ParsedTrees (it exhausts any amount of fuel), for every oracle and every
`min_match`. -/
theorem c9_self_fork_never_returns (cg : CompiledGrammar) (L : List Nat)
    (hL : ForkClosed cg L) (s : String) (idx : Nat)
    (hs : cg.lookupString s = some idx) (a0 : Nat)
    (ha0 : a0 ∈ cg.lookupNontermIdx idx) (haL : a0 ∈ L)
    (matchFn : String → Nat → Bool) (minMatch fuel : Nat) (st : VMState) :
    runVM cg s matchFn minMatch fuel ≠ .ok st := by
  intro h
  unfold runVM at h
  rw [hs] at h
  have hex : ∃ t ∈ (initState cg idx).runnable, t.ip ∈ L := by
    obtain ⟨t, htm, hti⟩ := initLoop_child_mem idx (cg.lookupNontermIdx idx) _ a0 ha0
    exact ⟨t, htm, hti ▸ haL⟩
  exact outerLoop_stuck cg matchFn minMatch fuel L hL fuel _ hex st h

/-- Claim C9, witness: the compiled grammar of `Q : Q ;` with start `Q`
diverges (here instantiated at fuel 7, the all-true oracle, min_match 0). -/
theorem c9_witness :
    runVM cgQ "Q" (fun _ _ => true) 0 7 ≠ .ok (initState cgQ 0) := by
  apply c9_self_fork_never_returns cgQ [0] ?hL "Q" 0 (by rfl) 0 (by decide) (by decide)
  intro ip hip
  have : ip = 0 := by simpa using hip
  subst this
  exact ⟨0, none, rfl, 0, by decide, by decide⟩

/-! ### Claim C10 -/

/-- dispatchOne leaves `calls`, `tokidx` and `matched` untouched. -/
theorem dispatchOne_calls_tokidx (cg : CompiledGrammar) (minMatch : Nat)
    (st : VMState) (t : VMThread) (st' : VMState)
    (h : dispatchOne cg minMatch st t = .ok st') :
    st'.calls = st.calls ∧ st'.tokidx = st.tokidx ∧ st'.matched = st.matched := by
  unfold dispatchOne at h
  repeat' split at h
  all_goals try exact Res.noConfusion h
  all_goals (simp only [Res.ok.injEq] at h; subst h)
  all_goals first
    | exact ⟨rfl, rfl, rfl⟩
    | (obtain ⟨-, -, -, -, h5, h6, h7⟩ := forkChildren_fields _ _ _ _ _
       exact ⟨h7, h5, h6⟩)

theorem dispatchLoop_calls_tokidx (cg : CompiledGrammar) (minMatch : Nat) :
    ∀ (fuel : Nat) (st st' : VMState),
    dispatchLoop cg minMatch fuel st = .ok st' →
    st'.calls = st.calls ∧ st'.tokidx = st.tokidx ∧ st'.matched = st.matched := by
  intro fuel
  induction fuel with
  | zero => intro st st' h; exact Res.noConfusion h
  | succ n ih =>
    intro st st' h
    rw [dispatchLoop] at h
    split at h
    · simp only [Res.ok.injEq] at h; subst h; exact ⟨rfl, rfl, rfl⟩
    · split at h
      · rename_i st1 hd
        obtain ⟨h1, h2, h3⟩ := dispatchOne_calls_tokidx cg minMatch _ _ st1 hd
        obtain ⟨h4, h5, h6⟩ := ih _ _ h
        exact ⟨h4.trans h1, h5.trans h2, h6.trans h3⟩
      · exact Res.noConfusion h
      · exact Res.noConfusion h

/-- matchConsult only ever appends one call, carrying the current token
index. -/
theorem matchConsult_calls (cg : CompiledGrammar)
    (matchFn : String → Nat → Bool) (validx : Nat) (st : VMState)
    (r : Bool) (st1 : VMState)
    (h : matchConsult cg matchFn validx st = .ok (r, st1)) :
    st1.tokidx = st.tokidx ∧
    (st1.calls = st.calls ∨ st1.calls = st.calls ++ [(validx, st.tokidx)]) := by
  unfold matchConsult at h
  repeat' split at h
  all_goals try exact Res.noConfusion h
  all_goals
    (simp only [Res.ok.injEq, Prod.mk.injEq] at h
     obtain ⟨-, h⟩ := h
     subst h)
  · exact ⟨rfl, Or.inl rfl⟩
  · exact ⟨rfl, Or.inl rfl⟩
  · exact ⟨rfl, Or.inr rfl⟩

theorem matchProceed_calls (thread : VMThread) (vkey : Nat)
    (nameidx : Option Nat) (r : Bool) (st1 : VMState) (st' : VMState)
    (prev' : Option Nat)
    (h : matchProceed thread vkey nameidx r st1 = .ok (st', prev')) :
    st'.calls = st1.calls ∧ st'.tokidx = st1.tokidx ∧ st'.matched = st1.matched := by
  unfold matchProceed at h
  repeat' split at h
  all_goals try exact Res.noConfusion h
  all_goals
    (simp only [Res.ok.injEq, Prod.mk.injEq] at h
     obtain ⟨h, -⟩ := h
     subst h
     exact ⟨rfl, rfl, rfl⟩)

theorem matchOne_calls (cg : CompiledGrammar) (matchFn : String → Nat → Bool)
    (prevValidx : Option Nat) (vkey : Nat) (thread : VMThread)
    (st : VMState) (st' : VMState) (prev' : Option Nat)
    (h : matchOne cg matchFn prevValidx vkey thread st = .ok (st', prev')) :
    st'.tokidx = st.tokidx ∧
    (∀ c ∈ st'.calls, c ∈ st.calls ∨ c.2 = st.tokidx) ∧
    (∀ c ∈ st.calls, c ∈ st'.calls) := by
  unfold matchOne at h
  repeat' split at h
  all_goals try exact Res.noConfusion h
  rename_i r st1 hc
  obtain ⟨h1, h2⟩ := matchConsult_calls _ _ _ _ _ _ hc
  obtain ⟨h3, h4, -⟩ := matchProceed_calls _ _ _ _ _ _ _ h
  refine ⟨h4.trans h1, ?_, ?_⟩
  · intro c hc'
    rw [h3] at hc'
    rcases h2 with h2 | h2
    · rw [h2] at hc'; exact Or.inl hc'
    · rw [h2] at hc'
      rcases List.mem_append.mp hc' with h | h
      · exact Or.inl h
      · right; simp only [List.mem_singleton] at h; subst h; rfl
  · intro c hc'
    rw [h3]
    rcases h2 with h2 | h2
    · rw [h2]; exact hc'
    · rw [h2]; exact List.mem_append.mpr (Or.inl hc')

theorem matchLoop_calls (cg : CompiledGrammar) (matchFn : String → Nat → Bool) :
    ∀ (work : List (Nat × VMThread)) (prev : Option Nat) (st st' : VMState),
    matchLoop cg matchFn work prev st = .ok st' →
    st'.tokidx = st.tokidx ∧
    (∀ c ∈ st'.calls, c ∈ st.calls ∨ c.2 = st.tokidx) ∧
    (∀ c ∈ st.calls, c ∈ st'.calls) := by
  intro work
  induction work with
  | nil =>
    intro prev st st' h
    simp only [matchLoop, Res.ok.injEq] at h
    subst h
    exact ⟨rfl, fun c hc => Or.inl hc, fun c hc => hc⟩
  | cons p rest ih =>
    intro prev st st' h
    rw [matchLoop] at h
    split at h
    · rename_i st1 prev1 hm
      obtain ⟨h1, h2, h3⟩ := matchOne_calls _ _ _ _ _ _ _ _ hm
      obtain ⟨h4, h5, h6⟩ := ih _ _ _ h
      refine ⟨h4.trans h1, ?_, fun c hc => h6 c (h3 c hc)⟩
      intro c hc
      rcases h5 c hc with h | h
      · rcases h2 c h with h' | h'
        · exact Or.inl h'
        · exact Or.inr h'
      · exact Or.inr (h.trans h1)
    · exact Res.noConfusion h
    · exact Res.noConfusion h

/-- When the `matched` cache holds only zeros (as after the per-token
reset), a successful matchOne necessarily invoked `match_fn`, recording a
call at the current token index. -/
theorem matchOne_makes_call (cg : CompiledGrammar) (matchFn : String → Nat → Bool)
    (prevValidx : Option Nat) (vkey : Nat) (thread : VMThread)
    (st : VMState) (st' : VMState) (prev' : Option Nat)
    (h : matchOne cg matchFn prevValidx vkey thread st = .ok (st', prev'))
    (hz : st.matched = List.replicate cg.strings.length 0) :
    ∃ v, (v, st.tokidx) ∈ st'.calls := by
  unfold matchOne at h
  repeat' split at h
  all_goals try exact Res.noConfusion h
  rename_i x validx nameidx hop r st1 hc
  obtain ⟨hcalls, -, -⟩ := matchProceed_calls _ _ _ _ _ _ _ h
  unfold matchConsult at hc
  split at hc
  · exact Res.noConfusion hc
  · rename_i m hm
    rw [hz] at hm
    have hm0 : m = 0 := List.eq_of_mem_replicate (List.get?_mem hm)
    subst hm0
    split at hc
    · rename_i h1; exact absurd h1 (by decide)
    · split at hc
      · rename_i h2; exact absurd h2 (by decide)
      · split at hc
        · exact Res.noConfusion hc
        · simp only [Res.ok.injEq, Prod.mk.injEq] at hc
          obtain ⟨-, hc⟩ := hc
          refine ⟨x, ?_⟩
          rw [hcalls, ← hc]
          simp

/-- Claim C10: within one token phase every `match_fn` invocation carries
the current `tokidx`; `tokidx` starts at 0 and increases by exactly one
per phase; and whenever any thread reaches a Match in a phase (the
post-dispatch `matchable` list is non-empty), `match_fn` is actually
queried at that phase's `tokidx` — the oracle must therefore handle
arbitrarily large indices, unbounded by any input length. -/
theorem c10_tokidx_discipline (cg : CompiledGrammar)
    (matchFn : String → Nat → Bool) (minMatch dfuel : Nat) (st st' : VMState)
    (h : outerIter cg matchFn minMatch dfuel st = .ok st') :
    st'.tokidx = st.tokidx + 1 ∧
    (∀ c ∈ st'.calls, c ∈ st.calls ∨ c.2 = st.tokidx) ∧
    (∀ st1, dispatchLoop cg minMatch dfuel st = .ok st1 → st1.matchable ≠ [] →
      ∃ v, (v, st.tokidx) ∈ st'.calls) ∧
    (∀ idx, (initState cg idx).tokidx = 0) := by
  unfold outerIter at h
  split at h
  case h_2 => exact Res.noConfusion h
  case h_3 => exact Res.noConfusion h
  rename_i st1 hd
  obtain ⟨hdc, hdt, hdm⟩ := dispatchLoop_calls_tokidx cg minMatch dfuel st st1 hd
  split at h
  case h_2 => exact Res.noConfusion h
  case h_3 => exact Res.noConfusion h
  rename_i st3 hm
  obtain ⟨ht3, hc3, hmono3⟩ := matchLoop_calls cg matchFn _ none _ st3 hm
  simp only [Res.ok.injEq] at h
  subst h
  refine ⟨?_, ?_, ?_, fun idx => ?_⟩
  · simp only []
    rw [ht3]
    simp [hdt]
  · intro c hc
    have := hc3 c (by simpa using hc)
    simpa [hdc, hdt] using this
  · intro stx hdx hne
    rw [hd] at hdx
    simp only [Res.ok.injEq] at hdx
    subst hdx
    match hmat : st1.matchable with
    | [] => exact absurd hmat hne
    | p :: rest =>
      rw [hmat, matchLoop] at hm
      split at hm
      case h_2 => exact Res.noConfusion hm
      case h_3 => exact Res.noConfusion hm
      rename_i stm prev1 hmOne
      obtain ⟨v, hv⟩ := matchOne_makes_call cg matchFn none p.1 p.2 _ stm prev1 hmOne rfl
      obtain ⟨-, -, hmono'⟩ := matchLoop_calls cg matchFn rest prev1 stm st3 hm
      refine ⟨v, ?_⟩
      have : (v, st.tokidx) ∈ st3.calls := by
        have h' := hmono' _ hv
        simpa [hdt] using h'
      simpa using this
  · unfold initState
    obtain ⟨-, -, h3, -⟩ := initLoop_fields idx (cg.lookupNontermIdx idx) _
    rw [h3]

/-! ### Claim C5 -/

theorem callsPhaseInv_congr (cg : CompiledGrammar) (st st' : VMState)
    (h1 : st'.calls = st.calls) (h2 : st'.tokidx = st.tokidx)
    (h3 : st'.matched = st.matched) (hinv : CallsPhaseInv cg st) :
    CallsPhaseInv cg st' := by
  unfold CallsPhaseInv MatchedVals at hinv ⊢
  rw [h1, h2, h3]
  exact hinv

theorem matchConsult_callsInv (cg : CompiledGrammar)
    (matchFn : String → Nat → Bool) (validx : Nat) (st : VMState)
    (r : Bool) (st1 : VMState)
    (h : matchConsult cg matchFn validx st = .ok (r, st1))
    (hinv : CallsPhaseInv cg st) : CallsPhaseInv cg st1 := by
  unfold matchConsult at h
  split at h
  · exact Res.noConfusion h
  · rename_i m hm
    split at h
    · simp only [Res.ok.injEq, Prod.mk.injEq] at h
      exact h.2 ▸ hinv
    · split at h
      · simp only [Res.ok.injEq, Prod.mk.injEq] at h
        exact h.2 ▸ hinv
      · split at h
        · exact Res.noConfusion h
        · rename_i hn1 hn2 xs s hs
          simp only [Res.ok.injEq, Prod.mk.injEq] at h
          obtain ⟨-, h⟩ := h
          obtain ⟨hall, hnd, hvals⟩ := hinv
          have hm0 : m = 0 := by
            rcases hvals m (List.get?_mem hm) with h0 | h0 | h0
            · exact h0
            · exact absurd h0 hn1
            · exact absurd h0 hn2
          subst hm0
          have hvlt : validx < cg.strings.length := by
            have := hs
            rw [List.get?_eq_getElem?] at this
            exact (List.getElem?_eq_some_iff.mp this).1
          have hmlt : validx < st.matched.length := by
            have := hm
            rw [List.get?_eq_getElem?] at this
            exact (List.getElem?_eq_some_iff.mp this).1
          have hnotmem : (validx, st.tokidx) ∉ st.calls := by
            intro hmem
            rcases (hall _ hmem).2 with hlt | ⟨-, m', hm', hm'0⟩
            · exact Nat.lt_irrefl _ hlt
            · rw [hm] at hm'
              exact hm'0 (by simpa using hm'.symm)
          subst h
          refine ⟨?_, ?_, ?_⟩
          · intro c hc
            rcases List.mem_append.mp hc with hc | hc
            · obtain ⟨hb, htime⟩ := hall c hc
              refine ⟨hb, ?_⟩
              rcases htime with hlt | ⟨heq, m', hm', hm'0⟩
              · exact Or.inl hlt
              · by_cases hcv : c.1 = validx
                · rw [hcv, hm] at hm'
                  exact absurd (by simpa using hm'.symm) hm'0
                · refine Or.inr ⟨heq, m', ?_, hm'0⟩
                  simp only [List.get?_eq_getElem?]
                  rw [List.getElem?_set_ne (fun hx => hcv hx.symm)]
                  simpa [List.get?_eq_getElem?] using hm'
            · simp only [List.mem_singleton] at hc
              subst hc
              refine ⟨hvlt, Or.inr ⟨rfl, ?_⟩⟩
              refine ⟨if matchFn s st.tokidx then 1 else -1, ?_, ?_⟩
              · simp only [List.get?_eq_getElem?]
                rw [List.getElem?_set_self (by simpa using hmlt)]
              · split <;> decide
          · exact List.nodup_append.mpr ⟨hnd, by simp, by
              intro x hx hx'
              simp only [List.mem_singleton] at hx'
              subst hx'
              exact hnotmem hx⟩
          · intro x hx
            rcases List.mem_or_eq_of_mem_set hx with hx | hx
            · exact hvals x hx
            · subst hx
              split <;> simp

theorem matchOne_callsInv (cg : CompiledGrammar)
    (matchFn : String → Nat → Bool) (prevValidx : Option Nat) (vkey : Nat)
    (thread : VMThread) (st : VMState) (st' : VMState) (prev' : Option Nat)
    (h : matchOne cg matchFn prevValidx vkey thread st = .ok (st', prev'))
    (hinv : CallsPhaseInv cg st) : CallsPhaseInv cg st' := by
  unfold matchOne at h
  repeat' split at h
  all_goals try exact Res.noConfusion h
  rename_i r st1 hc
  obtain ⟨h1, h2, h3⟩ := matchProceed_calls _ _ _ _ _ _ _ h
  exact callsPhaseInv_congr cg st1 st' h1 h2 h3
    (matchConsult_callsInv _ _ _ _ _ _ hc hinv)

theorem matchLoop_callsInv (cg : CompiledGrammar)
    (matchFn : String → Nat → Bool) :
    ∀ (work : List (Nat × VMThread)) (prev : Option Nat) (st st' : VMState),
    matchLoop cg matchFn work prev st = .ok st' →
    CallsPhaseInv cg st → CallsPhaseInv cg st' := by
  intro work
  induction work with
  | nil =>
    intro prev st st' h hinv
    simp only [matchLoop, Res.ok.injEq] at h
    subst h; exact hinv
  | cons p rest ih =>
    intro prev st st' h hinv
    rw [matchLoop] at h
    split at h
    · rename_i st1 prev1 hmo
      exact ih _ _ _ h (matchOne_callsInv _ _ _ _ _ _ _ _ hmo hinv)
    · exact Res.noConfusion h
    · exact Res.noConfusion h

theorem outerIter_callsInv (cg : CompiledGrammar)
    (matchFn : String → Nat → Bool) (minMatch dfuel : Nat) (st st' : VMState)
    (h : outerIter cg matchFn minMatch dfuel st = .ok st')
    (hinv : CallsOuterInv cg st) : CallsOuterInv cg st' := by
  unfold outerIter at h
  split at h
  case h_2 => exact Res.noConfusion h
  case h_3 => exact Res.noConfusion h
  rename_i st1 hd
  obtain ⟨hdc, hdt, hdm⟩ := dispatchLoop_calls_tokidx cg minMatch dfuel st st1 hd
  split at h
  case h_2 => exact Res.noConfusion h
  case h_3 => exact Res.noConfusion h
  rename_i st3 hm
  simp only [Res.ok.injEq] at h
  subst h
  obtain ⟨hall, hnd⟩ := hinv
  have hphase : CallsPhaseInv cg
      { st1 with matchable := [], matched := List.replicate cg.strings.length 0 } := by
    refine ⟨?_, ?_, ?_⟩
    · intro c hc
      simp only [] at hc
      rw [hdc] at hc
      obtain ⟨hb, hlt⟩ := hall c hc
      exact ⟨hb, Or.inl (by rw [hdt]; exact hlt)⟩
    · simp only []
      rw [hdc]; exact hnd
    · intro x hx
      simp only [] at hx
      exact Or.inl (List.eq_of_mem_replicate hx)
  have hst3 := matchLoop_callsInv cg matchFn _ none _ st3 hm hphase
  obtain ⟨hall3, hnd3, -⟩ := hst3
  obtain ⟨ht3, -, -⟩ := matchLoop_calls cg matchFn _ none _ st3 hm
  refine ⟨?_, by simpa using hnd3⟩
  intro c hc
  obtain ⟨hb, htime⟩ := hall3 c (by simpa using hc)
  refine ⟨hb, ?_⟩
  simp only []
  rcases htime with hlt | ⟨heq, -⟩
  · exact Nat.lt_succ_of_lt hlt
  · exact heq ▸ Nat.lt_succ_self _

theorem outerLoop_callsInv (cg : CompiledGrammar)
    (matchFn : String → Nat → Bool) (minMatch dfuel : Nat) :
    ∀ (fuel : Nat) (st st' : VMState),
    outerLoop cg matchFn minMatch dfuel fuel st = .ok st' →
    CallsOuterInv cg st → CallsOuterInv cg st' := by
  intro fuel
  induction fuel with
  | zero => intro st st' h; exact Res.noConfusion h
  | succ n ih =>
    intro st st' h hinv
    rw [outerLoop] at h
    split at h
    · simp only [Res.ok.injEq] at h; subst h; exact hinv
    · split at h
      · rename_i st1 ho
        exact ih _ _ h (outerIter_callsInv cg matchFn minMatch dfuel st st1 ho hinv)
      · exact Res.noConfusion h
      · exact Res.noConfusion h

/-- Claim C5: within one call to `run`, `match_fn` is invoked at most once
per (literal string, token index) pair — no two entries of the ghost call
log resolve to the same literal and token index, provided the string
table contains each distinct string exactly once. -/
theorem c5_matchfn_once_per_pair (cg : CompiledGrammar) (s : String)
    (matchFn : String → Nat → Bool) (minMatch fuel : Nat) (st : VMState)
    (h : runVM cg s matchFn minMatch fuel = .ok st)
    (hnd : cg.strings.Nodup) :
    st.calls.Pairwise
      (fun c c' => ¬(cg.strings.get? c.1 = cg.strings.get? c'.1 ∧ c.2 = c'.2)) := by
  unfold runVM at h
  split at h
  · exact Res.noConfusion h
  · rename_i idx hidx
    have hinit : CallsOuterInv cg (initState cg idx) := by
      unfold initState
      obtain ⟨-, -, -, -, h5, -⟩ := initLoop_fields idx (cg.lookupNontermIdx idx) _
      constructor
      · intro c hc
        rw [h5] at hc
        exact absurd hc (by simp)
      · rw [h5]; exact List.Pairwise.nil
    obtain ⟨hall, hnd'⟩ := outerLoop_callsInv cg matchFn minMatch fuel fuel _ st h hinit
    refine List.Pairwise.imp_of_mem ?_ hnd'
    intro c c' hc hc' hne ⟨hstr, htok⟩
    have hlt : c.1 < cg.strings.length := (hall c hc).1
    have heq1 : c.1 = c'.1 := by
      apply List.getElem?_inj hlt hnd
      rw [← List.get?_eq_getElem?, ← List.get?_eq_getElem?]
      exact hstr
    exact hne (Prod.ext heq1 htok)

/-- Claim C5, witness: the grammar `S : 'a' | 'a' ;` parks two threads on
the same literal at token 0, yet the run makes exactly one oracle call. -/
theorem c5_witness :
    runVM cgAA "S" orA 0 10 = .ok stAArun ∧
    stAArun.calls = [(1, 0)] ∧
    stAArun.calls.Pairwise
      (fun c c' => ¬(cgAA.strings.get? c.1 = cgAA.strings.get? c'.1 ∧ c.2 = c'.2)) := by
  have h : runVM cgAA "S" orA 0 10 = .ok stAArun := by rfl
  exact ⟨h, by rfl,
    c5_matchfn_once_per_pair cgAA "S" orA 0 10 stAArun h (by decide)⟩

/-- Claim C10, witness: for the grammar `S : 'a' ;` on the matching
oracle, the first token phase calls `match_fn` at `tokidx = 0` and
advances `tokidx` from 0 to 1. -/
theorem c10_witness :
    outerIter cgA orA 0 10 (initState cgA 0) = .ok stC10 ∧
    stC10.tokidx = (initState cgA 0).tokidx + 1 ∧
    (initState cgA 0).tokidx = 0 ∧
    dispatchLoop cgA 0 10 (initState cgA 0) = .ok stC10d ∧
    stC10d.matchable ≠ [] ∧
    (1, (initState cgA 0).tokidx) ∈ stC10.calls := by
  have h : outerIter cgA orA 0 10 (initState cgA 0) = .ok stC10 := by rfl
  have := c10_tokidx_discipline cgA orA 0 10 (initState cgA 0) stC10 h
  exact ⟨h, this.1, this.2.2.2 0, by rfl, by decide, by decide⟩

/-! ### Claim C7: the binary-search insertion position -/

theorem sorted_get_le (l : List Nat) (hl : l.Pairwise (· ≤ ·)) :
    ∀ i j x y, i ≤ j → l.get? i = some x → l.get? j = some y → x ≤ y := by
  induction l with
  | nil => intro i j x y _ hx; simp at hx
  | cons a t ih =>
    intro i j x y hij hx hy
    obtain ⟨ha, ht⟩ := List.pairwise_cons.mp hl
    match i, j with
    | 0, 0 =>
      simp only [List.get?] at hx hy
      simp only [Option.some.injEq] at hx hy
      omega
    | 0, j + 1 =>
      simp only [List.get?, Option.some.injEq] at hx hy
      subst hx
      exact ha y (List.get?_mem hy)
    | i + 1, j + 1 =>
      simp only [List.get?] at hx hy
      exact ih ht i j x y (by omega) hx hy

theorem bsLoop_spec (keyAt : Nat → Nat) (k total : Nat)
    (mono : ∀ i j, i ≤ j → j < total → keyAt i ≤ keyAt j) :
    ∀ (fuel base size : Nat), 1 ≤ size → size ≤ fuel → base + size ≤ total →
    (∀ i, i < base → keyAt i ≤ k) →
    (∀ i, base + size ≤ i → i < total → k < keyAt i) →
    ∀ res, binarySearchLoop keyAt k fuel base size = res →
    (∀ i, i < sumPos res → keyAt i ≤ k) ∧
    (∀ i, sumPos res ≤ i → i < total → k ≤ keyAt i) := by
  intro fuel
  induction fuel with
  | zero => intro base size h1 h2; omega
  | succ n ih =>
    intro base size hs1 hsf hbt hlo hhi res hres
    rw [binarySearchLoop] at hres
    by_cases hgt : size > 1
    · rw [if_pos hgt] at hres
      by_cases hk : k < keyAt (base + size / 2)
      · rw [if_pos hk] at hres
        apply ih base (size - size / 2) (by omega) (by omega) (by omega) hlo ?hup res hres
        intro i h1 h2
        have hmid : keyAt (base + size / 2) ≤ keyAt i := mono _ _ (by omega) h2
        omega
      · rw [if_neg hk] at hres
        apply ih (base + size / 2) (size - size / 2) (by omega) (by omega) (by omega)
          ?hlo (by intro i h1 h2; exact hhi i (by omega) h2) res hres
        intro i hilt
        rcases Nat.lt_or_ge i base with hib | hib
        · exact hlo i hib
        · have : keyAt i ≤ keyAt (base + size / 2) := mono _ _ (by omega) (by omega)
          omega
    · rw [if_neg hgt] at hres
      have hsz : size = 1 := by omega
      subst hsz
      by_cases h1 : keyAt base = k
      · rw [if_pos h1] at hres
        subst hres
        simp only [sumPos]
        refine ⟨hlo, ?_⟩
        intro i hi hit
        rcases Nat.eq_or_lt_of_le hi with hib | hib
        · subst hib
          omega
        · exact Nat.le_of_lt (hhi i (by omega) hit)
      · rw [if_neg h1] at hres
        by_cases h2 : keyAt base < k
        · rw [if_pos h2] at hres
          subst hres
          simp only [sumPos]
          constructor
          · intro i hi
            rcases Nat.lt_or_ge i base with hib | hib
            · exact hlo i hib
            · have : i = base := by omega
              subst this
              omega
          · intro i hi hit
            exact Nat.le_of_lt (hhi i (by omega) hit)
        · rw [if_neg h2] at hres
          subst hres
          simp only [sumPos]
          refine ⟨hlo, ?_⟩
          intro i hi hit
          rcases Nat.eq_or_lt_of_le hi with hib | hib
          · subst hib
            omega
          · exact Nat.le_of_lt (hhi i (by omega) hit)

theorem binarySearchPos_spec (keys : List Nat) (k : Nat)
    (hl : keys.Pairwise (· ≤ ·)) :
    (∀ i x, i < binarySearchPos keys k → keys.get? i = some x → x ≤ k) ∧
    (∀ i x, binarySearchPos keys k ≤ i → keys.get? i = some x → k ≤ x) := by
  unfold binarySearchPos binarySearch
  by_cases h0 : keys.length = 0
  · rw [if_pos h0]
    have : keys = [] := List.length_eq_zero.mp h0
    subst this
    constructor <;> (intro i x _ hx; simp at hx)
  · rw [if_neg h0]
    have hmono : ∀ i j, i ≤ j → j < keys.length →
        (keys.get? i).getD 0 ≤ (keys.get? j).getD 0 := by
      intro i j hij hj
      obtain ⟨y, hy⟩ : ∃ y, keys.get? j = some y := by
        rw [List.get?_eq_getElem?]
        exact ⟨keys.get ⟨j, hj⟩, List.getElem?_eq_getElem hj⟩
      obtain ⟨x, hx⟩ : ∃ x, keys.get? i = some x := by
        rw [List.get?_eq_getElem?]
        exact ⟨keys.get ⟨i, by omega⟩, List.getElem?_eq_getElem (by omega)⟩
      rw [hx, hy]
      simpa using sorted_get_le keys hl i j x y hij hx hy
    obtain ⟨hlow, hhigh⟩ := bsLoop_spec (fun i => (keys.get? i).getD 0) k keys.length
      hmono (keys.length + 1) 0 keys.length (by omega) (by omega) (by omega)
      (by intro i h; exact absurd h (Nat.not_lt_zero i))
      (by intro i h1 h2; exact absurd h2 (by omega))
      _ rfl
    constructor
    · intro i x hi hx
      have := hlow i hi
      rw [List.get?_eq_getElem?] at hx
      simpa [hx] using this
    · intro i x hi hx
      rw [List.get?_eq_getElem?] at hx
      have hilen : i < keys.length := (List.getElem?_eq_some_iff.mp hx).1
      have := hhigh i hi hilen
      simpa [hx] using this

theorem mem_insertIdx_or {α : Type} (x a : α) :
    ∀ (l : List α) (p : Nat), x ∈ l.insertIdx p a → x = a ∨ x ∈ l := by
  intro l
  induction l with
  | nil =>
    intro p hx
    match p with
    | 0 => simpa using hx
    | p + 1 => simp at hx
  | cons b t ih =>
    intro p hx
    match p with
    | 0 =>
      rw [List.insertIdx_zero] at hx
      rcases List.mem_cons.mp hx with h | h
      · exact Or.inl h
      · exact Or.inr h
    | p + 1 =>
      rw [List.insertIdx_succ_cons] at hx
      rcases List.mem_cons.mp hx with h | h
      · exact Or.inr (h ▸ List.mem_cons_self b t)
      · rcases ih p h with h' | h'
        · exact Or.inl h'
        · exact Or.inr (List.mem_cons_of_mem b h')

theorem map_insertIdx_comm {α β : Type} (f : α → β) (a : α) :
    ∀ (l : List α) (p : Nat),
    (l.insertIdx p a).map f = (l.map f).insertIdx p (f a) := by
  intro l
  induction l with
  | nil =>
    intro p
    match p with
    | 0 => rfl
    | p + 1 => rfl
  | cons b t ih =>
    intro p
    match p with
    | 0 => rfl
    | p + 1 =>
      rw [List.insertIdx_succ_cons, List.map_cons, List.map_cons,
        List.insertIdx_succ_cons, ih]

theorem pairwise_le_insertIdx (k : Nat) :
    ∀ (l : List Nat) (p : Nat), l.Pairwise (· ≤ ·) →
    (∀ i x, i < p → l.get? i = some x → x ≤ k) →
    (∀ i x, p ≤ i → l.get? i = some x → k ≤ x) →
    (l.insertIdx p k).Pairwise (· ≤ ·) := by
  intro l
  induction l with
  | nil =>
    intro p _ _ _
    match p with
    | 0 => simp
    | p + 1 => simp
  | cons a t ih =>
    intro p hl hlo hhi
    obtain ⟨ha, ht⟩ := List.pairwise_cons.mp hl
    match p with
    | 0 =>
      simp only [List.insertIdx_zero]
      refine List.Pairwise.cons ?_ hl
      intro x hx
      rcases List.mem_cons.mp hx with h | h
      · exact hhi 0 x (by omega) (by simp [h])
      · obtain ⟨j, hj⟩ := List.mem_iff_get?.mp h
        exact hhi (j + 1) x (by omega) (by simpa using hj)
    | p + 1 =>
      rw [List.insertIdx_succ_cons]
      refine List.Pairwise.cons ?_ ?_
      · intro x hx
        rcases mem_insertIdx_or x k t p hx with h | h
        · subst h
          exact hlo 0 a (by omega) (by simp)
        · exact ha x h
      · exact ih p ht
          (fun i x hi hx => hlo (i + 1) x (by omega) (by simpa using hx))
          (fun i x hi hx => hhi (i + 1) x (by omega) (by simpa using hx))

/-- The binary-search insertion of src/vm.rs keeps a sorted list sorted. -/
theorem insertIdx_binarySearchPos_sorted (keys : List Nat) (k : Nat)
    (hl : keys.Pairwise (· ≤ ·)) :
    (keys.insertIdx (binarySearchPos keys k) k).Pairwise (· ≤ ·) := by
  obtain ⟨hlow, hhigh⟩ := binarySearchPos_spec keys k hl
  exact pairwise_le_insertIdx k keys (binarySearchPos keys k) hl hlow hhigh

theorem dispatchOne_matchableSorted (cg : CompiledGrammar) (minMatch : Nat)
    (st : VMState) (t : VMThread) (st' : VMState)
    (h : dispatchOne cg minMatch st t = .ok st')
    (hs : MatchableSorted st) : MatchableSorted st' := by
  unfold dispatchOne at h
  repeat' split at h
  all_goals try exact Res.noConfusion h
  all_goals (simp only [Res.ok.injEq] at h; subst h)
  case h_2 =>
    unfold MatchableSorted at hs ⊢
    simp only []
    rw [map_insertIdx_comm]
    exact insertIdx_binarySearchPos_sorted _ _ hs
  all_goals
    first
    | exact hs
    | (unfold MatchableSorted at hs ⊢
       obtain ⟨-, -, -, h4, -⟩ := forkChildren_fields _ _ _ _ _
       rw [h4]
       exact hs)

/-- Claim C7 (amended): throughout the dispatch phase `matchable` stays
sorted by nondecreasing `value_idx` — but threads with equal `value_idx`
do NOT appear in insertion order (see the counterexample): the insertion
position returned by the binary search can precede existing equal keys. -/
theorem c7_amended_matchable_sorted (cg : CompiledGrammar) (minMatch : Nat) :
    ∀ (fuel : Nat) (st st' : VMState),
    dispatchLoop cg minMatch fuel st = .ok st' →
    MatchableSorted st → MatchableSorted st' := by
  intro fuel
  induction fuel with
  | zero => intro st st' h; exact Res.noConfusion h
  | succ n ih =>
    intro st st' h hs
    rw [dispatchLoop] at h
    split at h
    · simp only [Res.ok.injEq] at h; subst h; exact hs
    · split at h
      · rename_i st1 hd
        exact ih _ _ h (dispatchOne_matchableSorted cg minMatch _ _ st1 hd (by
          unfold MatchableSorted at hs ⊢
          simpa using hs))
      · exact Res.noConfusion h
      · exact Res.noConfusion h

/-- Claim C7, counterexample to the tie-order half: in `S : 'a' | 'a' ;`
the two initial threads (ip 2 popped and inserted into `matchable` first,
ip 0 second) end up with the ip-0 thread FIRST: the later insertion was
placed before the earlier one, so ties do not keep insertion order. -/
theorem c7_counterexample_tie_order :
    (initState cgAA 0).runnable.map (fun t => t.ip) = [2, 0] ∧
    dispatchLoop cgAA 0 10 (initState cgAA 0) = .ok stAAd ∧
    stAAd.matchable.map (fun x => (x.1, x.2.ip)) = [(1, 0), (1, 2)] := by
  exact ⟨by rfl, by rfl, by rfl⟩

/-- Claim C7, witness for the amended sortedness theorem at the concrete
two-production grammar. -/
theorem c7_witness :
    dispatchLoop cgAA 0 10 (initState cgAA 0) = .ok stAAd ∧
    MatchableSorted (initState cgAA 0) ∧ MatchableSorted stAAd := by
  have h : dispatchLoop cgAA 0 10 (initState cgAA 0) = .ok stAAd := by rfl
  have h0 : MatchableSorted (initState cgAA 0) := by
    unfold MatchableSorted
    decide
  exact ⟨h, h0, c7_amended_matchable_sorted cgAA 0 10 _ stAAd h h0⟩

/-! ### Claim C8: the free-list -/

theorem sorted_getLast_max :
    ∀ (l : List Nat), l.Pairwise (· ≤ ·) → ∀ m, l.getLast? = some m →
    ∀ x ∈ l, x ≤ m := by
  intro l
  induction l with
  | nil => intro _ m hm; simp at hm
  | cons a t ih =>
    intro hl m hm x hx
    obtain ⟨ha, ht⟩ := List.pairwise_cons.mp hl
    match t with
    | [] =>
      simp only [List.getLast?_singleton, Option.some.injEq] at hm
      subst hm
      simp only [List.mem_singleton] at hx
      exact Nat.le_of_eq hx
    | b :: t' =>
      have hm' : (b :: t').getLast? = some m := by
        rw [List.getLast?_cons_cons] at hm
        exact hm
      rcases List.mem_cons.mp hx with h | h
      · subst h
        have hmem : m ∈ b :: t' := by
          rw [List.getLast?_eq_getElem?] at hm'
          exact List.getElem?_mem hm'
        exact ha m hmem
      · exact ih ht m hm' x h

theorem allocFrag_fl_sorted (frags : List ParseFragment) (fl : List Nat)
    (frag : ParseFragment) (hl : fl.Pairwise (· ≤ ·)) :
    (allocFrag frags fl frag).2.1.Pairwise (· ≤ ·) := by
  unfold allocFrag
  match h : fl.getLast? with
  | some idx => exact hl.sublist (List.dropLast_sublist fl)
  | none => exact hl

theorem reclaim_fl_sorted :
    ∀ (fuel : Nat) (curr : Option Nat) (frags : List ParseFragment)
      (fl : List Nat) (frags' : List ParseFragment) (fl' : List Nat),
    reclaim fuel curr frags fl = .ok (frags', fl') →
    fl.Pairwise (· ≤ ·) → fl'.Pairwise (· ≤ ·) := by
  intro fuel
  induction fuel with
  | zero =>
    intro curr frags fl frags' fl' h hl
    match curr with
    | none =>
      simp only [reclaim, Res.ok.injEq, Prod.mk.injEq] at h
      exact h.2 ▸ hl
    | some i => exact Res.noConfusion h
  | succ n ih =>
    intro curr frags fl frags' fl' h hl
    match curr with
    | none =>
      simp only [reclaim, Res.ok.injEq, Prod.mk.injEq] at h
      exact h.2 ▸ hl
    | some i =>
      rw [reclaim] at h
      split at h
      · exact Res.noConfusion h
      · rename_i f hf
        split at h
        · exact Res.noConfusion h
        · split at h
          · exact ih _ _ _ _ _ h (insertIdx_binarySearchPos_sorted fl i hl)
          · simp only [Res.ok.injEq, Prod.mk.injEq] at h
            exact h.2 ▸ hl

theorem dispatchOne_flSorted (cg : CompiledGrammar) (minMatch : Nat)
    (st : VMState) (t : VMThread) (st' : VMState)
    (h : dispatchOne cg minMatch st t = .ok st')
    (hs : FreelistSorted st) : FreelistSorted st' := by
  unfold dispatchOne at h
  repeat' split at h
  all_goals try exact Res.noConfusion h
  all_goals (simp only [Res.ok.injEq] at h; subst h)
  all_goals unfold FreelistSorted at hs ⊢
  all_goals first
    | exact hs
    | simpa using hs
    | (obtain ⟨-, -, h3, -⟩ := forkChildren_fields _ _ _ _ _
       rw [h3]
       exact allocFrag_fl_sorted _ _ _ hs)
    | exact allocFrag_fl_sorted _ _ _ hs

theorem dispatchLoop_flSorted (cg : CompiledGrammar) (minMatch : Nat) :
    ∀ (fuel : Nat) (st st' : VMState),
    dispatchLoop cg minMatch fuel st = .ok st' →
    FreelistSorted st → FreelistSorted st' := by
  intro fuel
  induction fuel with
  | zero => intro st st' h; exact Res.noConfusion h
  | succ n ih =>
    intro st st' h hs
    rw [dispatchLoop] at h
    split at h
    · simp only [Res.ok.injEq] at h; subst h; exact hs
    · split at h
      · rename_i st1 hd
        exact ih _ _ h (dispatchOne_flSorted cg minMatch _ _ st1 hd (by
          unfold FreelistSorted at hs ⊢; simpa using hs))
      · exact Res.noConfusion h
      · exact Res.noConfusion h

theorem matchConsult_flSorted (cg : CompiledGrammar)
    (matchFn : String → Nat → Bool) (validx : Nat) (st : VMState)
    (r : Bool) (st1 : VMState)
    (h : matchConsult cg matchFn validx st = .ok (r, st1)) :
    st1.freelist = st.freelist ∧ st1.fragments = st.fragments := by
  unfold matchConsult at h
  repeat' split at h
  all_goals try exact Res.noConfusion h
  all_goals
    (simp only [Res.ok.injEq, Prod.mk.injEq] at h
     obtain ⟨-, h⟩ := h
     subst h
     exact ⟨rfl, rfl⟩)

theorem matchProceed_flSorted (thread : VMThread) (vkey : Nat)
    (nameidx : Option Nat) (r : Bool) (st1 : VMState) (st' : VMState)
    (prev' : Option Nat)
    (h : matchProceed thread vkey nameidx r st1 = .ok (st', prev'))
    (hs : FreelistSorted st1) : FreelistSorted st' := by
  unfold matchProceed at h
  split at h
  · simp only [Res.ok.injEq, Prod.mk.injEq] at h
    obtain ⟨h, -⟩ := h
    subst h
    exact allocFrag_fl_sorted _ _ _ hs
  · split at h
    · rename_i frags fl hrec
      simp only [Res.ok.injEq, Prod.mk.injEq] at h
      obtain ⟨h, -⟩ := h
      subst h
      exact reclaim_fl_sorted _ _ _ _ _ _ hrec hs
    · exact Res.noConfusion h
    · exact Res.noConfusion h

theorem matchOne_flSorted (cg : CompiledGrammar)
    (matchFn : String → Nat → Bool) (prevValidx : Option Nat) (vkey : Nat)
    (thread : VMThread) (st : VMState) (st' : VMState) (prev' : Option Nat)
    (h : matchOne cg matchFn prevValidx vkey thread st = .ok (st', prev'))
    (hs : FreelistSorted st) : FreelistSorted st' := by
  unfold matchOne at h
  repeat' split at h
  all_goals try exact Res.noConfusion h
  rename_i r st1 hc
  obtain ⟨h1, -⟩ := matchConsult_flSorted _ _ _ _ _ _ hc
  exact matchProceed_flSorted _ _ _ _ _ _ _ h (by
    unfold FreelistSorted at hs ⊢; rw [h1]; exact hs)

theorem matchLoop_flSorted (cg : CompiledGrammar)
    (matchFn : String → Nat → Bool) :
    ∀ (work : List (Nat × VMThread)) (prev : Option Nat) (st st' : VMState),
    matchLoop cg matchFn work prev st = .ok st' →
    FreelistSorted st → FreelistSorted st' := by
  intro work
  induction work with
  | nil =>
    intro prev st st' h hs
    simp only [matchLoop, Res.ok.injEq] at h
    subst h; exact hs
  | cons p rest ih =>
    intro prev st st' h hs
    rw [matchLoop] at h
    split at h
    · rename_i st1 prev1 hmo
      exact ih _ _ _ h (matchOne_flSorted _ _ _ _ _ _ _ _ hmo hs)
    · exact Res.noConfusion h
    · exact Res.noConfusion h

/-- Claim C8 (amended): the free-list of reclaimed fragment slots is kept
sorted ascending at all times, but an allocation from a non-empty
free-list reuses the HIGHEST index (`Vec::pop` takes the back of the
sorted vector), not the lowest. -/
theorem c8_amended_freelist_sorted_alloc_max (cg : CompiledGrammar)
    (matchFn : String → Nat → Bool) (minMatch dfuel : Nat) :
    (∀ st st', outerIter cg matchFn minMatch dfuel st = .ok st' →
      FreelistSorted st → FreelistSorted st') ∧
    (∀ (frags : List ParseFragment) (fl : List Nat) (frag : ParseFragment)
      (m : Nat), fl.Pairwise (· ≤ ·) → fl.getLast? = some m →
      (allocFrag frags fl frag).2.2 = m ∧ ∀ x ∈ fl, x ≤ m) := by
  constructor
  · intro st st' h hs
    unfold outerIter at h
    split at h
    case h_2 => exact Res.noConfusion h
    case h_3 => exact Res.noConfusion h
    rename_i st1 hd
    have hs1 := dispatchLoop_flSorted cg minMatch dfuel st st1 hd hs
    split at h
    case h_2 => exact Res.noConfusion h
    case h_3 => exact Res.noConfusion h
    rename_i st3 hm
    simp only [Res.ok.injEq] at h
    subst h
    have hs3 := matchLoop_flSorted cg matchFn _ none _ st3 hm (by
      unfold FreelistSorted at hs1 ⊢; simpa using hs1)
    unfold FreelistSorted at hs3 ⊢
    simpa using hs3
  · intro frags fl frag m hl hm
    constructor
    · unfold allocFrag
      rw [hm]
    · exact sorted_getLast_max fl hl m hm

/-- Claim C8, counterexample to the lowest-index half: in the run of
`S : 'x' | 'y' | 'z' ;` on token `z`, the failing `x` and `y` threads
free slots 0 and 1; the succeeding `z` thread then allocates its
RuleTermValue into slot 1 — the highest free index — leaving slot 0 on
the free-list.  Equally concretely, `allocFrag` on free-list `[0, 1]`
returns slot 1, not the lowest index 0. -/
theorem c8_counterexample_alloc_not_lowest :
    outerIter cg3 orZ 0 10 (initState cg3 0) = .ok stC8 ∧
    stC8.freelist = [0] ∧
    stC8.fragments.get? 1 = some ⟨1, .RuleTermValue 2 0 none⟩ ∧
    stC8.fragments.get? 0 = some ⟨0, .RuleStart none none 0⟩ ∧
    (allocFrag [] [0, 1] ⟨1, .RuleTermValue 2 0 none⟩).2.2 = 1 := by
  exact ⟨by rfl, by rfl, by rfl, by rfl, by rfl⟩

/-- Claim C8, witness for the amended theorem: the `cg3` iteration keeps
the free-list sorted, and allocation from the sorted free-list `[0, 1]`
picks its maximum 1. -/
theorem c8_witness :
    outerIter cg3 orZ 0 10 (initState cg3 0) = .ok stC8 ∧
    FreelistSorted (initState cg3 0) ∧ FreelistSorted stC8 ∧
    (allocFrag [] [0, 1] ⟨1, .RuleTermValue 2 0 none⟩).2.2 = 1 ∧
    (∀ x ∈ [0, 1], x ≤ 1) := by
  have h : outerIter cg3 orZ 0 10 (initState cg3 0) = .ok stC8 := by rfl
  have h0 : FreelistSorted (initState cg3 0) := by
    unfold FreelistSorted
    decide
  obtain ⟨hpres, halloc⟩ := c8_amended_freelist_sorted_alloc_max cg3 orZ 0 10
  obtain ⟨ha1, ha2⟩ := halloc [] [0, 1] ⟨1, .RuleTermValue 2 0 none⟩ 1
    (by decide) (by rfl)
  exact ⟨h, h0, hpres _ _ h h0, ha1, ha2⟩

/-! ### Claim C4: refcount accounting -/

theorem sum_map_set {α : Type} (f : α → Nat) :
    ∀ (l : List α) (i : Nat) (a x : α), l.get? i = some x →
    ((l.set i a).map f).sum + f x = (l.map f).sum + f a := by
  intro l
  induction l with
  | nil => intro i a x hx; simp at hx
  | cons b t ih =>
    intro i a x hx
    match i with
    | 0 =>
      simp only [List.get?, Option.some.injEq] at hx
      subst hx
      simp only [List.set_cons_zero, List.map_cons, List.sum_cons]
      omega
    | i + 1 =>
      simp only [List.get?] at hx
      have := ih i a x hx
      simp only [List.set_cons_succ, List.map_cons, List.sum_cons]
      omega

theorem sum_map_insertIdx {α : Type} (f : α → Nat) (a : α) :
    ∀ (l : List α) (p : Nat), p ≤ l.length →
    ((l.insertIdx p a).map f).sum = f a + (l.map f).sum := by
  intro l
  induction l with
  | nil =>
    intro p hp
    have : p = 0 := by simpa using hp
    subst this
    simp
  | cons b t ih =>
    intro p hp
    match p with
    | 0 => simp
    | p + 1 =>
      rw [List.insertIdx_succ_cons]
      simp only [List.map_cons, List.sum_cons]
      rw [ih p (by simpa using hp)]
      omega

theorem nodup_insertIdx {α : Type} (a : α) :
    ∀ (l : List α) (p : Nat), l.Nodup → a ∉ l → (l.insertIdx p a).Nodup := by
  intro l
  induction l with
  | nil =>
    intro p _ _
    match p with
    | 0 => simp
    | p + 1 => simp
  | cons b t ih =>
    intro p hnd hna
    match p with
    | 0 =>
      rw [List.insertIdx_zero]
      exact List.Pairwise.cons (fun x hx hax => hna (hax ▸ hx)) hnd
    | p + 1 =>
      rw [List.insertIdx_succ_cons]
      obtain ⟨hb, ht⟩ := List.pairwise_cons.mp hnd
      refine List.Pairwise.cons ?_ (ih p ht (fun h => hna (List.mem_cons_of_mem b h)))
      intro x hx
      rcases mem_insertIdx_or x a t p hx with h | h
      · subst h
        intro hba
        exact hna (hba ▸ List.mem_cons_self b t)
      · exact hb x h

theorem mem_insertIdx_self {α : Type} (a : α) :
    ∀ (l : List α) (p : Nat), p ≤ l.length → a ∈ l.insertIdx p a := by
  intro l
  induction l with
  | nil =>
    intro p hp
    have : p = 0 := by simpa using hp
    subst this
    simp
  | cons b t ih =>
    intro p hp
    match p with
    | 0 => simp
    | p + 1 =>
      rw [List.insertIdx_succ_cons]
      exact List.mem_cons_of_mem b (ih p (by simpa using hp))

theorem mem_insertIdx_mono {α : Type} (x a : α) :
    ∀ (l : List α) (p : Nat), x ∈ l → x ∈ l.insertIdx p a := by
  intro l
  induction l with
  | nil => intro p hx; simp at hx
  | cons b t ih =>
    intro p hx
    match p with
    | 0 =>
      rw [List.insertIdx_zero]
      exact List.mem_cons_of_mem a hx
    | p + 1 =>
      rw [List.insertIdx_succ_cons]
      rcases List.mem_cons.mp hx with h | h
      · exact h ▸ List.mem_cons_self b _
      · exact List.mem_cons_of_mem b (ih p h)

theorem bsLoop_le (keyAt : Nat → Nat) (k : Nat) :
    ∀ (fuel base size : Nat), 1 ≤ size →
    sumPos (binarySearchLoop keyAt k fuel base size) ≤ base + size := by
  intro fuel
  induction fuel with
  | zero =>
    intro base size h1
    simp only [binarySearchLoop, sumPos]
    omega
  | succ n ih =>
    intro base size h1
    rw [binarySearchLoop]
    by_cases hgt : size > 1
    · rw [if_pos hgt]
      by_cases hk : k < keyAt (base + size / 2)
      · rw [if_pos hk]
        have := ih base (size - size / 2) (by omega)
        omega
      · rw [if_neg hk]
        have := ih (base + size / 2) (size - size / 2) (by omega)
        omega
    · rw [if_neg hgt]
      by_cases h1' : keyAt base = k
      · rw [if_pos h1']
        simp only [sumPos]
        omega
      · rw [if_neg h1']
        by_cases h2 : keyAt base < k
        · rw [if_pos h2]
          simp only [sumPos]
          omega
        · rw [if_neg h2]
          simp only [sumPos]
          omega

theorem binarySearchPos_le (keys : List Nat) (k : Nat) :
    binarySearchPos keys k ≤ keys.length := by
  unfold binarySearchPos binarySearch
  by_cases h0 : keys.length = 0
  · rw [if_pos h0]
    simp only [sumPos]
    omega
  · rw [if_neg h0]
    have := bsLoop_le (fun i => (keys.get? i).getD 0) k (keys.length + 1) 0
      keys.length (by omega)
    omega

/-- Allocation bookkeeping: the allocated fragment adds its refcount to
the arena total; the net out-edge count gains the new fragment's edge and
loses the reused slot's stale edge (`eOld`), which simultaneously leaves
the freed-edge count; the slot is in bounds and off the new free-list;
and the free-list pieces (zero refcounts, bounds, no duplicates) are
preserved. -/
theorem allocFrag_spec (frags : List ParseFragment) (fl : List Nat)
    (frag : ParseFragment)
    (hz : ∀ i ∈ fl, rcAt frags i = 0)
    (hb : ∀ i ∈ fl, i < frags.length)
    (hnd : fl.Nodup) :
    ∃ eOld : Nat,
      totalRc (allocFrag frags fl frag).1 = totalRc frags + frag.refcount ∧
      edgesAll (allocFrag frags fl frag).1 + eOld =
        edgesAll frags + (if frag.prevIdx.isSome then 1 else 0) ∧
      freedEdges (allocFrag frags fl frag).1 (allocFrag frags fl frag).2.1 + eOld =
        freedEdges frags fl ∧
      (allocFrag frags fl frag).2.2 < (allocFrag frags fl frag).1.length ∧
      frags.length ≤ (allocFrag frags fl frag).1.length ∧
      (allocFrag frags fl frag).2.2 ∉ (allocFrag frags fl frag).2.1 ∧
      (∀ i ∈ (allocFrag frags fl frag).2.1, rcAt (allocFrag frags fl frag).1 i = 0) ∧
      (∀ i ∈ (allocFrag frags fl frag).2.1, i < (allocFrag frags fl frag).1.length) ∧
      (allocFrag frags fl frag).2.1.Nodup ∧
      (∀ j, j ≠ (allocFrag frags fl frag).2.2 →
        (allocFrag frags fl frag).1.get? j = frags.get? j) := by
  match hl : fl.getLast? with
  | none =>
    have ha : allocFrag frags fl frag = (frags ++ [frag], fl, frags.length) := by
      unfold allocFrag
      rw [hl]
    have hfl : fl = [] := List.getLast?_eq_none_iff.mp hl
    subst hfl
    rw [ha]
    refine ⟨0, ?_, ?_, ?_, ?_, ?_, ?_, ?_, ?_, ?_, ?_⟩
    · unfold totalRc
      simp
    · unfold edgesAll
      simp
    · unfold freedEdges
      simp
    · simp
    · simp
    · simp
    · intro i hi; simp at hi
    · intro i hi; simp at hi
    · simp
    · intro j hj
      rw [List.get?_eq_getElem?, List.get?_eq_getElem?]
      rcases Nat.lt_or_ge j frags.length with h | h
      · exact List.getElem?_append_left h
      · have hj' : frags.length < j := by
          rcases Nat.eq_or_lt_of_le h with he | hlt
          · exact absurd he.symm hj
          · exact hlt
        rw [List.getElem?_eq_none (by simpa using (by omega : frags.length + 1 ≤ j)),
          List.getElem?_eq_none (by omega)]
  | some idx =>
    have ha : allocFrag frags fl frag = (frags.set idx frag, fl.dropLast, idx) := by
      unfold allocFrag
      rw [hl]
    rw [ha]
    have hdecomp : fl.dropLast ++ [idx] = fl :=
      List.dropLast_append_getLast? idx hl
    have hmem : idx ∈ fl := by
      rw [← hdecomp]
      simp
    have hidxlt : idx < frags.length := hb idx hmem
    obtain ⟨fo, hfo⟩ : ∃ fo, frags.get? idx = some fo := by
      rw [List.get?_eq_getElem?]
      exact ⟨frags.get ⟨idx, hidxlt⟩, List.getElem?_eq_getElem hidxlt⟩
    have hfo0 : fo.refcount = 0 := by
      have := hz idx hmem
      unfold rcAt at this
      rw [hfo] at this
      exact this
    have hnotdrop : idx ∉ fl.dropLast := by
      have h2 := hnd
      rw [← hdecomp, List.nodup_append] at h2
      intro hmem'
      exact h2.2.2 hmem' (by simp)
    refine ⟨if fo.prevIdx.isSome then 1 else 0, ?_, ?_, ?_, ?_, ?_, ?_, ?_, ?_, ?_, ?_⟩
    · have := sum_map_set (fun f => f.refcount) frags idx frag fo hfo
      unfold totalRc
      simp only [] at this ⊢
      omega
    · have := sum_map_set (fun f => if f.prevIdx.isSome then (1 : Nat) else 0)
        frags idx frag fo hfo
      unfold edgesAll
      simp only [] at this ⊢
      omega
    · unfold freedEdges
      have hcongr : ∀ j ∈ fl.dropLast,
          (if hasEdgeB (frags.set idx frag) j then (1 : Nat) else 0) =
          (if hasEdgeB frags j then (1 : Nat) else 0) := by
        intro j hj
        have hji : j ≠ idx := fun h => hnotdrop (h ▸ hj)
        unfold hasEdgeB
        rw [List.get?_eq_getElem?, List.get?_eq_getElem?,
          List.getElem?_set_ne (fun h => hji h.symm)]
      have hmap : (fl.dropLast.map
            (fun i => if hasEdgeB (frags.set idx frag) i then (1 : Nat) else 0)) =
          (fl.dropLast.map (fun i => if hasEdgeB frags i then (1 : Nat) else 0)) :=
        List.map_congr_left hcongr
      have hsplit : (fl.map (fun i => if hasEdgeB frags i then (1 : Nat) else 0)).sum =
          (fl.dropLast.map (fun i => if hasEdgeB frags i then (1 : Nat) else 0)).sum +
          (if hasEdgeB frags idx then 1 else 0) := by
        conv_lhs => rw [← hdecomp]
        rw [List.map_append, List.sum_append]
        simp
      have hedge : hasEdgeB frags idx = fo.prevIdx.isSome := by
        unfold hasEdgeB
        rw [hfo]
      rw [hmap, hsplit, hedge]
    · simpa using hidxlt
    · simp
    · exact hnotdrop
    · intro i hi
      have hii : i ≠ idx := fun h => hnotdrop (h ▸ hi)
      unfold rcAt
      rw [List.get?_eq_getElem?, List.getElem?_set_ne (fun h => hii h.symm),
        ← List.get?_eq_getElem?]
      exact hz i (by rw [← hdecomp]; exact List.mem_append.mpr (Or.inl hi))
    · intro i hi
      have := hb i (by rw [← hdecomp]; exact List.mem_append.mpr (Or.inl hi))
      simpa using this
    · exact hnd.sublist (List.dropLast_sublist fl)
    · intro j hj
      rw [List.get?_eq_getElem?, List.get?_eq_getElem?,
        List.getElem?_set_ne (fun h => hj h.symm)]

theorem freedEdges_congr (frags frags' : List ParseFragment) (fl : List Nat)
    (h : ∀ j, hasEdgeB frags' j = hasEdgeB frags j) :
    freedEdges frags' fl = freedEdges frags fl := by
  unfold freedEdges
  congr 1
  exact List.map_congr_left (fun j _ => by rw [h j])

theorem rcInc_facts (frags : List ParseFragment) (slot : Nat) (f : ParseFragment)
    (hf : frags.get? slot = some f) :
    totalRc (rcInc frags slot) = totalRc frags + 1 ∧
    edgesAll (rcInc frags slot) = edgesAll frags ∧
    (∀ j, hasEdgeB (rcInc frags slot) j = hasEdgeB frags j) ∧
    (rcInc frags slot).length = frags.length ∧
    (∀ j, j ≠ slot → (rcInc frags slot).get? j = frags.get? j) := by
  have hlt : slot < frags.length := by
    rw [List.get?_eq_getElem?] at hf
    exact (List.getElem?_eq_some_iff.mp hf).1
  have hpi : (⟨f.refcount + 1, f.value⟩ : ParseFragment).prevIdx = f.prevIdx := rfl
  have hrc : rcInc frags slot = frags.set slot ⟨f.refcount + 1, f.value⟩ := by
    unfold rcInc
    rw [hf]
  rw [hrc]
  refine ⟨?_, ?_, ?_, by simp, ?_⟩
  · have := sum_map_set (fun fr => fr.refcount) frags slot ⟨f.refcount + 1, f.value⟩ f hf
    unfold totalRc
    dsimp only at this ⊢
    omega
  · have := sum_map_set (fun fr => if fr.prevIdx.isSome then (1 : Nat) else 0)
      frags slot ⟨f.refcount + 1, f.value⟩ f hf
    unfold edgesAll
    dsimp only at this ⊢
    rw [hpi] at this
    omega
  · intro j
    unfold hasEdgeB
    rw [List.get?_eq_getElem?, List.get?_eq_getElem?, List.getElem?_set]
    by_cases hj : slot = j
    · subst hj
      rw [if_pos rfl, if_pos hlt]
      rw [List.get?_eq_getElem?] at hf
      rw [hf]
      rfl
    · rw [if_neg hj]
  · intro j hj
    rw [List.get?_eq_getElem?, List.get?_eq_getElem?,
      List.getElem?_set_ne (fun h => hj h.symm)]

theorem forkChildren_rc (retIp : Nat) (parentSp : Option Nat) (slot : Nat) :
    ∀ (l : List Nat) (st : VMState), slot < st.fragments.length →
    totalRc (forkChildren retIp parentSp slot l st).fragments =
      totalRc st.fragments + l.length ∧
    (forkChildren retIp parentSp slot l st).runnable.length =
      st.runnable.length + l.length ∧
    edgesAll (forkChildren retIp parentSp slot l st).fragments =
      edgesAll st.fragments ∧
    (∀ j, hasEdgeB (forkChildren retIp parentSp slot l st).fragments j =
      hasEdgeB st.fragments j) ∧
    (forkChildren retIp parentSp slot l st).fragments.length =
      st.fragments.length ∧
    (∀ j, j ≠ slot → (forkChildren retIp parentSp slot l st).fragments.get? j =
      st.fragments.get? j) := by
  intro l
  induction l with
  | nil =>
    intro st hlt
    simp [forkChildren]
  | cons a rest ih =>
    intro st hlt
    rw [forkChildren]
    obtain ⟨f, hf⟩ : ∃ f, st.fragments.get? slot = some f := by
      rw [List.get?_eq_getElem?]
      exact ⟨st.fragments.get ⟨slot, hlt⟩, List.getElem?_eq_getElem hlt⟩
    obtain ⟨h1, h2, h3, h4, h5⟩ := rcInc_facts st.fragments slot f hf
    set R : VMState :=
      { st with
        fragments := rcInc st.fragments slot,
        sharedStack := st.sharedStack ++ [⟨retIp, parentSp⟩],
        runnable := ⟨some st.sharedStack.length, a, slot⟩ :: st.runnable } with hR
    have e1 : R.fragments = rcInc st.fragments slot := rfl
    have e2 : R.runnable.length = st.runnable.length + 1 := rfl
    obtain ⟨g1, g2, g3, g4, g5, g6⟩ := ih R (by rw [e1, h4]; exact hlt)
    simp only [e1, e2] at g1 g2 g3 g4 g5 g6
    refine ⟨?_, ?_, ?_, ?_, ?_, ?_⟩
    · rw [g1, h1]
      simp only [List.length_cons]
      omega
    · rw [g2]
      simp only [List.length_cons]
      omega
    · rw [g3, h2]
    · intro j
      rw [g4 j, h3 j]
    · rw [g5, h4]
    · intro j hj
      rw [g6 j hj, h5 j hj]

/-- Replacing a fragment's refcount (keeping its value) shifts the arena
total accordingly and leaves all edge information unchanged. -/
theorem set_rc_facts (frags : List ParseFragment) (i : Nat) (f : ParseFragment)
    (n : Nat) (hf : frags.get? i = some f) :
    totalRc (frags.set i ⟨n, f.value⟩) + f.refcount = totalRc frags + n ∧
    edgesAll (frags.set i ⟨n, f.value⟩) = edgesAll frags ∧
    (∀ j, hasEdgeB (frags.set i ⟨n, f.value⟩) j = hasEdgeB frags j) ∧
    (frags.set i ⟨n, f.value⟩).length = frags.length ∧
    (∀ j, j ≠ i → (frags.set i ⟨n, f.value⟩).get? j = frags.get? j) ∧
    (frags.set i ⟨n, f.value⟩).get? i = some ⟨n, f.value⟩ := by
  have hlt : i < frags.length := by
    rw [List.get?_eq_getElem?] at hf
    exact (List.getElem?_eq_some_iff.mp hf).1
  have hpi : (⟨n, f.value⟩ : ParseFragment).prevIdx = f.prevIdx := rfl
  refine ⟨?_, ?_, ?_, by simp, ?_, ?_⟩
  · have := sum_map_set (fun fr => fr.refcount) frags i ⟨n, f.value⟩ f hf
    unfold totalRc
    dsimp only at this ⊢
    omega
  · have := sum_map_set (fun fr => if fr.prevIdx.isSome then (1 : Nat) else 0)
      frags i ⟨n, f.value⟩ f hf
    unfold edgesAll
    dsimp only at this ⊢
    rw [hpi] at this
    omega
  · intro j
    unfold hasEdgeB
    rw [List.get?_eq_getElem?, List.get?_eq_getElem?, List.getElem?_set]
    by_cases hj : i = j
    · subst hj
      rw [if_pos rfl, if_pos hlt]
      rw [List.get?_eq_getElem?] at hf
      rw [hf]
      rfl
    · rw [if_neg hj]
  · intro j hj
    rw [List.get?_eq_getElem?, List.get?_eq_getElem?,
      List.getElem?_set_ne (fun h => hj h.symm)]
  · rw [List.get?_eq_getElem?]
    exact List.getElem?_set_self (by simpa using hlt)

/-- The reclamation walk releases exactly one outstanding reference: the
arena total drops by one plus the number of freed out-edges, which move
from the live side to the freed side of the edge count.  In addition-only
form: `TR' + FE' + 1 + EA = TR + FE + EA'`.  Free-list pieces are
preserved and the arena length is unchanged. -/
theorem reclaim_rc :
    ∀ (fuel i : Nat) (frags : List ParseFragment) (fl : List Nat)
      (frags' : List ParseFragment) (fl' : List Nat),
    reclaim fuel (some i) frags fl = .ok (frags', fl') →
    (∀ j ∈ fl, rcAt frags j = 0) →
    (∀ j ∈ fl, j < frags.length) →
    fl.Nodup →
    (totalRc frags' + freedEdges frags' fl' + 1 + edgesAll frags =
      totalRc frags + freedEdges frags fl + edgesAll frags') ∧
    (∀ j ∈ fl', rcAt frags' j = 0) ∧
    (∀ j ∈ fl', j < frags'.length) ∧
    fl'.Nodup ∧ frags'.length = frags.length := by
  intro fuel
  induction fuel with
  | zero => intro i frags fl frags' fl' h; exact fun _ _ _ => absurd h (by simp [reclaim])
  | succ n ih =>
    intro i frags fl frags' fl' h hz hb hnd
    rw [reclaim] at h
    split at h
    · exact Res.noConfusion h
    · rename_i f hf
      split at h
      · exact Res.noConfusion h
      · rename_i hrc0
        have hlt : i < frags.length := by
          rw [List.get?_eq_getElem?] at hf
          exact (List.getElem?_eq_some_iff.mp hf).1
        have hinotfl : i ∉ fl := by
          intro hmem
          have := hz i hmem
          unfold rcAt at this
          rw [hf] at this
          exact hrc0 this
        obtain ⟨s1, s2, s3, s4, s5, s6⟩ :=
          set_rc_facts frags i f (f.refcount - 1) hf
        have hfecongr : freedEdges (frags.set i ⟨f.refcount - 1, f.value⟩) fl =
            freedEdges frags fl := freedEdges_congr _ _ _ s3
        split at h
        · -- refcount dropped to zero: free the slot and continue
          rename_i hrc1
          have hz1 : ∀ j ∈ fl.insertIdx (binarySearchPos fl i) i,
              rcAt (frags.set i ⟨f.refcount - 1, f.value⟩) j = 0 := by
            intro j hj
            rcases mem_insertIdx_or j i fl (binarySearchPos fl i) hj with hji | hjf
            · subst hji
              unfold rcAt
              rw [s6]
              exact hrc1
            · have hji : j ≠ i := fun hcontra => hinotfl (hcontra ▸ hjf)
              unfold rcAt
              rw [s5 j hji]
              exact hz j hjf
          have hb1 : ∀ j ∈ fl.insertIdx (binarySearchPos fl i) i,
              j < (frags.set i ⟨f.refcount - 1, f.value⟩).length := by
            intro j hj
            rw [s4]
            rcases mem_insertIdx_or j i fl (binarySearchPos fl i) hj with hji | hjf
            · exact hji ▸ hlt
            · exact hb j hjf
          have hnd1 : (fl.insertIdx (binarySearchPos fl i) i).Nodup :=
            nodup_insertIdx i fl (binarySearchPos fl i) hnd hinotfl
          have hfe1 : freedEdges (frags.set i ⟨f.refcount - 1, f.value⟩)
              (fl.insertIdx (binarySearchPos fl i) i) =
              freedEdges frags fl + (if hasEdgeB frags i then 1 else 0) := by
            unfold freedEdges
            rw [sum_map_insertIdx _ _ fl (binarySearchPos fl i)
              (binarySearchPos_le fl i)]
            have hcongr : ∀ j ∈ fl,
                (if hasEdgeB (frags.set i ⟨f.refcount - 1, f.value⟩) j
                  then (1 : Nat) else 0) =
                (if hasEdgeB frags j then (1 : Nat) else 0) := by
              intro j _
              rw [s3 j]
            rw [List.map_congr_left hcongr, s3 i]
            omega
          match hprev : f.prevIdx with
          | none =>
            rw [hprev] at h
            simp only [reclaim, Res.ok.injEq, Prod.mk.injEq] at h
            obtain ⟨h1, h2⟩ := h
            subst h1
            subst h2
            have hei : hasEdgeB frags i = false := by
              simp only [hasEdgeB, hf]
              rw [hprev]
              rfl
            have hfe1' : freedEdges (frags.set i ⟨f.refcount - 1, f.value⟩)
                (fl.insertIdx (binarySearchPos fl i) i) = freedEdges frags fl := by
              rw [hfe1, hei]
              simp
            refine ⟨?_, hz1, hb1, hnd1, s4⟩
            rw [hfe1', s2]
            omega
          | some p =>
            rw [hprev] at h
            obtain ⟨e1, e2, e3, e4, e5⟩ := ih p _ _ _ _ h hz1 hb1 hnd1
            have hei : hasEdgeB frags i = true := by
              simp only [hasEdgeB, hf]
              rw [hprev]
              rfl
            have hfe1' : freedEdges (frags.set i ⟨f.refcount - 1, f.value⟩)
                (fl.insertIdx (binarySearchPos fl i) i) =
                freedEdges frags fl + 1 := by
              rw [hfe1, hei]
              simp
            refine ⟨?_, e2, e3, e4, e5.trans s4⟩
            rw [hfe1', s2] at e1
            omega
        · -- the fragment stays referenced: stop
          rename_i hrc1
          simp only [Res.ok.injEq, Prod.mk.injEq] at h
          obtain ⟨h1, h2⟩ := h
          subst h1
          subst h2
          refine ⟨?_, ?_, ?_, hnd, s4⟩
          · rw [hfecongr, s2]
            omega
          · intro j hj
            have hji : j ≠ i := fun hcontra => hinotfl (hcontra ▸ hj)
            unfold rcAt
            rw [s5 j hji]
            exact hz j hj
          · intro j hj
            rw [s4]
            exact hb j hj

/-- One dispatch step preserves the refcount accounting: with the popped
thread counted as one pending reference, the resulting state satisfies
the full invariant. -/
theorem dispatchOne_rcInv (cg : CompiledGrammar) (minMatch : Nat)
    (st : VMState) (t : VMThread) (st' : VMState)
    (h : dispatchOne cg minMatch st t = .ok st')
    (hz : ∀ i ∈ st.freelist, rcAt st.fragments i = 0)
    (hb : ∀ i ∈ st.freelist, i < st.fragments.length)
    (hnd : st.freelist.Nodup)
    (heq : totalRc st.fragments + freedEdges st.fragments st.freelist =
      st.runnable.length + st.matchable.length + 1 + st.completions.length +
        edgesAll st.fragments) :
    RcInv st' := by
  unfold dispatchOne at h
  split at h
  · exact Res.noConfusion h
  case h_2 validx nameidx hop =>
    -- Match: the thread parks in matchable
    simp only [Res.ok.injEq] at h
    subst h
    refine ⟨hz, hb, hnd, ?_⟩
    simp only []
    have hpos : binarySearchPos (st.matchable.map (fun x => x.1)) validx ≤
        st.matchable.length := by
      have := binarySearchPos_le (st.matchable.map (fun x => x.1)) validx
      simpa using this
    rw [List.length_insertIdx _ _ hpos]
    omega
  case h_3 ntidx nameidx hop =>
    -- Fork
    simp only [Res.ok.injEq] at h
    subst h
    set A := allocFrag st.fragments st.freelist
      ⟨0, .RuleStart (some t.fragidx) nameidx ntidx⟩ with hA
    obtain ⟨eOld, a1, a2, a3, a4, a5, a6, a7, a8, a9, a10⟩ :=
      allocFrag_spec st.fragments st.freelist
        ⟨0, .RuleStart (some t.fragidx) nameidx ntidx⟩ hz hb hnd
    rw [← hA] at a1 a2 a3 a4 a5 a6 a7 a8 a9
    set R : VMState := { st with fragments := A.1, freelist := A.2.1 } with hR
    have r1 : R.fragments = A.1 := rfl
    have r2 : R.freelist = A.2.1 := rfl
    have r3 : R.runnable = st.runnable := rfl
    have r4 : R.matchable = st.matchable := rfl
    have r5 : R.completions = st.completions := rfl
    obtain ⟨f1, f2, f3, f4, f5, f6⟩ := forkChildren_rc t.ip t.sp A.2.2
      (cg.lookupNontermIdx ntidx) R (by rw [r1]; exact a4)
    obtain ⟨w1, w2, w3, w4, -, -, w7⟩ := forkChildren_fields t.ip t.sp A.2.2
      (cg.lookupNontermIdx ntidx) R
    simp only [r1, r2, r3, r4, r5] at f1 f2 f3 f4 f5 f6 w1 w2 w3 w4 w7
    refine ⟨?_, ?_, ?_, ?_⟩
    · intro i hi
      rw [w3] at hi
      have hne : i ≠ A.2.2 := fun hcontra => a6 (hcontra ▸ hi)
      unfold rcAt
      rw [f6 i hne]
      exact a7 i hi
    · intro i hi
      rw [w3] at hi
      rw [f5]
      exact a8 i hi
    · rw [w3]
      exact a9
    · rw [w3, f1, f2, w4, w2, f3]
      have hfe : freedEdges (forkChildren t.ip t.sp A.2.2
          (cg.lookupNontermIdx ntidx) R).fragments A.2.1 =
          freedEdges A.1 A.2.1 :=
        freedEdges_congr _ _ _ f4
      rw [hfe]
      have a1' : totalRc A.1 = totalRc st.fragments := by simpa using a1
      have a2' : edgesAll A.1 + eOld = edgesAll st.fragments + 1 := by simpa using a2
      omega
  case h_4 ntnameidx nameidx hop =>
    split at h
    · -- Return with non-empty stack
      split at h
      · exact Res.noConfusion h
      · rename_i item hitem
        simp only [Res.ok.injEq] at h
        subst h
        set A := allocFrag st.fragments st.freelist
          ⟨1, .RuleNonTerm t.fragidx ntnameidx nameidx⟩ with hA
        obtain ⟨eOld, a1, a2, a3, a4, a5, a6, a7, a8, a9, a10⟩ :=
          allocFrag_spec st.fragments st.freelist
            ⟨1, .RuleNonTerm t.fragidx ntnameidx nameidx⟩ hz hb hnd
        rw [← hA] at a1 a2 a3 a7 a8 a9
        have a1' : totalRc A.1 = totalRc st.fragments + 1 := by simpa using a1
        have a2' : edgesAll A.1 + eOld = edgesAll st.fragments + 1 := by
          simpa using a2
        refine ⟨a7, a8, a9, ?_⟩
        show totalRc A.1 + freedEdges A.1 A.2.1 =
          (st.runnable.length + 1) + st.matchable.length +
            st.completions.length + edgesAll A.1
        omega
    · -- top-level Return
      split at h
      all_goals
        (simp only [Res.ok.injEq] at h
         subst h
         refine ⟨hz, hb, hnd, ?_⟩
         simp only [List.length_append, List.length_cons, List.length_nil]
         omega)

theorem rcPend_zero (st : VMState) (h : RcPend st 0) : RcInv st := by
  obtain ⟨h1, h2, h3, h4⟩ := h
  exact ⟨h1, h2, h3, by omega⟩

/-- The dispatch loop preserves the refcount accounting. -/
theorem dispatchLoop_rcInv (cg : CompiledGrammar) (minMatch : Nat) :
    ∀ (fuel : Nat) (st st' : VMState),
    dispatchLoop cg minMatch fuel st = .ok st' →
    RcInv st → RcInv st' := by
  intro fuel
  induction fuel with
  | zero => intro st st' h; exact fun _ => Res.noConfusion h
  | succ n ih =>
    intro st st' h hinv
    rw [dispatchLoop] at h
    split at h
    · simp only [Res.ok.injEq] at h
      subst h; exact hinv
    · rename_i thread rest hrun
      split at h
      · rename_i st1 hd
        obtain ⟨p1, p2, p3, p4⟩ := hinv
        have hlen : st.runnable.length = rest.length + 1 := by
          rw [hrun]; rfl
        refine ih _ _ h (dispatchOne_rcInv cg minMatch _ thread st1 hd p1 p2 p3 ?_)
        show totalRc st.fragments + freedEdges st.fragments st.freelist =
          rest.length + st.matchable.length + 1 + st.completions.length +
            edgesAll st.fragments
        omega
      · exact Res.noConfusion h
      · exact Res.noConfusion h

/-- matchConsult only touches the `matched` cache and the ghost call log. -/
theorem matchConsult_state_fields (cg : CompiledGrammar)
    (matchFn : String → Nat → Bool) (validx : Nat) (st : VMState)
    (r : Bool) (st1 : VMState)
    (h : matchConsult cg matchFn validx st = .ok (r, st1)) :
    st1.fragments = st.fragments ∧ st1.freelist = st.freelist ∧
    st1.runnable = st.runnable ∧ st1.matchable = st.matchable ∧
    st1.completions = st.completions ∧ st1.tokidx = st.tokidx := by
  unfold matchConsult at h
  repeat' split at h
  all_goals try exact Res.noConfusion h
  all_goals
    (simp only [Res.ok.injEq, Prod.mk.injEq] at h
     obtain ⟨-, h⟩ := h
     subst h
     exact ⟨rfl, rfl, rfl, rfl, rfl, rfl⟩)

/-- matchProceed resolves one pending reference: on success it is handed
to the fresh RuleTermValue fragment (whose thread re-enters `runnable`),
on failure it is released through the reclamation walk. -/
theorem matchProceed_rcPend (thread : VMThread) (vkey : Nat)
    (nameidx : Option Nat) (r : Bool) (st1 : VMState) (st' : VMState)
    (prev' : Option Nat) (P : Nat)
    (h : matchProceed thread vkey nameidx r st1 = .ok (st', prev'))
    (hz : ∀ i ∈ st1.freelist, rcAt st1.fragments i = 0)
    (hb : ∀ i ∈ st1.freelist, i < st1.fragments.length)
    (hnd : st1.freelist.Nodup)
    (heq : totalRc st1.fragments + freedEdges st1.fragments st1.freelist =
      st1.runnable.length + st1.matchable.length + P + 1 +
        st1.completions.length + edgesAll st1.fragments) :
    RcPend st' P := by
  unfold matchProceed at h
  split at h
  · -- success: allocate a refcount-1 RuleTermValue fragment
    simp only [Res.ok.injEq, Prod.mk.injEq] at h
    obtain ⟨h, -⟩ := h
    subst h
    set A := allocFrag st1.fragments st1.freelist
      ⟨1, .RuleTermValue thread.fragidx st1.tokidx nameidx⟩ with hA
    obtain ⟨eOld, a1, a2, a3, a4, a5, a6, a7, a8, a9, a10⟩ :=
      allocFrag_spec st1.fragments st1.freelist
        ⟨1, .RuleTermValue thread.fragidx st1.tokidx nameidx⟩ hz hb hnd
    rw [← hA] at a1 a2 a3 a7 a8 a9
    have a1' : totalRc A.1 = totalRc st1.fragments + 1 := by simpa using a1
    have a2' : edgesAll A.1 + eOld = edgesAll st1.fragments + 1 := by simpa using a2
    refine ⟨a7, a8, a9, ?_⟩
    show totalRc A.1 + freedEdges A.1 A.2.1 =
      (st1.runnable.length + 1) + st1.matchable.length + P +
        st1.completions.length + edgesAll A.1
    omega
  · -- failure: the dead thread's chain is reclaimed
    split at h
    case h_1 frags fl hrec =>
      simp only [Res.ok.injEq, Prod.mk.injEq] at h
      obtain ⟨h, -⟩ := h
      subst h
      obtain ⟨e1, e2, e3, e4, e5⟩ := reclaim_rc _ _ _ _ _ _ hrec hz hb hnd
      refine ⟨e2, e3, e4, ?_⟩
      show totalRc frags + freedEdges frags fl =
        st1.runnable.length + st1.matchable.length + P +
          st1.completions.length + edgesAll frags
      omega
    case h_2 hrec => exact Res.noConfusion h
    case h_3 hrec => exact Res.noConfusion h

/-- matchOne resolves one pending reference. -/
theorem matchOne_rcPend (cg : CompiledGrammar) (matchFn : String → Nat → Bool)
    (prevValidx : Option Nat) (vkey : Nat) (thread : VMThread)
    (st : VMState) (st' : VMState) (prev' : Option Nat) (P : Nat)
    (h : matchOne cg matchFn prevValidx vkey thread st = .ok (st', prev'))
    (hz : ∀ i ∈ st.freelist, rcAt st.fragments i = 0)
    (hb : ∀ i ∈ st.freelist, i < st.fragments.length)
    (hnd : st.freelist.Nodup)
    (heq : totalRc st.fragments + freedEdges st.fragments st.freelist =
      st.runnable.length + st.matchable.length + P + 1 +
        st.completions.length + edgesAll st.fragments) :
    RcPend st' P := by
  unfold matchOne at h
  repeat' split at h
  all_goals try exact Res.noConfusion h
  rename_i x validx nameidx hop r st1 hc
  obtain ⟨c1, c2, c3, c4, c5, c6⟩ := matchConsult_state_fields _ _ _ _ _ _ hc
  exact matchProceed_rcPend _ _ _ _ _ _ _ P h
    (by rw [c1, c2]; exact hz)
    (by rw [c1, c2]; exact hb)
    (by rw [c2]; exact hnd)
    (by rw [c1, c2, c3, c4, c5]; exact heq)

/-- The match loop works off exactly `work.length` pending references. -/
theorem matchLoop_rcPend (cg : CompiledGrammar) (matchFn : String → Nat → Bool) :
    ∀ (work : List (Nat × VMThread)) (prev : Option Nat) (st st' : VMState),
    matchLoop cg matchFn work prev st = .ok st' →
    RcPend st work.length → RcPend st' 0 := by
  intro work
  induction work with
  | nil =>
    intro prev st st' h hinv
    simp only [matchLoop, Res.ok.injEq] at h
    subst h; exact hinv
  | cons p rest ih =>
    intro prev st st' h hinv
    rw [matchLoop] at h
    split at h
    · rename_i st1 prev1 hm
      obtain ⟨p1, p2, p3, p4⟩ := hinv
      simp only [List.length_cons] at p4
      refine ih _ _ _ h (matchOne_rcPend _ _ _ _ _ _ _ _ rest.length hm p1 p2 p3 ?_)
      omega
    · exact Res.noConfusion h
    · exact Res.noConfusion h

/-- One outer token-loop iteration preserves the refcount accounting:
draining `matchable` turns its threads into pending references that the
match phase resolves one by one. -/
theorem outerIter_rcInv (cg : CompiledGrammar) (matchFn : String → Nat → Bool)
    (minMatch : Nat) (dispatchFuel : Nat) (st st' : VMState)
    (h : outerIter cg matchFn minMatch dispatchFuel st = .ok st')
    (hinv : RcInv st) : RcInv st' := by
  unfold outerIter at h
  split at h
  · rename_i st1 hd
    split at h
    · rename_i st3 hm
      simp only [Res.ok.injEq] at h
      subst h
      obtain ⟨p1, p2, p3, p4⟩ := dispatchLoop_rcInv cg minMatch _ _ _ hd hinv
      have h3 : RcPend st3 0 := by
        refine matchLoop_rcPend cg matchFn _ _ _ _ hm ⟨p1, p2, p3, ?_⟩
        show totalRc st1.fragments + freedEdges st1.fragments st1.freelist =
          st1.runnable.length + 0 + st1.matchable.length +
            st1.completions.length + edgesAll st1.fragments
        omega
      obtain ⟨q1, q2, q3, q4⟩ := rcPend_zero st3 h3
      exact ⟨q1, q2, q3, q4⟩
    · exact Res.noConfusion h
    · exact Res.noConfusion h
  · exact Res.noConfusion h
  · exact Res.noConfusion h

/-- The outer token loop preserves the refcount accounting. -/
theorem outerLoop_rcInv (cg : CompiledGrammar) (matchFn : String → Nat → Bool)
    (minMatch : Nat) (dispatchFuel : Nat) :
    ∀ (fuel : Nat) (st st' : VMState),
    outerLoop cg matchFn minMatch dispatchFuel fuel st = .ok st' →
    RcInv st → RcInv st' := by
  intro fuel
  induction fuel with
  | zero => intro st st' h; exact fun _ => Res.noConfusion h
  | succ n ih =>
    intro st st' h hinv
    rw [outerLoop] at h
    split at h
    · simp only [Res.ok.injEq] at h
      subst h; exact hinv
    · split at h
      · rename_i st1 ho
        exact ih _ _ h (outerIter_rcInv cg matchFn minMatch dispatchFuel _ _ ho hinv)
      · exact Res.noConfusion h
      · exact Res.noConfusion h

/-- The initialization loop keeps the accounting: each refcount-1 root
fragment is balanced by its runnable thread, and no edges or freed slots
appear. -/
theorem initLoop_rcInv (n : Nat) :
    ∀ (l : List Nat) (st : VMState),
    st.freelist = [] →
    totalRc st.fragments = st.runnable.length + st.matchable.length +
      st.completions.length + edgesAll st.fragments →
    (initLoop n l st).freelist = [] ∧
    totalRc (initLoop n l st).fragments =
      (initLoop n l st).runnable.length + (initLoop n l st).matchable.length +
        (initLoop n l st).completions.length +
        edgesAll (initLoop n l st).fragments := by
  intro l
  induction l with
  | nil => intro st hfl heq; exact ⟨hfl, heq⟩
  | cons a rest ih =>
    intro st hfl heq
    rw [initLoop]
    refine ih _ hfl ?_
    show totalRc (st.fragments ++ [⟨1, .RuleStart none none n⟩]) =
      (st.runnable.length + 1) + st.matchable.length +
        st.completions.length +
        edgesAll (st.fragments ++ [⟨1, .RuleStart none none n⟩])
    have h1 : totalRc (st.fragments ++ [⟨1, .RuleStart none none n⟩]) =
        totalRc st.fragments + 1 := by
      unfold totalRc
      rw [List.map_append, List.sum_append]
      rfl
    have h2 : edgesAll (st.fragments ++ [⟨1, .RuleStart none none n⟩]) =
        edgesAll st.fragments := by
      unfold edgesAll
      rw [List.map_append, List.sum_append]
      simp [ParseFragment.prevIdx]
    omega

/-- The state at the top of the outer loop of `run` satisfies the
accounting. -/
theorem initState_rcInv (cg : CompiledGrammar) (idx : Nat) :
    RcInv (initState cg idx) := by
  unfold initState
  obtain ⟨h1, h2⟩ := initLoop_rcInv idx (cg.lookupNontermIdx idx)
    { fragments := [], tails := [], runnable := [], freelist := [],
      matchable := [], sharedStack := [],
      tokidx := 0, matched := List.replicate cg.strings.length 0,
      calls := [], completions := [] } rfl rfl
  refine ⟨?_, ?_, ?_, ?_⟩
  · intro i hi
    rw [h1] at hi
    exact absurd hi (List.not_mem_nil i)
  · intro i hi
    rw [h1] at hi
    exact absurd hi (List.not_mem_nil i)
  · rw [h1]
    exact List.nodup_nil
  · rw [h1]
    simp only [freedEdges, List.map_nil, List.sum_nil]
    omega

/-- Claim C4 (amended): the refcount accounting of `run` holds in the
amended form `totalRc + freedEdges = #runnable + #matchable +
#completions + edgesAll` (with every freed slot holding refcount 0, so
`totalRc` is also the refcount sum over live fragments): it holds in the
initial state and is preserved by every outer token-loop iteration, hence
it holds at the top of each iteration.  The refcount sum exceeds
`#threads + #tails` by the number of live out-edges plus the number of
completions recorded below `min_match`. -/
theorem c4_amended_refcount_accounting (cg : CompiledGrammar) (idx : Nat)
    (matchFn : String → Nat → Bool) (minMatch dispatchFuel : Nat)
    (st st' : VMState)
    (hinv : RcInv st)
    (h : outerIter cg matchFn minMatch dispatchFuel st = .ok st') :
    RcInv st' ∧ RcInv (initState cg idx) :=
  ⟨outerIter_rcInv cg matchFn minMatch dispatchFuel st st' h hinv,
   initState_rcInv cg idx⟩

/-- Claim C4, counterexample to the claimed equation: after the first
outer iteration of `S : 'a' ;` on a matching token (a point at the top of
an outer token-loop iteration), nothing has been freed, the refcount sum
over the (all live) fragments is 2 — the root RuleStart and the
RuleTermValue each hold refcount 1 — yet there is exactly 1 live thread
and 0 tails: the claimed equation misses the fragment-to-fragment
out-edge held by the RuleTermValue. -/
theorem c4_counterexample_rc_exceeds_threads_tails :
    outerIter cgA orA 0 10 (initState cgA 0) = .ok stC10 ∧
    stC10.freelist = [] ∧
    totalRc stC10.fragments = 2 ∧
    stC10.runnable.length = 1 ∧
    stC10.matchable.length = 0 ∧
    stC10.tails.length = 0 ∧
    totalRc stC10.fragments ≠
      stC10.runnable.length + stC10.matchable.length + stC10.tails.length := by
  exact ⟨by rfl, by rfl, by rfl, by rfl, by rfl, by rfl, by decide⟩

/-- Claim C4, witness for the amended theorem: the accounting holds for
the initial state of `S : 'a' ;` and is carried across its first outer
iteration. -/
theorem c4_witness :
    outerIter cgA orA 0 10 (initState cgA 0) = .ok stC10 ∧
    RcInv stC10 ∧ RcInv (initState cgA 0) := by
  have hstep : outerIter cgA orA 0 10 (initState cgA 0) = .ok stC10 := by rfl
  have happ := c4_amended_refcount_accounting cgA 0 orA 0 10
    (initState cgA 0) stC10 (by refine ⟨?_, ?_, ?_, ?_⟩ <;> decide) hstep
  exact ⟨hstep, happ.1, happ.2⟩

/-! ### Spine machinery: basic lemmas -/

theorem valueAt_eq_some (frags : List ParseFragment) (i : Nat) (v : FragmentType)
    (h : valueAt frags i = some v) :
    ∃ f, frags.get? i = some f ∧ f.value = v := by
  unfold valueAt at h
  split at h
  · rename_i f hf
    exact ⟨f, hf, by simpa using h⟩
  · exact Option.noConfusion h

theorem valueAt_lt (frags : List ParseFragment) (i : Nat) (v : FragmentType)
    (h : valueAt frags i = some v) : i < frags.length := by
  obtain ⟨f, hf, -⟩ := valueAt_eq_some frags i v h
  rw [List.get?_eq_getElem?] at hf
  exact (List.getElem?_eq_some_iff.mp hf).1

theorem prevOf_of_valueAt (frags : List ParseFragment) (i : Nat)
    (v : FragmentType) (h : valueAt frags i = some v) :
    prevOf frags i = ParseFragment.prevIdx ⟨0, v⟩ := by
  obtain ⟨f, hf, hv⟩ := valueAt_eq_some frags i v h
  unfold prevOf
  simp only [hf]
  rw [← hv]
  unfold ParseFragment.prevIdx
  rfl

theorem spine_nodes_bound (frags : List ParseFragment) (k : Nat)
    (ns : List Nat) (ops : List (Nat × Option Nat))
    (h : SpineL frags k ns ops) : ∀ j ∈ ns, j < frags.length := by
  induction h with
  | root i name nt h =>
    intro j hj
    rw [List.mem_singleton] at hj
    subst hj
    exact valueAt_lt _ _ _ h
  | start i p name nt ns ops h hp ih =>
    intro j hj
    rcases List.mem_cons.mp hj with hj | hj
    · subst hj; exact valueAt_lt _ _ _ h
    · exact ih j hj
  | term i p tok name ns ops h hp hne ih =>
    intro j hj
    rcases List.mem_cons.mp hj with hj | hj
    · subst hj; exact valueAt_lt _ _ _ h
    · exact ih j hj
  | close i c nt ev name ns ops h hp hne ih =>
    intro j hj
    rcases List.mem_cons.mp hj with hj | hj
    · subst hj; exact valueAt_lt _ _ _ h
    · exact ih j hj

theorem spine_head (frags : List ParseFragment) (k : Nat)
    (ns : List Nat) (ops : List (Nat × Option Nat))
    (h : SpineL frags k ns ops) : ns.head? = some k := by
  cases h <;> rfl

theorem spine_ops_ne_nil (frags : List ParseFragment) (k : Nat)
    (ns : List Nat) (ops : List (Nat × Option Nat))
    (h : SpineL frags k ns ops) : ops ≠ [] := by
  cases h with
  | root i name nt h => simp
  | start i p name nt ns ops h hp => simp
  | term i p tok name ns ops h hp hne => exact hne
  | close i c nt ev name ns ops h hp hne => exact hne

theorem spine_transport (frags frags' : List ParseFragment) (k : Nat)
    (ns : List Nat) (ops : List (Nat × Option Nat))
    (h : SpineL frags k ns ops)
    (hv : ∀ j ∈ ns, valueAt frags' j = valueAt frags j) :
    SpineL frags' k ns ops := by
  induction h with
  | root i name nt h =>
    exact .root i name nt ((hv i (by simp)).trans h)
  | start i p name nt ns ops h hp ih =>
    exact .start i p name nt ns ops ((hv i (by simp)).trans h)
      (ih (fun j hj => hv j (List.mem_cons_of_mem i hj)))
  | term i p tok name ns ops h hp hne ih =>
    exact .term i p tok name ns ops ((hv i (by simp)).trans h)
      (ih (fun j hj => hv j (List.mem_cons_of_mem i hj))) hne
  | close i c nt ev name ns ops h hp hne ih =>
    exact .close i c nt ev name ns ops ((hv i (by simp)).trans h)
      (ih (fun j hj => hv j (List.mem_cons_of_mem i hj))) hne

theorem tchain_ne_nil (cg : CompiledGrammar) (ntOf : Nat → Nat)
    (stack : List SharedStackItem) (sp : Option Nat)
    (ops : List (Nat × Option Nat))
    (h : TChain cg ntOf stack sp ops) : ops ≠ [] := by
  cases h with
  | top p => simp
  | push s item ops p ntidx fnam hs hop hnt hrec => simp

theorem tchain_mono (cg : CompiledGrammar) (ntOf : Nat → Nat)
    (stack ext : List SharedStackItem) (sp : Option Nat)
    (ops : List (Nat × Option Nat))
    (h : TChain cg ntOf stack sp ops) :
    TChain cg ntOf (stack ++ ext) sp ops := by
  induction h with
  | top p => exact .top p
  | push s item ops p ntidx fnam hs hop hnt hrec ih =>
    refine .push s item ops p ntidx fnam ?_ hop hnt ih
    rw [List.get?_eq_getElem?] at hs ⊢
    rw [List.getElem?_append_left]
    · exact hs
    · exact (List.getElem?_eq_some_iff.mp hs).1

/-- A positive `linkRefs` at the target of any in-range, unfreed slot's
out-edge. -/
theorem linkRefs_pos (frags : List ParseFragment) (fl : List Nat)
    (j p : Nat) (hj : j < frags.length) (hjf : j ∉ fl)
    (hprev : prevOf frags j = some p) : 1 ≤ linkRefs frags fl p := by
  unfold linkRefs
  have hmem : j ∈ (List.range frags.length).filter
      (fun j => decide (j ∉ fl) && decide (prevOf frags j = some p)) := by
    rw [List.mem_filter]
    refine ⟨List.mem_range.mpr hj, ?_⟩
    simp [hjf, hprev]
  exact List.length_pos.mpr (fun hnil => by rw [hnil] at hmem; exact List.not_mem_nil j hmem)

/-- Live spines avoid the free-list: the head is unfreed and every
fragment-to-fragment edge from an unfreed slot keeps its target's
refcount positive, while freed slots hold refcount zero. -/
theorem spine_avoids_freelist (frags : List ParseFragment) (fl : List Nat)
    (k : Nat) (ns : List Nat) (ops : List (Nat × Option Nat))
    (h : SpineL frags k ns ops) (hk : k ∉ fl)
    (hz : ∀ j ∈ fl, rcAt frags j = 0)
    (hl : ∀ j, linkRefs frags fl j ≤ rcAt frags j) :
    ∀ j ∈ ns, j ∉ fl := by
  induction h with
  | root i name nt h =>
    intro j hj
    rw [List.mem_singleton] at hj
    subst hj
    exact hk
  | start i p name nt ns ops h hp ih =>
    intro j hj
    have hpnf : p ∉ fl := by
      intro hpf
      have h1 : 1 ≤ linkRefs frags fl p :=
        linkRefs_pos frags fl i p (valueAt_lt _ _ _ h) hk
          (by rw [prevOf_of_valueAt frags i _ h]; rfl)
      have := hl p
      rw [hz p hpf] at this
      omega
    rcases List.mem_cons.mp hj with hj | hj
    · subst hj; exact hk
    · exact ih hpnf j hj
  | term i p tok name ns ops h hp hne ih =>
    intro j hj
    have hpnf : p ∉ fl := by
      intro hpf
      have h1 : 1 ≤ linkRefs frags fl p :=
        linkRefs_pos frags fl i p (valueAt_lt _ _ _ h) hk
          (by rw [prevOf_of_valueAt frags i _ h]; rfl)
      have := hl p
      rw [hz p hpf] at this
      omega
    rcases List.mem_cons.mp hj with hj | hj
    · subst hj; exact hk
    · exact ih hpnf j hj
  | close i c nt ev name ns ops h hp hne ih =>
    intro j hj
    have hpnf : c ∉ fl := by
      intro hpf
      have h1 : 1 ≤ linkRefs frags fl c :=
        linkRefs_pos frags fl i c (valueAt_lt _ _ _ h) hk
          (by rw [prevOf_of_valueAt frags i _ h]; rfl)
      have := hl c
      rw [hz c hpf] at this
      omega
    rcases List.mem_cons.mp hj with hj | hj
    · subst hj; exact hk
    · exact ih hpnf j hj

theorem prevIdx_eq (f : ParseFragment) (v : FragmentType) (hv : f.value = v) :
    f.prevIdx = ParseFragment.prevIdx ⟨0, v⟩ := by
  rw [← hv]
  unfold ParseFragment.prevIdx
  rfl

/-- A spine's chain is exactly what ParsedTrees::execute's backward walk
collects, for any sufficient fuel. -/
theorem spine_chainWalk (frags : List ParseFragment) :
    ∀ (fuel : Nat) (k : Nat) (ns : List Nat) (ops : List (Nat × Option Nat)),
    SpineL frags k ns ops → ns.length ≤ fuel →
    chainWalk frags fuel k = some ns := by
  intro fuel
  induction fuel with
  | zero =>
    intro k ns ops h hlen
    have hh := spine_head frags k ns ops h
    have : ns = [] := List.length_eq_zero.mp (Nat.le_zero.mp hlen)
    subst this
    exact Option.noConfusion hh
  | succ n ih =>
    intro k ns ops h hlen
    cases h with
    | root i name nt h =>
      obtain ⟨f, hf, hv⟩ := valueAt_eq_some _ _ _ h
      have hpn : f.prevIdx = none := (prevIdx_eq f _ hv).trans rfl
      rw [chainWalk]
      simp only [hf, hpn]
    | start i p name nt ns ops h hp =>
      obtain ⟨f, hf, hv⟩ := valueAt_eq_some _ _ _ h
      have hpn : f.prevIdx = some p := (prevIdx_eq f _ hv).trans rfl
      have hlen' : ns.length ≤ n := by
        simp only [List.length_cons] at hlen
        omega
      rw [chainWalk]
      simp only [hf, hpn, ih p ns ops hp hlen', Option.map_some]
      rfl
    | term i p tok name ns ops h hp hne =>
      obtain ⟨f, hf, hv⟩ := valueAt_eq_some _ _ _ h
      have hpn : f.prevIdx = some p := (prevIdx_eq f _ hv).trans rfl
      have hlen' : ns.length ≤ n := by
        simp only [List.length_cons] at hlen
        omega
      rw [chainWalk]
      simp only [hf, hpn, ih p ns ops hp hlen', Option.map_some]
      rfl
    | close i c nt ev name ns ops h hp hne =>
      obtain ⟨f, hf, hv⟩ := valueAt_eq_some _ _ _ h
      have hpn : f.prevIdx = some c := (prevIdx_eq f _ hv).trans rfl
      have hlen' : ns.length ≤ n := by
        simp only [List.length_cons] at hlen
        omega
      rw [chainWalk]
      simp only [hf, hpn, ih c ns _ hp hlen', Option.map_some]
      rfl

theorem nodup_length_le (ns : List Nat) (n : Nat) (hnd : ns.Nodup)
    (hb : ∀ j ∈ ns, j < n) : ns.length ≤ n := by
  have hsub : ns ⊆ List.range n := fun x hx => List.mem_range.mpr (hb x hx)
  have := List.Subperm.length_le (List.subperm_of_subset hnd hsub)
  simpa using this

/-- mapM over Option distributes over append (success form). -/
theorem mapM_opt_append {α β : Type} (f : α → Option β) :
    ∀ (l1 l2 : List α) (r1 r2 : List β),
    l1.mapM f = some r1 → l2.mapM f = some r2 →
    (l1 ++ l2).mapM f = some (r1 ++ r2) := by
  intro l1
  induction l1 with
  | nil =>
    intro l2 r1 r2 h1 h2
    simp only [List.mapM_nil, Option.pure_def, Option.some.injEq] at h1
    subst h1
    simpa using h2
  | cons a rest ih =>
    intro l2 r1 r2 h1 h2
    simp only [List.mapM_cons, Option.pure_def, Option.bind_eq_bind,
      Option.bind_eq_some, Option.some.injEq] at h1
    obtain ⟨b, hb, rs, hrs, hr1⟩ := h1
    subst hr1
    simp only [List.cons_append, List.mapM_cons, Option.pure_def,
      Option.bind_eq_bind, Option.bind_eq_some, Option.some.injEq]
    exact ⟨b, hb, rs ++ r2, ih l2 rs r2 hrs h2, rfl⟩

/-- mapM over Option splits across append (inversion form). -/
theorem mapM_opt_append_inv {α β : Type} (f : α → Option β) :
    ∀ (l1 l2 : List α) (r : List β),
    (l1 ++ l2).mapM f = some r →
    ∃ r1 r2, l1.mapM f = some r1 ∧ l2.mapM f = some r2 ∧ r = r1 ++ r2 := by
  intro l1
  induction l1 with
  | nil =>
    intro l2 r h
    exact ⟨[], r, rfl, by simpa using h, by simp⟩
  | cons a rest ih =>
    intro l2 r h
    simp only [List.cons_append, List.mapM_cons, Option.pure_def,
      Option.bind_eq_bind, Option.bind_eq_some, Option.some.injEq] at h
    obtain ⟨b, hb, rs, hrs, hr⟩ := h
    subst hr
    obtain ⟨r1, r2, h1, h2, hr⟩ := ih l2 rs hrs
    subst hr
    refine ⟨b :: r1, r2, ?_, h2, rfl⟩
    simp only [List.mapM_cons, Option.pure_def, Option.bind_eq_bind,
      Option.bind_eq_some, Option.some.injEq]
    exact ⟨b, hb, r1, h1, rfl⟩

theorem mapM_opt_length {α β : Type} (f : α → Option β) :
    ∀ (l : List α) (r : List β), l.mapM f = some r → r.length = l.length := by
  intro l
  induction l with
  | nil =>
    intro r h
    simp only [List.mapM_nil, Option.pure_def, Option.some.injEq] at h
    subst h; rfl
  | cons a rest ih =>
    intro r h
    simp only [List.mapM_cons, Option.pure_def, Option.bind_eq_bind,
      Option.bind_eq_some, Option.some.injEq] at h
    obtain ⟨b, hb, rs, hrs, hr⟩ := h
    subst hr
    simp [ih rs hrs]

theorem stackRun_nil (s : List String) : stackRun s [] = some s := rfl

theorem stackRun_start (s : List String) (nt : String) (nm : Option String)
    (r : List Event) : stackRun s (.startEv nt nm :: r) = stackRun (nt :: s) r := rfl

theorem stackRun_term_nil (tok : Nat) (nm : Option String) (r : List Event) :
    stackRun [] (.termEv tok nm :: r) = none := rfl

theorem stackRun_term_cons (t : String) (s : List String) (tok : Nat)
    (nm : Option String) (r : List Event) :
    stackRun (t :: s) (.termEv tok nm :: r) = stackRun (t :: s) r := rfl

theorem stackRun_end_nil (nt : String) (nm : Option String) (r : List Event) :
    stackRun [] (.endEv nt nm :: r) = none := rfl

theorem stackRun_end_cons (t : String) (s : List String) (nt : String)
    (nm : Option String) (r : List Event) :
    stackRun (t :: s) (.endEv nt nm :: r) =
      if t = nt then stackRun s r else none := rfl

theorem stackRun_append :
    ∀ (a b : List Event) (s s' : List String),
    stackRun s a = some s' → stackRun s (a ++ b) = stackRun s' b := by
  intro a
  induction a with
  | nil =>
    intro b s s' h
    rw [stackRun_nil, Option.some.injEq] at h
    subst h
    rfl
  | cons e rest ih =>
    intro b s s' h
    cases e with
    | startEv nt nm =>
      rw [stackRun_start] at h
      rw [List.cons_append, stackRun_start]
      exact ih b _ s' h
    | termEv tok nm =>
      cases s with
      | nil => rw [stackRun_term_nil] at h; exact Option.noConfusion h
      | cons t s1 =>
        rw [stackRun_term_cons] at h
        rw [List.cons_append, stackRun_term_cons]
        exact ih b _ s' h
    | endEv nt nm =>
      cases s with
      | nil => rw [stackRun_end_nil] at h; exact Option.noConfusion h
      | cons t s1 =>
        rw [stackRun_end_cons] at h
        rw [List.cons_append, stackRun_end_cons]
        split at h
        · rename_i hteq
          rw [if_pos hteq]
          exact ih b s1 s' h
        · exact Option.noConfusion h

/-- The depth counter of claim C3 follows the nesting stack. -/
theorem depthRun_of_stackRun :
    ∀ (evs : List Event) (s s' : List String),
    stackRun s evs = some s' → depthRun s.length evs = some s'.length := by
  intro evs
  induction evs with
  | nil =>
    intro s s' h
    rw [stackRun_nil, Option.some.injEq] at h
    subst h
    rfl
  | cons e rest ih =>
    intro s s' h
    cases e with
    | startEv nt nm =>
      rw [stackRun_start] at h
      rw [depthRun]
      have := ih (nt :: s) s' h
      simpa using this
    | termEv tok nm =>
      cases s with
      | nil => rw [stackRun_term_nil] at h; exact Option.noConfusion h
      | cons t s1 =>
        rw [stackRun_term_cons] at h
        rw [depthRun]
        rw [if_neg (by simp)]
        exact ih (t :: s1) s' h
    | endEv nt nm =>
      cases s with
      | nil => rw [stackRun_end_nil] at h; exact Option.noConfusion h
      | cons t s1 =>
        rw [stackRun_end_cons] at h
        rw [depthRun]
        split at h
        · rw [if_neg (by simp)]
          have := ih s1 s' h
          simpa using this
        · exact Option.noConfusion h

theorem resolveName_ok (strings : List String) (name : Option Nat)
    (h : optLtB strings.length name = true) :
    ∃ w, resolveName strings name = some w := by
  cases name with
  | none => exact ⟨none, rfl⟩
  | some x =>
    simp only [optLtB, decide_eq_true_eq] at h
    refine ⟨some strings[x], ?_⟩
    show (strings.get? x).map some = some (some strings[x])
    rw [List.get?_eq_getElem?, List.getElem?_eq_getElem h]
    rfl

theorem fragEvent_start (strings : List String) (frags : List ParseFragment)
    (i : Nat) (par name : Option Nat) (nt : Nat)
    (hv : valueAt frags i = some (.RuleStart par name nt))
    (hstr : ∀ f ∈ frags, fragStrOkB strings.length f = true) :
    ∃ nm ntS, resolveName strings name = some nm ∧
      strings.get? nt = some ntS ∧
      fragEvent strings frags i = some (.startEv ntS nm) := by
  obtain ⟨f, hf, hfv⟩ := valueAt_eq_some _ _ _ hv
  have hok := hstr f (List.get?_mem hf)
  simp only [fragStrOkB, hfv, Bool.and_eq_true] at hok
  obtain ⟨hname, hnt⟩ := hok
  obtain ⟨nm, hnm⟩ := resolveName_ok strings name hname
  simp only [decide_eq_true_eq] at hnt
  have hntS : strings.get? nt = some strings[nt] := by
    rw [List.get?_eq_getElem?, List.getElem?_eq_getElem hnt]
  refine ⟨nm, strings[nt], hnm, hntS, ?_⟩
  unfold fragEvent
  simp only [hf, hfv, hnm, hntS]

theorem fragEvent_term (strings : List String) (frags : List ParseFragment)
    (i p tok : Nat) (name : Option Nat)
    (hv : valueAt frags i = some (.RuleTermValue p tok name))
    (hstr : ∀ f ∈ frags, fragStrOkB strings.length f = true) :
    ∃ nm, resolveName strings name = some nm ∧
      fragEvent strings frags i = some (.termEv tok nm) := by
  obtain ⟨f, hf, hfv⟩ := valueAt_eq_some _ _ _ hv
  have hok := hstr f (List.get?_mem hf)
  simp only [fragStrOkB, hfv] at hok
  obtain ⟨nm, hnm⟩ := resolveName_ok strings name hok
  refine ⟨nm, hnm, ?_⟩
  unfold fragEvent
  simp only [hf, hfv, hnm]

theorem fragEvent_close (strings : List String) (frags : List ParseFragment)
    (i c nt : Nat) (ev : Option Nat)
    (hv : valueAt frags i = some (.RuleNonTerm c nt ev))
    (hstr : ∀ f ∈ frags, fragStrOkB strings.length f = true) :
    ∃ nm ntS, resolveName strings ev = some nm ∧
      strings.get? nt = some ntS ∧
      fragEvent strings frags i = some (.endEv ntS nm) := by
  obtain ⟨f, hf, hfv⟩ := valueAt_eq_some _ _ _ hv
  have hok := hstr f (List.get?_mem hf)
  simp only [fragStrOkB, hfv, Bool.and_eq_true] at hok
  obtain ⟨hname, hnt⟩ := hok
  obtain ⟨nm, hnm⟩ := resolveName_ok strings ev hname
  simp only [decide_eq_true_eq] at hnt
  have hntS : strings.get? nt = some strings[nt] := by
    rw [List.get?_eq_getElem?, List.getElem?_eq_getElem hnt]
  refine ⟨nm, strings[nt], hnm, hntS, ?_⟩
  unfold fragEvent
  simp only [hf, hfv, hnm, hntS]

theorem mapM_opt_singleton {α β : Type} (f : α → Option β) (a : α) (b : β)
    (h : f a = some b) : [a].mapM f = some [b] := by
  rw [List.mapM_cons, h, List.mapM_nil]
  rfl

theorem mapM_opt_singleton_inv {α β : Type} (f : α → Option β) (a : α) (r : List β)
    (h : [a].mapM f = some r) : ∃ b, f a = some b ∧ r = [b] := by
  rw [List.mapM_cons] at h
  cases hfa : f a with
  | none => rw [hfa] at h; exact Option.noConfusion h
  | some b =>
    rw [hfa, List.mapM_nil] at h
    refine ⟨b, rfl, ?_⟩
    cases h
    rfl

/-- Walking a spine root-first, every per-node event resolves, the
nesting checker accepts the event list leaving exactly the still-open
nonterminals (innermost on top), and the chain bottoms out at a
parentless RuleStart whose names head the open list. -/
theorem spine_events (strings : List String) (frags : List ParseFragment)
    (hstr : ∀ f ∈ frags, fragStrOkB strings.length f = true) :
    ∀ (k : Nat) (ns : List Nat) (ops : List (Nat × Option Nat)),
    SpineL frags k ns ops →
    ∃ evs opsS r nmR ntR,
      (ns.reverse).mapM (fragEvent strings frags) = some evs ∧
      ops.mapM (fun p => strings.get? p.1) = some opsS ∧
      stackRun [] evs = some opsS.reverse ∧
      ns.getLast? = some r ∧
      valueAt frags r = some (.RuleStart none nmR ntR) ∧
      ops.head? = some (ntR, nmR) := by
  intro k ns ops h
  induction h with
  | root i name nt h =>
    obtain ⟨nm, ntS, hnm, hntS, hev⟩ :=
      fragEvent_start strings frags i none name nt h hstr
    refine ⟨[.startEv ntS nm], [ntS], i, name, nt, ?_, ?_, ?_, rfl, h, rfl⟩
    · exact mapM_opt_singleton _ _ _ hev
    · exact mapM_opt_singleton _ _ _ hntS
    · rw [stackRun_start, stackRun_nil]
      rfl
  | start i p name nt ns ops h hp ih =>
    obtain ⟨evs, opsS, r, nmR, ntR, he1, he2, he3, he4, he5, he6⟩ := ih
    obtain ⟨nm, ntS, hnm, hntS, hev⟩ :=
      fragEvent_start strings frags i (some p) name nt h hstr
    have hopsne := spine_ops_ne_nil frags p ns ops hp
    refine ⟨evs ++ [.startEv ntS nm], opsS ++ [ntS], r, nmR, ntR, ?_, ?_, ?_, ?_, he5, ?_⟩
    · rw [List.reverse_cons]
      exact mapM_opt_append _ ns.reverse [i] evs [.startEv ntS nm] he1
        (mapM_opt_singleton _ _ _ hev)
    · exact mapM_opt_append _ ops [(nt, name)] opsS [ntS] he2
        (mapM_opt_singleton _ _ _ hntS)
    · rw [stackRun_append _ _ _ _ he3, stackRun_start, stackRun_nil]
      simp
    · have hh := spine_head frags p ns ops hp
      cases ns with
      | nil => exact Option.noConfusion hh
      | cons n0 ntail =>
        rw [List.getLast?_cons_cons]
        exact he4
    · cases ops with
      | nil => exact absurd rfl hopsne
      | cons o0 orest => simpa using he6
  | term i p tok name ns ops h hp hne ih =>
    obtain ⟨evs, opsS, r, nmR, ntR, he1, he2, he3, he4, he5, he6⟩ := ih
    obtain ⟨nm, hnm, hev⟩ := fragEvent_term strings frags i p tok name h hstr
    refine ⟨evs ++ [.termEv tok nm], opsS, r, nmR, ntR, ?_, he2, ?_, ?_, he5, he6⟩
    · rw [List.reverse_cons]
      exact mapM_opt_append _ ns.reverse [i] evs [.termEv tok nm] he1
        (mapM_opt_singleton _ _ _ hev)
    · rw [stackRun_append _ _ _ _ he3]
      have hlen : opsS.length = ops.length := mapM_opt_length _ ops opsS he2
      have hrevne : opsS.reverse ≠ [] := by
        intro hc
        rw [List.reverse_eq_nil_iff] at hc
        subst hc
        exact hne (List.length_eq_zero.mp hlen.symm)
      obtain ⟨t0, ts, hts⟩ := List.exists_cons_of_ne_nil hrevne
      rw [hts, stackRun_term_cons, stackRun_nil, ← hts]
    · have hh := spine_head frags p ns ops hp
      cases ns with
      | nil => exact Option.noConfusion hh
      | cons n0 ntail =>
        rw [List.getLast?_cons_cons]
        exact he4
  | close i c nt ev name ns ops h hp hne ih =>
    obtain ⟨evs, opsS', r, nmR, ntR, he1, he2, he3, he4, he5, he6⟩ := ih
    obtain ⟨opsS, oS2, hga, hgb, hgeq⟩ :=
      mapM_opt_append_inv _ ops [(nt, name)] opsS' he2
    have hoS2 : ∃ ntS, strings.get? nt = some ntS ∧ oS2 = [ntS] := by
      obtain ⟨b, hb, hbs⟩ := mapM_opt_singleton_inv _ _ _ hgb
      exact ⟨b, hb, hbs⟩
    obtain ⟨ntS, hntS, hoS2⟩ := hoS2
    subst hoS2
    subst hgeq
    obtain ⟨nm, ntS', hnm, hntS', hev⟩ :=
      fragEvent_close strings frags i c nt ev h hstr
    have hntSeq : ntS = ntS' := by
      rw [hntS] at hntS'
      exact (Option.some.injEq _ _).mp hntS'
    subst hntSeq
    refine ⟨evs ++ [.endEv ntS nm], opsS, r, nmR, ntR, ?_, hga, ?_, ?_, he5, ?_⟩
    · rw [List.reverse_cons]
      exact mapM_opt_append _ ns.reverse [i] evs [.endEv ntS nm] he1
        (mapM_opt_singleton _ _ _ hev)
    · rw [stackRun_append _ _ _ _ he3]
      have heq : (opsS ++ [ntS]).reverse = ntS :: opsS.reverse := by simp
      rw [heq, stackRun_end_cons, if_pos rfl, stackRun_nil]
    · have hh := spine_head frags c ns _ hp
      cases ns with
      | nil => exact Option.noConfusion hh
      | cons n0 ntail =>
        rw [List.getLast?_cons_cons]
        exact he4
    · cases ops with
      | nil => exact absurd rfl hne
      | cons o0 orest => simpa using he6

/-- Every well-formed tail yields a complete ParsedTrees::execute event
list: the backward walk succeeds within the arena-length fuel, every
name resolves, and the events nest properly with the final `end` closing
the root. -/
theorem tail_events (strings : List String) (frags : List ParseFragment)
    (k : Nat) (h : TailOk frags k)
    (hstr : ∀ f ∈ frags, fragStrOkB strings.length f = true) :
    ∃ ns evs, chainWalk frags (frags.length + 1) k = some ns ∧
      streamEvents strings frags ns.reverse = some evs ∧
      stackRun [] evs = some [] ∧
      (∃ r rc nmR ntR, ns.getLast? = some r ∧
        frags.get? r = some ⟨rc, .RuleStart none nmR ntR⟩) := by
  obtain ⟨ns, nt, name, hsp, hnd⟩ := h
  have hbound := spine_nodes_bound frags k ns _ hsp
  have hlen : ns.length ≤ frags.length :=
    nodup_length_le ns frags.length hnd hbound
  have hwalk : chainWalk frags (frags.length + 1) k = some ns :=
    spine_chainWalk frags (frags.length + 1) k ns _ hsp (by omega)
  obtain ⟨evs0, opsS, r, nmR, ntR, he1, he2, he3, he4, he5, he6⟩ :=
    spine_events strings frags hstr k ns _ hsp
  have hpair : (nt, name) = (ntR, nmR) := by
    have h1 : some (nt, name) = some (ntR, nmR) := he6
    exact (Option.some.injEq _ _).mp h1
  have hnt : nt = ntR := congrArg Prod.fst hpair
  obtain ⟨nm0, ntS0, hnm0, hntS0, hev0⟩ :=
    fragEvent_start strings frags r none nmR ntR he5 hstr
  obtain ⟨ntS1, hntS1, hopsS⟩ := mapM_opt_singleton_inv _ _ _ he2
  have hntS1' : strings.get? nt = some ntS1 := hntS1
  have hntS01 : ntS1 = ntS0 := by
    rw [hnt, hntS0] at hntS1'
    exact ((Option.some.injEq _ _).mp hntS1').symm
  have he3' : stackRun [] evs0 = some [ntS0] := by
    rw [he3, hopsS, hntS01]
    rfl
  cases hrev : ns.reverse with
  | nil =>
    exfalso
    have hh := spine_head frags k ns _ hsp
    have hnil : ns = [] := by
      have h2 := congrArg List.reverse hrev
      simpa using h2
    subst hnil
    exact Option.noConfusion hh
  | cons i0 rest =>
    have hi0 : i0 = r := by
      have h1 : ns.reverse.head? = ns.getLast? := List.head?_reverse ns
      rw [hrev, he4] at h1
      exact (Option.some.injEq _ _).mp h1
    rw [hi0] at hrev
    rw [hrev] at he1
    rw [← List.singleton_append] at he1
    obtain ⟨r1, r2, hr1, hr2, hr12⟩ := mapM_opt_append_inv _ _ _ _ he1
    obtain ⟨ev0, hev0', hr1eq⟩ := mapM_opt_singleton_inv _ _ _ hr1
    have hev0eq : ev0 = .startEv ntS0 nm0 := by
      rw [hev0] at hev0'
      exact (Option.some.injEq _ _).mp hev0'.symm
    subst hev0eq
    subst hr1eq
    subst hr12
    obtain ⟨f, hf, hfv⟩ := valueAt_eq_some _ _ _ he5
    obtain ⟨rc, fv⟩ := f
    simp only at hfv
    subst hfv
    refine ⟨ns, .startEv ntS0 nm0 :: (r2 ++ [.endEv ntS0 nm0]), hwalk, ?_, ?_,
      r, rc, nmR, ntR, he4, hf⟩
    · rw [hrev]
      unfold streamEvents
      simp only [hf, hnm0, hntS0, hr2]
      rw [List.cons_append]
    · have hfull : Event.startEv ntS0 nm0 :: (r2 ++ [.endEv ntS0 nm0]) =
          ([Event.startEv ntS0 nm0] ++ r2) ++ [.endEv ntS0 nm0] := by
        simp
      rw [hfull]
      rw [stackRun_append _ _ _ _ he3']
      show stackRun [ntS0] [.endEv ntS0 nm0] = some []
      rw [stackRun_end_cons, if_pos rfl, stackRun_nil]

/-! ### Per-slot reference counting helpers -/

theorem countP_update {α : Type} (p q : α → Bool) (a : α) :
    ∀ (l : List α), l.Nodup → a ∈ l → (∀ x ∈ l, x ≠ a → p x = q x) →
    q a = false →
    l.countP p = l.countP q + (if p a then 1 else 0) := by
  intro l
  induction l with
  | nil =>
    intro _ h
    exact absurd h (List.not_mem_nil a)
  | cons x rest ih =>
    intro hnd hmem hpq hqa
    rw [List.nodup_cons] at hnd
    rw [List.countP_cons, List.countP_cons]
    rcases List.mem_cons.mp hmem with hxa | hmem'
    · subst hxa
      have hrest : rest.countP p = rest.countP q := by
        apply List.countP_congr
        intro y hy
        rw [hpq y (List.mem_cons_of_mem _ hy) (fun hc => hnd.1 (hc ▸ hy))]
      rw [hrest, hqa]
      simp
    · have hxa : x ≠ a := fun hc => hnd.1 (hc ▸ hmem')
      rw [hpq x (List.mem_cons_self x rest) hxa]
      rw [ih hnd.2 hmem' (fun y hy hya => hpq y (List.mem_cons_of_mem x hy) hya) hqa]
      omega

theorem count_insertIdx {α : Type} [DecidableEq α] (l : List α) (a b : α)
    (p : Nat) (hp : p ≤ l.length) :
    (l.insertIdx p a).count b = (a :: l).count b :=
  (List.perm_insertIdx a l hp).count_eq b

theorem valueAt_eq_of_get?_eq (frags frags' : List ParseFragment) (j : Nat)
    (h : frags'.get? j = frags.get? j) : valueAt frags' j = valueAt frags j := by
  unfold valueAt
  rw [h]

theorem prevOf_eq_of_get?_eq (frags frags' : List ParseFragment) (j : Nat)
    (h : frags'.get? j = frags.get? j) : prevOf frags' j = prevOf frags j := by
  unfold prevOf
  rw [h]

theorem rcAt_eq_of_get?_eq (frags frags' : List ParseFragment) (j : Nat)
    (h : frags'.get? j = frags.get? j) : rcAt frags' j = rcAt frags j := by
  unfold rcAt
  rw [h]

theorem linkRefs_congr (frags frags' : List ParseFragment) (fl : List Nat)
    (hlen : frags'.length = frags.length)
    (hprev : ∀ j, prevOf frags' j = prevOf frags j) :
    ∀ i, linkRefs frags' fl i = linkRefs frags fl i := by
  intro i
  unfold linkRefs
  rw [hlen]
  congr 1
  apply List.filter_congr
  intro j _
  rw [hprev j]

theorem rcAt_append_self (frags : List ParseFragment) (f : ParseFragment) :
    rcAt (frags ++ [f]) frags.length = f.refcount := by
  unfold rcAt
  rw [List.get?_eq_getElem?]
  rw [List.getElem?_append_right (Nat.le_refl _)]
  simp

theorem get?_append_left_frag (frags : List ParseFragment) (f : ParseFragment)
    (j : Nat) (hj : j < frags.length) :
    (frags ++ [f]).get? j = frags.get? j := by
  rw [List.get?_eq_getElem?, List.get?_eq_getElem?, List.getElem?_append_left hj]

theorem allocFrag_get_slot (frags : List ParseFragment) (fl : List Nat)
    (frag : ParseFragment) (hb : ∀ j ∈ fl, j < frags.length) :
    (allocFrag frags fl frag).1.get? (allocFrag frags fl frag).2.2 = some frag := by
  match hl : fl.getLast? with
  | none =>
    have ha : allocFrag frags fl frag = (frags ++ [frag], fl, frags.length) := by
      unfold allocFrag
      rw [hl]
    rw [ha]
    rw [List.get?_eq_getElem?]
    rw [List.getElem?_append_right (Nat.le_refl _)]
    simp
  | some idx =>
    have hmem : idx ∈ fl := by
      rw [List.getLast?_eq_getElem?] at hl
      exact List.getElem?_mem hl
    have ha : allocFrag frags fl frag = (frags.set idx frag, fl.dropLast, idx) := by
      unfold allocFrag
      rw [hl]
    rw [ha]
    rw [List.get?_eq_getElem?, List.getElem?_set_self]
    exact hb idx hmem

theorem linkRefs_alloc (frags : List ParseFragment) (fl : List Nat)
    (frag : ParseFragment)
    (hb : ∀ j ∈ fl, j < frags.length) (hnd : fl.Nodup) :
    ∀ i, linkRefs (allocFrag frags fl frag).1 (allocFrag frags fl frag).2.1 i =
      linkRefs frags fl i + (if frag.prevIdx = some i then 1 else 0) := by
  intro i
  match hl : fl.getLast? with
  | none =>
    have hfl : fl = [] := List.getLast?_eq_none_iff.mp hl
    subst hfl
    have ha : allocFrag frags [] frag = (frags ++ [frag], [], frags.length) := by
      unfold allocFrag
      rfl
    rw [ha]
    unfold linkRefs
    have hlen : (frags ++ [frag]).length = frags.length + 1 := by simp
    rw [hlen, List.range_succ, List.filter_append, List.length_append]
    have h1 : (List.range frags.length).filter
        (fun j => decide (j ∉ ([] : List Nat)) &&
          decide (prevOf (frags ++ [frag]) j = some i)) =
        (List.range frags.length).filter
        (fun j => decide (j ∉ ([] : List Nat)) &&
          decide (prevOf frags j = some i)) := by
      apply List.filter_congr
      intro j hj
      rw [prevOf_eq_of_get?_eq frags (frags ++ [frag]) j
        (get?_append_left_frag frags frag j (List.mem_range.mp hj))]
    rw [h1]
    have h2 : prevOf (frags ++ [frag]) frags.length = frag.prevIdx := by
      unfold prevOf
      rw [List.get?_eq_getElem?]
      rw [List.getElem?_append_right (Nat.le_refl _)]
      simp
    by_cases hpi : frag.prevIdx = some i
    · rw [if_pos hpi]
      have : List.filter (fun j => decide (j ∉ ([] : List Nat)) &&
          decide (prevOf (frags ++ [frag]) j = some i)) [frags.length] =
          [frags.length] := by
        rw [List.filter_cons]
        rw [if_pos (by simp [h2, hpi])]
        rfl
      rw [this]
      rfl
    · rw [if_neg hpi]
      have : List.filter (fun j => decide (j ∉ ([] : List Nat)) &&
          decide (prevOf (frags ++ [frag]) j = some i)) [frags.length] =
          [] := by
        rw [List.filter_cons]
        rw [if_neg (by simp [h2, hpi])]
        rfl
      rw [this]
      rfl
  | some idx =>
    have hmem : idx ∈ fl := by
      rw [List.getLast?_eq_getElem?] at hl
      exact List.getElem?_mem hl
    have hlt : idx < frags.length := hb idx hmem
    have ha : allocFrag frags fl frag = (frags.set idx frag, fl.dropLast, idx) := by
      unfold allocFrag
      rw [hl]
    rw [ha]
    have hfl : fl.dropLast ++ [idx] = fl :=
      List.dropLast_append_getLast? idx (by rw [Option.mem_def]; exact hl)
    have hidnd : idx ∉ fl.dropLast := by
      intro hc
      have hnd2 := hnd
      rw [← hfl, List.nodup_append] at hnd2
      exact hnd2.2.2 hc (List.mem_singleton.mpr rfl)
    have hmem' : ∀ x, x ≠ idx → (x ∈ fl.dropLast ↔ x ∈ fl) := by
      intro x hx
      constructor
      · intro h
        rw [← hfl]
        exact List.mem_append.mpr (Or.inl h)
      · intro h
        rw [← hfl] at h
        rcases List.mem_append.mp h with h | h
        · exact h
        · exact absurd (List.mem_singleton.mp h) hx
    unfold linkRefs
    rw [List.length_set]
    rw [← List.countP_eq_length_filter, ← List.countP_eq_length_filter]
    have hupd := countP_update
      (fun j => decide (j ∉ fl.dropLast) && decide (prevOf (frags.set idx frag) j = some i))
      (fun j => decide (j ∉ fl) && decide (prevOf frags j = some i))
      idx (List.range frags.length) (List.nodup_range _)
      (List.mem_range.mpr hlt)
      (by
        intro x _ hx
        show (decide (x ∉ fl.dropLast) &&
            decide (prevOf (frags.set idx frag) x = some i)) =
          (decide (x ∉ fl) && decide (prevOf frags x = some i))
        have hp : prevOf (frags.set idx frag) x = prevOf frags x := by
          apply prevOf_eq_of_get?_eq
          rw [List.get?_eq_getElem?, List.get?_eq_getElem?]
          exact List.getElem?_set_ne (fun hc => hx hc.symm)
        rw [hp, decide_eq_decide.mpr (not_congr (hmem' x hx))])
      (by
        show (decide (idx ∉ fl) && decide (prevOf frags idx = some i)) = false
        simp [hmem])
    rw [hupd]
    have hslot : prevOf (frags.set idx frag) idx = frag.prevIdx := by
      unfold prevOf
      rw [List.get?_eq_getElem?, List.getElem?_set_self hlt]
    by_cases hpi : frag.prevIdx = some i
    · rw [if_pos (by simp [hidnd, hslot, hpi]), if_pos hpi]
    · rw [if_neg (by simp [hidnd, hslot, hpi]), if_neg hpi]

theorem linkRefs_free (frags : List ParseFragment) (fl : List Nat) (jf : Nat)
    (hjn : jf ∉ fl) (pos : Nat) (hpos : pos ≤ fl.length) :
    ∀ i, linkRefs frags (fl.insertIdx pos jf) i +
      (if jf < frags.length ∧ prevOf frags jf = some i then 1 else 0) =
      linkRefs frags fl i := by
  intro i
  unfold linkRefs
  rw [← List.countP_eq_length_filter, ← List.countP_eq_length_filter]
  have hmemiff : ∀ x, x ≠ jf → (x ∈ fl.insertIdx pos jf ↔ x ∈ fl) := by
    intro x hx
    constructor
    · intro h
      rcases mem_insertIdx_or x jf fl pos h with h | h
      · exact absurd h hx
      · exact h
    · intro h
      exact mem_insertIdx_mono x jf fl pos h
  by_cases hjlt : jf < frags.length
  · have hupd := countP_update
      (fun j => decide (j ∉ fl) && decide (prevOf frags j = some i))
      (fun j => decide (j ∉ fl.insertIdx pos jf) && decide (prevOf frags j = some i))
      jf (List.range frags.length) (List.nodup_range _)
      (List.mem_range.mpr hjlt)
      (by
        intro x _ hx
        show (decide (x ∉ fl) && decide (prevOf frags x = some i)) =
          (decide (x ∉ fl.insertIdx pos jf) && decide (prevOf frags x = some i))
        rw [decide_eq_decide.mpr (not_congr (hmemiff x hx).symm)])
      (by
        show (decide (jf ∉ fl.insertIdx pos jf) && decide (prevOf frags jf = some i)) = false
        simp [mem_insertIdx_self jf fl pos hpos])
    rw [hupd]
    by_cases hpi : prevOf frags jf = some i
    · rw [if_pos ⟨hjlt, hpi⟩, if_pos (by simp [hjn, hpi])]
    · rw [if_neg (fun hc => hpi hc.2), if_neg (by simp [hjn, hpi])]
  · have hcong : (List.range frags.length).countP
        (fun j => decide (j ∉ fl.insertIdx pos jf) && decide (prevOf frags j = some i)) =
        (List.range frags.length).countP
        (fun j => decide (j ∉ fl) && decide (prevOf frags j = some i)) := by
      apply List.countP_congr
      intro x hxr
      have hx : x ≠ jf := by
        intro hc
        exact hjlt (hc ▸ List.mem_range.mp hxr)
      show (decide (x ∉ fl.insertIdx pos jf) && decide (prevOf frags x = some i)) = true ↔
        (decide (x ∉ fl) && decide (prevOf frags x = some i)) = true
      rw [decide_eq_decide.mpr (not_congr (hmemiff x hx))]
    rw [hcong, if_neg (fun hc => hjlt hc.1)]
    rfl

/-! ### Spine transport across VM steps -/

/-- A live spine (its head holds a reference) survives any arena change
that only touches freed or out-of-range slots. -/
theorem spine_step (frags frags' : List ParseFragment) (fl : List Nat)
    (k : Nat) (ns : List Nat) (ops : List (Nat × Option Nat))
    (hsp : SpineL frags k ns ops)
    (hz : ∀ j ∈ fl, rcAt frags j = 0)
    (hl : ∀ j, linkRefs frags fl j ≤ rcAt frags j)
    (hrc1 : 1 ≤ rcAt frags k)
    (hv : ∀ j, j < frags.length → j ∉ fl → valueAt frags' j = valueAt frags j) :
    SpineL frags' k ns ops ∧ (∀ j ∈ ns, j ∉ fl) := by
  have hknf : k ∉ fl := by
    intro hc
    have := hz k hc
    omega
  have havoid := spine_avoids_freelist frags fl k ns ops hsp hknf hz hl
  have hbound := spine_nodes_bound frags k ns ops hsp
  exact ⟨spine_transport frags frags' k ns ops hsp
    (fun j hj => hv j (hbound j hj) (havoid j hj)), havoid⟩

theorem headRefs_run_pos (st : VMState) (t : VMThread) (h : t ∈ st.runnable) :
    1 ≤ headRefs st t.fragidx := by
  unfold headRefs
  have : t.fragidx ∈ st.runnable.map (fun x => x.fragidx) :=
    List.mem_map_of_mem _ h
  have := List.count_pos_iff.mpr this
  omega

theorem headRefs_mat_pos (st : VMState) (p : Nat × VMThread) (h : p ∈ st.matchable) :
    1 ≤ headRefs st p.2.fragidx := by
  unfold headRefs
  have : p.2.fragidx ∈ st.matchable.map (fun x => x.2.fragidx) :=
    List.mem_map_of_mem _ h
  have := List.count_pos_iff.mpr this
  omega

theorem headRefs_tail_pos (st : VMState) (c : Nat × Nat) (h : c ∈ st.tails) :
    1 ≤ headRefs st c.1 := by
  unfold headRefs
  have : c.1 ∈ st.tails.map (fun x => x.1) :=
    List.mem_map_of_mem _ h
  have := List.count_pos_iff.mpr this
  omega

/-! ### Grammar-shape accessors -/

theorem opAt_lt (cg : CompiledGrammar) (ip : Nat) (op : Opcode)
    (hop : cg.opAt ip = some op) : ip < cg.opcodes.length := by
  unfold CompiledGrammar.opAt at hop
  rw [List.get?_eq_getElem?] at hop
  exact (List.getElem?_eq_some_iff.mp hop).1

theorem gs_lookup_nt (cg : CompiledGrammar) (ntOf : Nat → Nat)
    (hG : GrammarShapeOk cg ntOf) :
    ∀ ntidx, ∀ a ∈ cg.lookupNontermIdx ntidx, ntOf a = ntidx := by
  intro ntidx a ha
  unfold CompiledGrammar.lookupNontermIdx at ha
  split at ha
  · rename_i pr hfind
    have hp := List.find?_some hfind
    have hmem : pr ∈ cg.ntNames := List.mem_of_find?_eq_some hfind
    simp only [decide_eq_true_eq] at hp
    rw [← hp]
    exact hG.1 pr hmem a ha
  · exact absurd ha (List.not_mem_nil a)

theorem gs_return_nt (cg : CompiledGrammar) (ntOf : Nat → Nat)
    (hG : GrammarShapeOk cg ntOf) (ip nt : Nat) (nm : Option Nat)
    (hop : cg.opAt ip = some (.Return nt nm)) : nt = ntOf ip := by
  have h2 := hG.2.1 ip (opAt_lt cg ip _ hop)
  unfold CompiledGrammar.opAt at hop
  simp only [hop] at h2
  exact h2

theorem gs_fork_step (cg : CompiledGrammar) (ntOf : Nat → Nat)
    (hG : GrammarShapeOk cg ntOf) (ip nt : Nat) (nm : Option Nat)
    (hop : cg.opAt ip = some (.Fork nt nm)) : ntOf (ip + 1) = ntOf ip := by
  have h2 := hG.2.1 ip (opAt_lt cg ip _ hop)
  unfold CompiledGrammar.opAt at hop
  simp only [hop] at h2
  exact h2

theorem gs_match_step (cg : CompiledGrammar) (ntOf : Nat → Nat)
    (hG : GrammarShapeOk cg ntOf) (ip v : Nat) (nm : Option Nat)
    (hop : cg.opAt ip = some (.Match v nm)) : ntOf (ip + 1) = ntOf ip := by
  have h2 := hG.2.1 ip (opAt_lt cg ip _ hop)
  unfold CompiledGrammar.opAt at hop
  simp only [hop] at h2
  exact h2

theorem gs_fork_str (cg : CompiledGrammar) (ntOf : Nat → Nat)
    (hG : GrammarShapeOk cg ntOf) (ip nt : Nat) (nm : Option Nat)
    (hop : cg.opAt ip = some (.Fork nt nm)) :
    nt < cg.strings.length ∧ optLtB cg.strings.length nm = true := by
  have h2 := hG.2.2 ip (opAt_lt cg ip _ hop)
  unfold CompiledGrammar.opAt at hop
  simp only [hop] at h2
  exact h2

theorem gs_return_str (cg : CompiledGrammar) (ntOf : Nat → Nat)
    (hG : GrammarShapeOk cg ntOf) (ip nt : Nat) (nm : Option Nat)
    (hop : cg.opAt ip = some (.Return nt nm)) :
    nt < cg.strings.length ∧ optLtB cg.strings.length nm = true := by
  have h2 := hG.2.2 ip (opAt_lt cg ip _ hop)
  unfold CompiledGrammar.opAt at hop
  simp only [hop] at h2
  exact h2

theorem gs_match_str (cg : CompiledGrammar) (ntOf : Nat → Nat)
    (hG : GrammarShapeOk cg ntOf) (ip v : Nat) (nm : Option Nat)
    (hop : cg.opAt ip = some (.Match v nm)) :
    v < cg.strings.length ∧ optLtB cg.strings.length nm = true := by
  have h2 := hG.2.2 ip (opAt_lt cg ip _ hop)
  unfold CompiledGrammar.opAt at hop
  simp only [hop] at h2
  exact h2

theorem fragStrOkB_start (nstr : Nat) (rc : Nat) (par nm : Option Nat) (nt : Nat)
    (h1 : nt < nstr) (h2 : optLtB nstr nm = true) :
    fragStrOkB nstr ⟨rc, .RuleStart par nm nt⟩ = true := by
  unfold fragStrOkB
  simp [h1, h2]

theorem fragStrOkB_nonterm (nstr : Nat) (rc : Nat) (c : Nat) (nt : Nat)
    (ev : Option Nat)
    (h1 : nt < nstr) (h2 : optLtB nstr ev = true) :
    fragStrOkB nstr ⟨rc, .RuleNonTerm c nt ev⟩ = true := by
  unfold fragStrOkB
  simp [h1, h2]

theorem fragStrOkB_term (nstr : Nat) (rc : Nat) (p tok : Nat) (nm : Option Nat)
    (h2 : optLtB nstr nm = true) :
    fragStrOkB nstr ⟨rc, .RuleTermValue p tok nm⟩ = true := by
  unfold fragStrOkB
  simp [h2]

theorem fragStrOkB_rc (nstr : Nat) (rc rc' : Nat) (v : FragmentType) :
    fragStrOkB nstr ⟨rc', v⟩ = fragStrOkB nstr ⟨rc, v⟩ := rfl

theorem fragStrOkB_val (nstr : Nat) (f f' : ParseFragment)
    (h : f'.value = f.value) : fragStrOkB nstr f' = fragStrOkB nstr f := by
  unfold fragStrOkB
  rw [h]

theorem rcAt_oob (frags : List ParseFragment) (j : Nat)
    (hj : frags.length ≤ j) : rcAt frags j = 0 := by
  unfold rcAt
  rw [List.get?_eq_getElem?, List.getElem?_eq_none hj]

theorem valueAt_of_get? (frags : List ParseFragment) (j : Nat)
    (f : ParseFragment) (h : frags.get? j = some f) :
    valueAt frags j = some f.value := by
  unfold valueAt
  rw [h]

theorem prevOf_valueAt (frags : List ParseFragment) (j : Nat) :
    prevOf frags j = (match valueAt frags j with
      | some v => ParseFragment.prevIdx ⟨0, v⟩
      | none => none) := by
  unfold prevOf valueAt
  cases hf : frags.get? j with
  | none => rfl
  | some f => exact prevIdx_eq f f.value rfl

theorem prevOf_congr (frags frags' : List ParseFragment) (j : Nat)
    (h : valueAt frags' j = valueAt frags j) :
    prevOf frags' j = prevOf frags j := by
  rw [prevOf_valueAt, prevOf_valueAt, h]

theorem rcInc_valueAt (frags : List ParseFragment) (slot : Nat) :
    ∀ j, valueAt (rcInc frags slot) j = valueAt frags j := by
  intro j
  unfold rcInc
  cases hf : frags.get? slot with
  | none => rfl
  | some f =>
    by_cases hj : j = slot
    · subst hj
      have hlt : j < frags.length := by
        rw [List.get?_eq_getElem?] at hf
        exact (List.getElem?_eq_some_iff.mp hf).1
      unfold valueAt
      rw [List.get?_eq_getElem?, List.getElem?_set_self hlt, hf]
    · apply valueAt_eq_of_get?_eq
      rw [List.get?_eq_getElem?, List.get?_eq_getElem?]
      exact List.getElem?_set_ne (fun hc => hj hc.symm)

theorem rcInc_length (frags : List ParseFragment) (slot : Nat) :
    (rcInc frags slot).length = frags.length := by
  unfold rcInc
  cases frags.get? slot with
  | none => rfl
  | some f => exact List.length_set frags _ _

theorem rcInc_rcAt (frags : List ParseFragment) (slot : Nat)
    (f : ParseFragment) (hf : frags.get? slot = some f) :
    rcAt (rcInc frags slot) slot = rcAt frags slot + 1 ∧
    (∀ j, j ≠ slot → rcAt (rcInc frags slot) j = rcAt frags j) := by
  have hlt : slot < frags.length := by
    rw [List.get?_eq_getElem?] at hf
    exact (List.getElem?_eq_some_iff.mp hf).1
  constructor
  · have h1 : rcInc frags slot = frags.set slot ⟨f.refcount + 1, f.value⟩ := by
      unfold rcInc
      rw [hf]
    have h2 : rcAt frags slot = f.refcount := by
      unfold rcAt
      rw [hf]
    rw [h1, h2]
    unfold rcAt
    rw [List.get?_eq_getElem?, List.getElem?_set_self hlt]
  · intro j hj
    apply rcAt_eq_of_get?_eq
    unfold rcInc
    rw [hf]
    rw [List.get?_eq_getElem?, List.get?_eq_getElem?]
    exact List.getElem?_set_ne (fun hc => hj hc.symm)

theorem allocFrag_slot_cases (frags : List ParseFragment) (fl : List Nat)
    (frag : ParseFragment) :
    (allocFrag frags fl frag).2.2 ∈ fl ∨
      (allocFrag frags fl frag).2.2 = frags.length := by
  match hl : fl.getLast? with
  | none =>
    right
    unfold allocFrag
    rw [hl]
  | some idx =>
    left
    have hmem : idx ∈ fl := by
      rw [List.getLast?_eq_getElem?] at hl
      exact List.getElem?_mem hl
    have ha : (allocFrag frags fl frag).2.2 = idx := by
      unfold allocFrag
      rw [hl]
    rw [ha]
    exact hmem

theorem allocFrag_strOk (frags : List ParseFragment) (fl : List Nat)
    (frag : ParseFragment) (nstr : Nat)
    (hstr : ∀ f ∈ frags, fragStrOkB nstr f = true)
    (hfrag : fragStrOkB nstr frag = true) :
    ∀ f ∈ (allocFrag frags fl frag).1, fragStrOkB nstr f = true := by
  intro f hf
  match hl : fl.getLast? with
  | none =>
    have ha : (allocFrag frags fl frag).1 = frags ++ [frag] := by
      unfold allocFrag
      rw [hl]
    rw [ha] at hf
    rcases List.mem_append.mp hf with hf | hf
    · exact hstr f hf
    · rw [List.mem_singleton.mp hf]
      exact hfrag
  | some idx =>
    have ha : (allocFrag frags fl frag).1 = frags.set idx frag := by
      unfold allocFrag
      rw [hl]
    rw [ha] at hf
    rcases List.mem_or_eq_of_mem_set hf with hf | hf
    · exact hstr f hf
    · rw [hf]
      exact hfrag

/-- The Fork child loop preserves the chain invariant: each child thread
receives the freshly allocated RuleStart spine, a shared-stack level
recording the forking address, and one refcount unit. -/
theorem forkChildren_chainInv (cg : CompiledGrammar) (ntOf : Nat → Nat)
    (retIp : Nat) (parentSp : Option Nat) (slot : Nat)
    (ntidx : Nat) (fnam : Option Nat) (pOps : List (Nat × Option Nat))
    (hFork : cg.opAt retIp = some (.Fork ntidx fnam))
    (hpnt : (pOps.getLast?).map Prod.fst = some (ntOf retIp)) :
    ∀ (addrs : List Nat) (st : VMState),
    (∀ a ∈ addrs, ntOf a = ntidx) →
    (∀ x ∈ st.runnable, ThreadOk cg ntOf st x) →
    (∀ p ∈ st.matchable, ThreadOk cg ntOf st p.2) →
    (∀ c ∈ st.tails, TailOk st.fragments c.1) →
    (∀ f ∈ st.fragments, fragStrOkB cg.strings.length f = true) →
    (∀ i ∈ st.freelist, rcAt st.fragments i = 0) →
    (∀ i ∈ st.freelist, i < st.fragments.length) →
    st.freelist.Nodup →
    (∀ i, headRefs st i + linkRefs st.fragments st.freelist i ≤
      rcAt st.fragments i) →
    (∃ cns, SpineL st.fragments slot cns (pOps ++ [(ntidx, fnam)]) ∧ cns.Nodup) →
    TChain cg ntOf st.sharedStack parentSp pOps →
    slot ∉ st.freelist →
    slot < st.fragments.length →
    ChainInv cg ntOf (forkChildren retIp parentSp slot addrs st) := by
  intro addrs
  induction addrs with
  | nil =>
    intro st _ hrun hmat htl hstr hz hb hnd hrb _ _ _ _
    rw [forkChildren]
    exact ⟨hrun, hmat, htl, hrb, hstr, hz, hb, hnd⟩
  | cons a rest ih =>
    intro st haddr hrun hmat htl hstr hz hb hnd hrb h9 hTC hsfl hslt
    obtain ⟨cns, hcsp, hcnd⟩ := h9
    have hf : ∃ f, st.fragments.get? slot = some f := by
      rw [List.get?_eq_getElem?]
      exact ⟨st.fragments[slot], List.getElem?_eq_getElem hslt⟩
    obtain ⟨f, hf⟩ := hf
    have hval := rcInc_valueAt st.fragments slot
    have hlen1 := rcInc_length st.fragments slot
    obtain ⟨hrcs, hrco⟩ := rcInc_rcAt st.fragments slot f hf
    have hlink : ∀ i, linkRefs (rcInc st.fragments slot) st.freelist i =
        linkRefs st.fragments st.freelist i :=
      linkRefs_congr _ _ _ hlen1 (fun j => prevOf_congr _ _ j (hval j))
    rw [forkChildren]
    set st1 : VMState :=
      { st with
        fragments := rcInc st.fragments slot,
        sharedStack := st.sharedStack ++ [⟨retIp, parentSp⟩],
        runnable := ⟨some st.sharedStack.length, a, slot⟩ :: st.runnable }
      with hst1
    have p1 : st1.fragments = rcInc st.fragments slot := rfl
    have p2 : st1.sharedStack = st.sharedStack ++ [⟨retIp, parentSp⟩] := rfl
    have p3 : st1.runnable = ⟨some st.sharedStack.length, a, slot⟩ :: st.runnable := rfl
    have p4 : st1.matchable = st.matchable := rfl
    have p5 : st1.tails = st.tails := rfl
    have p6 : st1.freelist = st.freelist := rfl
    have hh : ∀ i, headRefs st1 i = headRefs st i + (if slot = i then 1 else 0) := by
      intro i
      unfold headRefs
      rw [p3, p4, p5, List.map_cons, List.count_cons]
      simp only [beq_iff_eq]
      omega
    refine ih st1 (fun x hx => haddr x (List.mem_cons_of_mem a hx)) ?_ ?_ ?_ ?_ ?_ ?_ ?_ ?_ ?_ ?_ ?_ ?_
    · -- runnable threads
      intro x hx
      rw [p3] at hx
      rcases List.mem_cons.mp hx with hxe | hxm
      · subst hxe
        refine ⟨cns, pOps ++ [(ntidx, fnam)], ?_, hcnd, ?_, ?_⟩
        · rw [p1]
          exact spine_transport _ _ _ _ _ hcsp (fun j _ => hval j)
        · rw [p2]
          show TChain cg ntOf (st.sharedStack ++ [⟨retIp, parentSp⟩])
            (some st.sharedStack.length) (pOps ++ [(ntidx, fnam)])
          exact TChain.push st.sharedStack.length ⟨retIp, parentSp⟩ pOps
            (ntidx, fnam) ntidx fnam (by
              rw [List.get?_eq_getElem?]
              exact List.getElem?_concat_length _ _) hFork hpnt
            (tchain_mono cg ntOf st.sharedStack [⟨retIp, parentSp⟩] parentSp pOps hTC)
        · show ((pOps ++ [(ntidx, fnam)]).getLast?).map Prod.fst = some (ntOf a)
          rw [List.getLast?_concat, haddr a (List.mem_cons_self a rest)]
          rfl
      · obtain ⟨ns, ops, hsp, hnd', hTCx, hlast⟩ := hrun x hxm
        refine ⟨ns, ops, ?_, hnd', ?_, hlast⟩
        · rw [p1]
          exact spine_transport _ _ _ _ _ hsp (fun j _ => hval j)
        · rw [p2]
          exact tchain_mono cg ntOf st.sharedStack [⟨retIp, parentSp⟩] x.sp ops hTCx
    · -- matchable threads
      intro p hp
      rw [p4] at hp
      obtain ⟨ns, ops, hsp, hnd', hTCx, hlast⟩ := hmat p hp
      refine ⟨ns, ops, ?_, hnd', ?_, hlast⟩
      · rw [p1]
        exact spine_transport _ _ _ _ _ hsp (fun j _ => hval j)
      · rw [p2]
        exact tchain_mono cg ntOf st.sharedStack [⟨retIp, parentSp⟩] p.2.sp ops hTCx
    · -- tails
      intro c hc
      rw [p5] at hc
      obtain ⟨ns, nt, name, hsp, hnd'⟩ := htl c hc
      refine ⟨ns, nt, name, ?_, hnd'⟩
      rw [p1]
      exact spine_transport _ _ _ _ _ hsp (fun j _ => hval j)
    · -- string indices
      intro g hg
      rw [p1] at hg
      have h1 : rcInc st.fragments slot =
          st.fragments.set slot ⟨f.refcount + 1, f.value⟩ := by
        unfold rcInc
        rw [hf]
      rw [h1] at hg
      rcases List.mem_or_eq_of_mem_set hg with hg | hg
      · exact hstr g hg
      · rw [hg, fragStrOkB_val cg.strings.length f ⟨f.refcount + 1, f.value⟩ rfl]
        exact hstr f (List.get?_mem hf)
    · -- freed slots hold refcount 0
      intro i hi
      rw [p6] at hi
      rw [p1, hrco i (fun hc => hsfl (hc ▸ hi))]
      exact hz i hi
    · -- freelist bounds
      intro i hi
      rw [p6] at hi
      rw [p1, hlen1]
      exact hb i hi
    · rw [p6]
      exact hnd
    · -- per-slot refcount bound
      intro i
      rw [hh i, p1, p6, hlink i]
      by_cases hi : slot = i
      · subst hi
        rw [if_pos rfl, hrcs]
        have := hrb slot
        omega
      · rw [if_neg hi, hrco i (fun hc => hi hc.symm)]
        have := hrb i
        omega
    · -- the child spine survives
      refine ⟨cns, ?_, hcnd⟩
      rw [p1]
      exact spine_transport _ _ _ _ _ hcsp (fun j _ => hval j)
    · -- parent chain on the grown stack
      rw [p2]
      exact tchain_mono cg ntOf st.sharedStack [⟨retIp, parentSp⟩] parentSp pOps hTC
    · rw [p6]
      exact hsfl
    · rw [p1, hlen1]
      exact hslt

/-- Dispatch of one popped thread preserves the chain invariant (the
popped thread's reference is the `pend` unit at its fragment). -/
theorem dispatchOne_chainInv (cg : CompiledGrammar) (ntOf : Nat → Nat)
    (minMatch : Nat) (st : VMState) (t : VMThread) (st' : VMState)
    (hG : GrammarShapeOk cg ntOf)
    (h : dispatchOne cg minMatch st t = .ok st')
    (hrun : ∀ x ∈ st.runnable, ThreadOk cg ntOf st x)
    (hmat : ∀ p ∈ st.matchable, ThreadOk cg ntOf st p.2)
    (htl : ∀ c ∈ st.tails, TailOk st.fragments c.1)
    (hstr : ∀ f ∈ st.fragments, fragStrOkB cg.strings.length f = true)
    (hz : ∀ i ∈ st.freelist, rcAt st.fragments i = 0)
    (hb : ∀ i ∈ st.freelist, i < st.fragments.length)
    (hnd : st.freelist.Nodup)
    (ht : ThreadOk cg ntOf st t)
    (hrb : ∀ i, headRefs st i + linkRefs st.fragments st.freelist i +
      (if t.fragidx = i then 1 else 0) ≤ rcAt st.fragments i) :
    ChainInv cg ntOf st' := by
  have hrb0 : ∀ i, headRefs st i + linkRefs st.fragments st.freelist i ≤
      rcAt st.fragments i := by
    intro i
    have := hrb i
    by_cases he : t.fragidx = i
    · rw [if_pos he] at this
      omega
    · rw [if_neg he] at this
      omega
  have hlA : ∀ j, linkRefs st.fragments st.freelist j ≤ rcAt st.fragments j := by
    intro j
    have := hrb0 j
    omega
  have hrcpos : ∀ k, 1 ≤ headRefs st k → 1 ≤ rcAt st.fragments k := by
    intro k hk
    have := hrb0 k
    omega
  have hrc1t : 1 ≤ rcAt st.fragments t.fragidx := by
    have := hrb t.fragidx
    rw [if_pos rfl] at this
    omega
  obtain ⟨tns, tops, htsp, htnd, htTC, htlast⟩ := ht
  unfold dispatchOne at h
  split at h
  · exact Res.noConfusion h
  case h_2 validx nameidx hop =>
    -- Match: the thread parks in matchable
    simp only [Res.ok.injEq] at h
    subst h
    have hpos : binarySearchPos (st.matchable.map (fun x => x.1)) validx ≤
        st.matchable.length := by
      have := binarySearchPos_le (st.matchable.map (fun x => x.1)) validx
      simpa using this
    refine ⟨hrun, ?_, htl, ?_, hstr, hz, hb, hnd⟩
    · intro p hp
      rcases mem_insertIdx_or p (validx, t) st.matchable _ hp with hpe | hpm
      · subst hpe
        exact ⟨tns, tops, htsp, htnd, htTC, htlast⟩
      · exact hmat p hpm
    · intro i
      have hperm : (((st.matchable.insertIdx
          (binarySearchPos (st.matchable.map (fun x => x.1)) validx)
          (validx, t)).map (fun p => p.2.fragidx)).count i) =
          ((((validx, t) :: st.matchable).map (fun p => p.2.fragidx)).count i) :=
        ((List.perm_insertIdx (validx, t) st.matchable hpos).map _).count_eq i
      rw [List.map_cons, List.count_cons] at hperm
      simp only [beq_iff_eq] at hperm
      have hhr := hrb i
      unfold headRefs at hhr ⊢
      show (st.runnable.map (fun t => t.fragidx)).count i +
          ((st.matchable.insertIdx
            (binarySearchPos (st.matchable.map (fun x => x.1)) validx)
            (validx, t)).map (fun p => p.2.fragidx)).count i +
          (st.tails.map (fun c => c.1)).count i +
          linkRefs st.fragments st.freelist i + 0 ≤ rcAt st.fragments i
      rw [hperm]
      omega
  case h_3 ntidx nameidx hop =>
    -- Fork
    simp only [Res.ok.injEq] at h
    subst h
    set A := allocFrag st.fragments st.freelist
      ⟨0, .RuleStart (some t.fragidx) nameidx ntidx⟩ with hA
    obtain ⟨eOld, a1, a2, a3, a4, a5, a6, a7, a8, a9, a10⟩ :=
      allocFrag_spec st.fragments st.freelist
        ⟨0, .RuleStart (some t.fragidx) nameidx ntidx⟩ hz hb hnd
    rw [← hA] at a4 a5 a6 a7 a8 a9 a10
    have hslotc := allocFrag_slot_cases st.fragments st.freelist
      ⟨0, .RuleStart (some t.fragidx) nameidx ntidx⟩
    rw [← hA] at hslotc
    have hslotget := allocFrag_get_slot st.fragments st.freelist
      ⟨0, .RuleStart (some t.fragidx) nameidx ntidx⟩ hb
    rw [← hA] at hslotget
    have hlinkA := linkRefs_alloc st.fragments st.freelist
      ⟨0, .RuleStart (some t.fragidx) nameidx ntidx⟩ hb hnd
    rw [← hA] at hlinkA
    simp only [show (⟨0, .RuleStart (some t.fragidx) nameidx ntidx⟩ :
        ParseFragment).prevIdx = some t.fragidx from rfl,
      Option.some.injEq] at hlinkA
    have hv : ∀ j, j < st.fragments.length → j ∉ st.freelist →
        valueAt A.1 j = valueAt st.fragments j := by
      intro j hjl hjf
      apply valueAt_eq_of_get?_eq
      apply a10
      intro hc
      subst hc
      rcases hslotc with hs | hs
      · exact hjf hs
      · omega
    have hrcA_off : ∀ j, j ≠ A.2.2 → rcAt A.1 j = rcAt st.fragments j :=
      fun j hj => rcAt_eq_of_get?_eq _ _ j (a10 j hj)
    have hrcA_slot : rcAt A.1 A.2.2 = 0 := by
      unfold rcAt
      rw [hslotget]
    have hrc_slot_pre : rcAt st.fragments A.2.2 = 0 := by
      rcases hslotc with hs | hs
      · exact hz _ hs
      · exact rcAt_oob _ _ (Nat.le_of_eq hs.symm)
    have ht_ne_slot : t.fragidx ≠ A.2.2 := by
      intro hc
      rw [hc] at hrc1t
      omega
    obtain ⟨htsp', htavoid⟩ := spine_step st.fragments A.1 st.freelist
      t.fragidx tns tops htsp hz hlA hrc1t hv
    have hvalslot : valueAt A.1 A.2.2 =
        some (.RuleStart (some t.fragidx) nameidx ntidx) :=
      valueAt_of_get? _ _ _ hslotget
    have hspine_slot : SpineL A.1 A.2.2 (A.2.2 :: tns) (tops ++ [(ntidx, nameidx)]) :=
      SpineL.start A.2.2 t.fragidx nameidx ntidx tns tops hvalslot htsp'
    have hslot_notin : A.2.2 ∉ tns := by
      intro hc
      rcases hslotc with hs | hs
      · exact htavoid _ hc hs
      · have := spine_nodes_bound st.fragments t.fragidx tns tops htsp _ hc
        omega
    set R : VMState := { st with fragments := A.1, freelist := A.2.1 } with hR
    have hhR : ∀ i, headRefs R i = headRefs st i := fun i => rfl
    have hstrf := gs_fork_str cg ntOf hG t.ip ntidx nameidx hop
    refine forkChildren_chainInv cg ntOf t.ip t.sp A.2.2 ntidx nameidx tops
      hop htlast (cg.lookupNontermIdx ntidx) R
      (fun a ha => gs_lookup_nt cg ntOf hG ntidx a ha)
      ?_ ?_ ?_ ?_ ?_ ?_ ?_ ?_ ?_ ?_ ?_ ?_
    · intro x hx
      obtain ⟨ns, ops, hsp, hnd', hTCx, hlast⟩ := hrun x hx
      exact ⟨ns, ops, (spine_step st.fragments A.1 st.freelist x.fragidx ns ops
        hsp hz hlA (hrcpos _ (headRefs_run_pos st x hx)) hv).1, hnd', hTCx, hlast⟩
    · intro p hp
      obtain ⟨ns, ops, hsp, hnd', hTCx, hlast⟩ := hmat p hp
      exact ⟨ns, ops, (spine_step st.fragments A.1 st.freelist p.2.fragidx ns ops
        hsp hz hlA (hrcpos _ (headRefs_mat_pos st p hp)) hv).1, hnd', hTCx, hlast⟩
    · intro c hc
      obtain ⟨ns, nt', name', hsp, hnd'⟩ := htl c hc
      exact ⟨ns, nt', name', (spine_step st.fragments A.1 st.freelist c.1 ns _
        hsp hz hlA (hrcpos _ (headRefs_tail_pos st c hc)) hv).1, hnd'⟩
    · exact allocFrag_strOk st.fragments st.freelist _ cg.strings.length hstr
        (fragStrOkB_start cg.strings.length 0 (some t.fragidx) nameidx ntidx
          hstrf.1 hstrf.2)
    · exact a7
    · exact a8
    · exact a9
    · intro i
      rw [hhR i]
      show headRefs st i + linkRefs A.1 A.2.1 i ≤ rcAt A.1 i
      rw [hlinkA i]
      by_cases hi : i = A.2.2
      · subst hi
        rw [hrcA_slot, if_neg ht_ne_slot]
        have := hrb0 A.2.2
        omega
      · rw [hrcA_off i hi]
        have := hrb i
        omega
    · exact ⟨A.2.2 :: tns, hspine_slot, List.nodup_cons.mpr ⟨hslot_notin, htnd⟩⟩
    · exact htTC
    · exact a6
    · exact a4
  case h_4 ntnameidx nameidx hop =>
    split at h
    · -- Return with a pending stack frame
      rename_i spv hspv
      split at h
      · exact Res.noConfusion h
      · rename_i item hitem
        simp only [Res.ok.injEq] at h
        subst h
        set A := allocFrag st.fragments st.freelist
          ⟨1, .RuleNonTerm t.fragidx ntnameidx nameidx⟩ with hA
        obtain ⟨eOld, a1, a2, a3, a4, a5, a6, a7, a8, a9, a10⟩ :=
          allocFrag_spec st.fragments st.freelist
            ⟨1, .RuleNonTerm t.fragidx ntnameidx nameidx⟩ hz hb hnd
        rw [← hA] at a4 a5 a6 a7 a8 a9 a10
        have hslotc := allocFrag_slot_cases st.fragments st.freelist
          ⟨1, .RuleNonTerm t.fragidx ntnameidx nameidx⟩
        rw [← hA] at hslotc
        have hslotget := allocFrag_get_slot st.fragments st.freelist
          ⟨1, .RuleNonTerm t.fragidx ntnameidx nameidx⟩ hb
        rw [← hA] at hslotget
        have hlinkA := linkRefs_alloc st.fragments st.freelist
          ⟨1, .RuleNonTerm t.fragidx ntnameidx nameidx⟩ hb hnd
        rw [← hA] at hlinkA
        simp only [show (⟨1, .RuleNonTerm t.fragidx ntnameidx nameidx⟩ :
            ParseFragment).prevIdx = some t.fragidx from rfl,
          Option.some.injEq] at hlinkA
        have hv : ∀ j, j < st.fragments.length → j ∉ st.freelist →
            valueAt A.1 j = valueAt st.fragments j := by
          intro j hjl hjf
          apply valueAt_eq_of_get?_eq
          apply a10
          intro hc
          subst hc
          rcases hslotc with hs | hs
          · exact hjf hs
          · omega
        have hrcA_off : ∀ j, j ≠ A.2.2 → rcAt A.1 j = rcAt st.fragments j :=
          fun j hj => rcAt_eq_of_get?_eq _ _ j (a10 j hj)
        have hrcA_slot : rcAt A.1 A.2.2 = 1 := by
          unfold rcAt
          rw [hslotget]
        have hrc_slot_pre : rcAt st.fragments A.2.2 = 0 := by
          rcases hslotc with hs | hs
          · exact hz _ hs
          · exact rcAt_oob _ _ (Nat.le_of_eq hs.symm)
        have ht_ne_slot : t.fragidx ≠ A.2.2 := by
          intro hc
          rw [hc] at hrc1t
          omega
        obtain ⟨htsp', htavoid⟩ := spine_step st.fragments A.1 st.freelist
          t.fragidx tns tops htsp hz hlA hrc1t hv
        have hvalslot : valueAt A.1 A.2.2 =
            some (.RuleNonTerm t.fragidx ntnameidx nameidx) :=
          valueAt_of_get? _ _ _ hslotget
        have hslot_notin : A.2.2 ∉ tns := by
          intro hc
          rcases hslotc with hs | hs
          · exact htavoid _ hc hs
          · have := spine_nodes_bound st.fragments t.fragidx tns tops htsp _ hc
            omega
        rw [hspv] at htTC
        cases htTC with
        | push s item' ops1 p ntidx' fnam' hs' hop' hnt' hrec' =>
        have hitem' : item = item' := by
          rw [hs'] at hitem
          exact ((Option.some.injEq _ _).mp hitem).symm
        subst hitem'
        have hp1 : p.1 = ntOf t.ip := by
          rw [List.getLast?_concat] at htlast
          simpa using htlast
        have hntret : ntnameidx = ntOf t.ip :=
          gs_return_nt cg ntOf hG t.ip ntnameidx nameidx hop
        have hpe : p = (ntnameidx, p.2) := by
          have h1 : ntnameidx = p.1 := hntret.trans hp1.symm
          rw [h1]
        rw [hpe] at htsp'
        have hne1 : ops1 ≠ [] := tchain_ne_nil cg ntOf st.sharedStack _ _ hrec'
        have hspine_slot : SpineL A.1 A.2.2 (A.2.2 :: tns) ops1 :=
          SpineL.close A.2.2 t.fragidx ntnameidx nameidx p.2 tns ops1
            hvalslot htsp' hne1
        have hntstep : ntOf (item.u + 1) = ntOf item.u :=
          gs_fork_step cg ntOf hG item.u ntidx' fnam' hop'
        have hhr : ∀ i, headRefs
            { st with fragments := A.1,
                      freelist := A.2.1,
                      runnable := (⟨item.prev, item.u + 1, A.2.2⟩ :: st.runnable) } i =
            headRefs st i + (if A.2.2 = i then 1 else 0) := by
          intro i
          unfold headRefs
          show ((⟨item.prev, item.u + 1, A.2.2⟩ :: st.runnable).map
              (fun t => t.fragidx)).count i +
            (st.matchable.map (fun p => p.2.fragidx)).count i +
            (st.tails.map (fun c => c.1)).count i =
            (st.runnable.map (fun t => t.fragidx)).count i +
            (st.matchable.map (fun p => p.2.fragidx)).count i +
            (st.tails.map (fun c => c.1)).count i + (if A.2.2 = i then 1 else 0)
          rw [List.map_cons, List.count_cons]
          simp only [beq_iff_eq]
          omega
        refine ⟨?_, ?_, ?_, ?_, ?_, ?_, ?_, ?_⟩
        · intro x hx
          rcases List.mem_cons.mp hx with hxe | hxm
          · subst hxe
            refine ⟨A.2.2 :: tns, ops1, hspine_slot,
              List.nodup_cons.mpr ⟨hslot_notin, htnd⟩, hrec', ?_⟩
            show (ops1.getLast?).map Prod.fst = some (ntOf (item.u + 1))
            rw [hntstep]
            exact hnt'
          · obtain ⟨ns, ops, hsp, hnd', hTCx, hlast⟩ := hrun x hxm
            exact ⟨ns, ops, (spine_step st.fragments A.1 st.freelist x.fragidx
              ns ops hsp hz hlA (hrcpos _ (headRefs_run_pos st x hxm)) hv).1,
              hnd', hTCx, hlast⟩
        · intro q hq
          obtain ⟨ns, ops, hsp, hnd', hTCx, hlast⟩ := hmat q hq
          exact ⟨ns, ops, (spine_step st.fragments A.1 st.freelist q.2.fragidx
            ns ops hsp hz hlA (hrcpos _ (headRefs_mat_pos st q hq)) hv).1,
            hnd', hTCx, hlast⟩
        · intro c hc
          obtain ⟨ns, nt', name', hsp, hnd'⟩ := htl c hc
          exact ⟨ns, nt', name', (spine_step st.fragments A.1 st.freelist c.1
            ns _ hsp hz hlA (hrcpos _ (headRefs_tail_pos st c hc)) hv).1, hnd'⟩
        · intro i
          have hstrret := gs_return_str cg ntOf hG t.ip ntnameidx nameidx hop
          rw [hhr i]
          show headRefs st i + (if A.2.2 = i then 1 else 0) +
            linkRefs A.1 A.2.1 i + 0 ≤ rcAt A.1 i
          rw [hlinkA i]
          by_cases hi : i = A.2.2
          · subst hi
            rw [hrcA_slot, if_pos rfl, if_neg ht_ne_slot]
            have := hrb0 A.2.2
            omega
          · rw [hrcA_off i hi, if_neg (fun hc => hi hc.symm)]
            have := hrb i
            omega
        · have hstrret := gs_return_str cg ntOf hG t.ip ntnameidx nameidx hop
          exact allocFrag_strOk st.fragments st.freelist _ cg.strings.length hstr
            (fragStrOkB_nonterm cg.strings.length 1 t.fragidx ntnameidx nameidx
              hstrret.1 hstrret.2)
        · exact a7
        · exact a8
        · exact a9
    · -- top-level Return
      rename_i hspnone
      rw [hspnone] at htTC
      cases htTC with
      | top p =>
      have htail : TailOk st.fragments t.fragidx := ⟨tns, p.1, p.2, htsp, htnd⟩
      split at h
      · -- the completion meets min_match: a tail is recorded
        rename_i hmm
        simp only [Res.ok.injEq] at h
        subst h
        have hhr : ∀ i, headRefs
            { st with
                      completions := st.completions ++ [(t.fragidx, st.tokidx)],
                      tails := st.tails ++ [(t.fragidx, st.tokidx)] } i =
            headRefs st i + (if t.fragidx = i then 1 else 0) := by
          intro i
          unfold headRefs
          show (st.runnable.map (fun t => t.fragidx)).count i +
            (st.matchable.map (fun p => p.2.fragidx)).count i +
            ((st.tails ++ [(t.fragidx, st.tokidx)]).map (fun c => c.1)).count i =
            (st.runnable.map (fun t => t.fragidx)).count i +
            (st.matchable.map (fun p => p.2.fragidx)).count i +
            (st.tails.map (fun c => c.1)).count i + (if t.fragidx = i then 1 else 0)
          rw [List.map_append, List.count_append]
          simp only [List.map_cons, List.map_nil, List.count_cons, List.count_nil,
            beq_iff_eq]
          omega
        refine ⟨hrun, hmat, ?_, ?_, hstr, hz, hb, hnd⟩
        · intro c hc
          rcases List.mem_append.mp hc with hc | hc
          · exact htl c hc
          · rw [List.mem_singleton.mp hc]
            exact htail
        · intro i
          rw [hhr i]
          show headRefs st i + (if t.fragidx = i then 1 else 0) +
            linkRefs st.fragments st.freelist i + 0 ≤ rcAt st.fragments i
          have := hrb i
          omega
      · -- below min_match: the reference leaks
        rename_i hmm
        simp only [Res.ok.injEq] at h
        subst h
        refine ⟨hrun, hmat, htl, ?_, hstr, hz, hb, hnd⟩
        intro i
        have := hrb i
        show headRefs st i + linkRefs st.fragments st.freelist i + 0 ≤
          rcAt st.fragments i
        omega

/-- The dispatch loop preserves the chain invariant. -/
theorem dispatchLoop_chainInv (cg : CompiledGrammar) (ntOf : Nat → Nat)
    (minMatch : Nat) (hG : GrammarShapeOk cg ntOf) :
    ∀ (fuel : Nat) (st st' : VMState),
    dispatchLoop cg minMatch fuel st = .ok st' →
    ChainInv cg ntOf st → ChainInv cg ntOf st' := by
  intro fuel
  induction fuel with
  | zero => intro st st' h; exact fun _ => Res.noConfusion h
  | succ n ih =>
    intro st st' h hinv
    rw [dispatchLoop] at h
    split at h
    · simp only [Res.ok.injEq] at h
      subst h
      exact hinv
    · rename_i thread rest hrunq
      split at h
      · rename_i st1 hd
        obtain ⟨c1, c2, c3, c4, c5, c6, c7, c8⟩ := hinv
        refine ih _ _ h (dispatchOne_chainInv cg ntOf minMatch
          { st with runnable := rest } thread st1 hG hd ?_ ?_ ?_ ?_ ?_ ?_ ?_ ?_ ?_)
        · intro x hx
          exact c1 x (by rw [hrunq]; exact List.mem_cons_of_mem thread hx)
        · exact c2
        · exact c3
        · exact c5
        · exact c6
        · exact c7
        · exact c8
        · exact c1 thread (by rw [hrunq]; exact List.mem_cons_self thread rest)
        · intro i
          have hc4 : headRefs st i + linkRefs st.fragments st.freelist i + 0 ≤
              rcAt st.fragments i := c4 i
          unfold headRefs at hc4
          rw [hrunq, List.map_cons, List.count_cons] at hc4
          simp only [beq_iff_eq] at hc4
          show (rest.map (fun t => t.fragidx)).count i +
            (st.matchable.map (fun p => p.2.fragidx)).count i +
            (st.tails.map (fun c => c.1)).count i +
            linkRefs st.fragments st.freelist i +
            (if thread.fragidx = i then 1 else 0) ≤ rcAt st.fragments i
          omega
      · exact Res.noConfusion h
      · exact Res.noConfusion h

/-- The reclamation walk only rewrites refcounts. -/
theorem reclaim_values :
    ∀ (fuel : Nat) (o : Option Nat) (frags : List ParseFragment) (fl : List Nat)
      (frags' : List ParseFragment) (fl' : List Nat),
    reclaim fuel o frags fl = .ok (frags', fl') →
    ∀ j, valueAt frags' j = valueAt frags j := by
  intro fuel
  induction fuel with
  | zero =>
    intro o frags fl frags' fl' h
    match o with
    | none =>
      simp only [reclaim, Res.ok.injEq, Prod.mk.injEq] at h
      obtain ⟨h1, h2⟩ := h
      subst h1
      exact fun j => rfl
    | some i => exact absurd h (by simp [reclaim])
  | succ n ih =>
    intro o frags fl frags' fl' h
    match o with
    | none =>
      simp only [reclaim, Res.ok.injEq, Prod.mk.injEq] at h
      obtain ⟨h1, h2⟩ := h
      subst h1
      exact fun j => rfl
    | some i =>
      rw [reclaim] at h
      split at h
      · exact Res.noConfusion h
      · rename_i f hf
        split at h
        · exact Res.noConfusion h
        · rename_i hrc0
          have hlt : i < frags.length := by
            rw [List.get?_eq_getElem?] at hf
            exact (List.getElem?_eq_some_iff.mp hf).1
          have hset : ∀ j, valueAt (frags.set i ⟨f.refcount - 1, f.value⟩) j =
              valueAt frags j := by
            intro j
            by_cases hj : j = i
            · subst hj
              unfold valueAt
              rw [List.get?_eq_getElem?, List.getElem?_set_self hlt, hf]
            · apply valueAt_eq_of_get?_eq
              rw [List.get?_eq_getElem?, List.get?_eq_getElem?]
              exact List.getElem?_set_ne (fun hc => hj hc.symm)
          split at h
          · intro j
            exact (ih _ _ _ _ _ h j).trans (hset j)
          · simp only [Res.ok.injEq, Prod.mk.injEq] at h
            obtain ⟨h1, h2⟩ := h
            subst h1
            exact hset

/-- The reclamation walk preserves per-slot refcount soundness: the one
pending reference it releases walks down the chain, turning freed
slots' out-edges dead in step with the decrements. -/
theorem reclaim_rcBound :
    ∀ (fuel jf : Nat) (frags : List ParseFragment) (fl : List Nat)
      (frags' : List ParseFragment) (fl' : List Nat) (H : Nat → Nat),
    reclaim fuel (some jf) frags fl = .ok (frags', fl') →
    (∀ j ∈ fl, rcAt frags j = 0) →
    (∀ j ∈ fl, j < frags.length) →
    fl.Nodup →
    (∀ i, H i + linkRefs frags fl i + (if jf = i then 1 else 0) ≤
      rcAt frags i) →
    (∀ i, H i + linkRefs frags' fl' i ≤ rcAt frags' i) := by
  intro fuel
  induction fuel with
  | zero =>
    intro jf frags fl frags' fl' H h
    exact absurd h (by simp [reclaim])
  | succ n ih =>
    intro jf frags fl frags' fl' H h hz hb hnd hrb
    rw [reclaim] at h
    split at h
    · exact Res.noConfusion h
    · rename_i f hf
      split at h
      · exact Res.noConfusion h
      · rename_i hrc0
        have hlt : jf < frags.length := by
          rw [List.get?_eq_getElem?] at hf
          exact (List.getElem?_eq_some_iff.mp hf).1
        have hrcjf : rcAt frags jf = f.refcount := by
          unfold rcAt
          rw [hf]
        have hjnf : jf ∉ fl := by
          intro hc
          have := hz jf hc
          omega
        have hset_val : ∀ j, valueAt (frags.set jf ⟨f.refcount - 1, f.value⟩) j =
            valueAt frags j := by
          intro j
          by_cases hj : j = jf
          · subst hj
            unfold valueAt
            rw [List.get?_eq_getElem?, List.getElem?_set_self hlt, hf]
          · apply valueAt_eq_of_get?_eq
            rw [List.get?_eq_getElem?, List.get?_eq_getElem?]
            exact List.getElem?_set_ne (fun hc => hj hc.symm)
        have hset_len : (frags.set jf ⟨f.refcount - 1, f.value⟩).length =
            frags.length := List.length_set frags _ _
        have hlink_set : ∀ g, ∀ i, linkRefs (frags.set jf ⟨f.refcount - 1, f.value⟩) g i =
            linkRefs frags g i := fun g =>
          linkRefs_congr _ _ g hset_len (fun j => prevOf_congr _ _ j (hset_val j))
        have hrc_set_jf : rcAt (frags.set jf ⟨f.refcount - 1, f.value⟩) jf =
            f.refcount - 1 := by
          unfold rcAt
          rw [List.get?_eq_getElem?, List.getElem?_set_self hlt]
        have hrc_set_off : ∀ j, j ≠ jf →
            rcAt (frags.set jf ⟨f.refcount - 1, f.value⟩) j = rcAt frags j := by
          intro j hj
          apply rcAt_eq_of_get?_eq
          rw [List.get?_eq_getElem?, List.get?_eq_getElem?]
          exact List.getElem?_set_ne (fun hc => hj hc.symm)
        have hprev_jf : prevOf (frags.set jf ⟨f.refcount - 1, f.value⟩) jf =
            f.prevIdx := by
          rw [prevOf_congr _ _ jf (hset_val jf)]
          unfold prevOf
          rw [hf]
        split at h
        · -- the slot is freed and the walk continues at f.prevIdx
          rename_i hrc1
          have hposle := binarySearchPos_le fl jf
          have hmemnew := mem_insertIdx_self jf fl (binarySearchPos fl jf) hposle
          have hfree := linkRefs_free frags fl jf hjnf (binarySearchPos fl jf) hposle
          have hz1 : ∀ j ∈ fl.insertIdx (binarySearchPos fl jf) jf,
              rcAt (frags.set jf ⟨f.refcount - 1, f.value⟩) j = 0 := by
            intro j hj
            rcases mem_insertIdx_or j jf fl _ hj with hj | hj
            · subst hj
              rw [hrc_set_jf]
              omega
            · have hjj : j ≠ jf := fun hc => hjnf (hc ▸ hj)
              rw [hrc_set_off j hjj]
              exact hz j hj
          have hb1 : ∀ j ∈ fl.insertIdx (binarySearchPos fl jf) jf,
              j < (frags.set jf ⟨f.refcount - 1, f.value⟩).length := by
            intro j hj
            rw [hset_len]
            rcases mem_insertIdx_or j jf fl _ hj with hj | hj
            · exact hj ▸ hlt
            · exact hb j hj
          have hnd1 : (fl.insertIdx (binarySearchPos fl jf) jf).Nodup :=
            nodup_insertIdx jf fl _ hnd hjnf
          have hatjf : H jf = 0 ∧ linkRefs frags fl jf = 0 := by
            have := hrb jf
            rw [if_pos rfl, hrcjf] at this
            omega
          match hprev : f.prevIdx with
          | none =>
            rw [hprev] at h
            simp only [reclaim, Res.ok.injEq, Prod.mk.injEq] at h
            obtain ⟨h1, h2⟩ := h
            subst h1
            subst h2
            intro i
            have hfr := hfree i
            rw [hlink_set]
            by_cases hi : i = jf
            · subst hi
              rw [hrc_set_jf]
              have hl1 : linkRefs frags (fl.insertIdx (binarySearchPos fl i) i) i ≤
                  linkRefs frags fl i := by omega
              omega
            · have hpno : ¬(jf < frags.length ∧ prevOf frags jf = some i) := by
                intro hc
                rw [show prevOf frags jf = f.prevIdx by unfold prevOf; rw [hf],
                  hprev] at hc
                exact Option.noConfusion hc.2
              rw [if_neg hpno] at hfr
              have := hrb i
              rw [if_neg (fun hc => hi hc.symm)] at this
              rw [hrc_set_off i hi]
              omega
          | some p =>
            rw [hprev] at h
            have hprevfr : prevOf frags jf = some p := by
              unfold prevOf
              simp only [hf]
              exact hprev
            by_cases hpjf : p = jf
            · -- self-edge: the next step reads a zero refcount and panics
              exfalso
              subst hpjf
              cases n with
              | zero => exact absurd h (by simp [reclaim])
              | succ m =>
                rw [reclaim] at h
                rw [List.get?_eq_getElem?] at h
                simp only [List.getElem?_set_self hlt,
                  show (⟨f.refcount - 1, f.value⟩ :
                    ParseFragment).refcount = f.refcount - 1 from rfl] at h
                rw [if_pos hrc1] at h
                exact Res.noConfusion h
            · refine ih p _ _ _ _ H h hz1 hb1 hnd1 ?_
              intro i
              have hfr := hfree i
              rw [hlink_set]
              by_cases hi : i = jf
              · subst hi
                rw [hrc_set_jf, if_neg hpjf]
                have hl1 : linkRefs frags (fl.insertIdx (binarySearchPos fl i) i) i ≤
                    linkRefs frags fl i := by omega
                omega
              · rw [hrc_set_off i hi]
                have hpiff : (jf < frags.length ∧ prevOf frags jf = some i) ↔ p = i := by
                  constructor
                  · intro hc
                    rw [hprevfr] at hc
                    exact (Option.some.injEq _ _).mp hc.2
                  · intro hc
                    exact ⟨hlt, by rw [hprevfr, hc]⟩
                have := hrb i
                rw [if_neg (fun hc => hi hc.symm)] at this
                by_cases hpi : p = i
                · rw [if_pos hpi]
                  rw [if_pos (hpiff.mpr hpi)] at hfr
                  omega
                · rw [if_neg hpi]
                  rw [if_neg (fun hc => hpi (hpiff.mp hc))] at hfr
                  omega
        · -- the fragment stays referenced: the walk stops here
          rename_i hrc1
          simp only [Res.ok.injEq, Prod.mk.injEq] at h
          obtain ⟨h1, h2⟩ := h
          subst h1
          subst h2
          intro i
          rw [hlink_set]
          by_cases hi : i = jf
          · subst hi
            rw [hrc_set_jf]
            have := hrb i
            rw [if_pos rfl, hrcjf] at this
            omega
          · rw [hrc_set_off i hi]
            have := hrb i
            rw [if_neg (fun hc => hi hc.symm)] at this
            omega

theorem matchConsult_shared (cg : CompiledGrammar)
    (matchFn : String → Nat → Bool) (validx : Nat) (st : VMState)
    (r : Bool) (st1 : VMState)
    (h : matchConsult cg matchFn validx st = .ok (r, st1)) :
    st1.sharedStack = st.sharedStack := by
  unfold matchConsult at h
  repeat' split at h
  all_goals try exact Res.noConfusion h
  all_goals
    (simp only [Res.ok.injEq, Prod.mk.injEq] at h
     obtain ⟨-, h⟩ := h
     subst h
     rfl)

theorem strOk_of_values (frags frags' : List ParseFragment) (nstr : Nat)
    (hv : ∀ j, valueAt frags' j = valueAt frags j)
    (hstr : ∀ f ∈ frags, fragStrOkB nstr f = true) :
    ∀ f ∈ frags', fragStrOkB nstr f = true := by
  intro f hf
  obtain ⟨j, hj⟩ := List.mem_iff_get?.mp hf
  have h1 : valueAt frags' j = some f.value := valueAt_of_get? _ _ _ hj
  rw [hv j] at h1
  obtain ⟨g, hg, hgv⟩ := valueAt_eq_some _ _ _ h1
  rw [fragStrOkB_val nstr g f hgv.symm]
  exact hstr g (List.get?_mem hg)

/-- The match-phase resolution of one thread preserves the chain
invariant: on success the pending reference funds the fresh
RuleTermValue fragment, on failure the reclamation walk releases it. -/
theorem matchProceed_chainInv (cg : CompiledGrammar) (ntOf : Nat → Nat)
    (thread : VMThread) (vkey : Nat) (nameidx : Option Nat) (r : Bool)
    (st1 st' : VMState) (prev' : Option Nat) (E : Nat → Nat)
    (h : matchProceed thread vkey nameidx r st1 = .ok (st', prev'))
    (hnt1 : ntOf (thread.ip + 1) = ntOf thread.ip)
    (hnmok : optLtB cg.strings.length nameidx = true)
    (hrun : ∀ x ∈ st1.runnable, ThreadOk cg ntOf st1 x)
    (hmat : ∀ p ∈ st1.matchable, ThreadOk cg ntOf st1 p.2)
    (htl : ∀ c ∈ st1.tails, TailOk st1.fragments c.1)
    (hstr : ∀ f ∈ st1.fragments, fragStrOkB cg.strings.length f = true)
    (hz : ∀ i ∈ st1.freelist, rcAt st1.fragments i = 0)
    (hb : ∀ i ∈ st1.freelist, i < st1.fragments.length)
    (hnd : st1.freelist.Nodup)
    (ht : ThreadOk cg ntOf st1 thread)
    (hrb : ∀ i, headRefs st1 i + linkRefs st1.fragments st1.freelist i + E i +
      (if thread.fragidx = i then 1 else 0) ≤ rcAt st1.fragments i) :
    (∀ x ∈ st'.runnable, ThreadOk cg ntOf st' x) ∧
    (∀ p ∈ st'.matchable, ThreadOk cg ntOf st' p.2) ∧
    (∀ c ∈ st'.tails, TailOk st'.fragments c.1) ∧
    (∀ f ∈ st'.fragments, fragStrOkB cg.strings.length f = true) ∧
    (∀ i ∈ st'.freelist, rcAt st'.fragments i = 0) ∧
    (∀ i ∈ st'.freelist, i < st'.fragments.length) ∧
    st'.freelist.Nodup ∧
    (∀ i, headRefs st' i + linkRefs st'.fragments st'.freelist i + E i ≤
      rcAt st'.fragments i) ∧
    (∀ k ns ops, SpineL st1.fragments k ns ops → 1 ≤ rcAt st1.fragments k →
      SpineL st'.fragments k ns ops) ∧
    st'.sharedStack = st1.sharedStack := by
  have hlA : ∀ j, linkRefs st1.fragments st1.freelist j ≤ rcAt st1.fragments j := by
    intro j
    have := hrb j
    by_cases he : thread.fragidx = j
    · rw [if_pos he] at this
      omega
    · rw [if_neg he] at this
      omega
  have hrcpos : ∀ k, 1 ≤ headRefs st1 k → 1 ≤ rcAt st1.fragments k := by
    intro k hk
    have := hrb k
    by_cases he : thread.fragidx = k
    · rw [if_pos he] at this
      omega
    · rw [if_neg he] at this
      omega
  have hrc1t : 1 ≤ rcAt st1.fragments thread.fragidx := by
    have := hrb thread.fragidx
    rw [if_pos rfl] at this
    omega
  obtain ⟨tns, tops, htsp, htnd, htTC, htlast⟩ := ht
  unfold matchProceed at h
  split at h
  · -- success: a fresh RuleTermValue fragment revives the thread
    simp only [Res.ok.injEq, Prod.mk.injEq] at h
    obtain ⟨h, -⟩ := h
    subst h
    set A := allocFrag st1.fragments st1.freelist
      ⟨1, .RuleTermValue thread.fragidx st1.tokidx nameidx⟩ with hA
    obtain ⟨eOld, a1, a2, a3, a4, a5, a6, a7, a8, a9, a10⟩ :=
      allocFrag_spec st1.fragments st1.freelist
        ⟨1, .RuleTermValue thread.fragidx st1.tokidx nameidx⟩ hz hb hnd
    rw [← hA] at a4 a5 a6 a7 a8 a9 a10
    have hslotc := allocFrag_slot_cases st1.fragments st1.freelist
      ⟨1, .RuleTermValue thread.fragidx st1.tokidx nameidx⟩
    rw [← hA] at hslotc
    have hslotget := allocFrag_get_slot st1.fragments st1.freelist
      ⟨1, .RuleTermValue thread.fragidx st1.tokidx nameidx⟩ hb
    rw [← hA] at hslotget
    have hlinkA := linkRefs_alloc st1.fragments st1.freelist
      ⟨1, .RuleTermValue thread.fragidx st1.tokidx nameidx⟩ hb hnd
    rw [← hA] at hlinkA
    simp only [show (⟨1, .RuleTermValue thread.fragidx st1.tokidx nameidx⟩ :
        ParseFragment).prevIdx = some thread.fragidx from rfl,
      Option.some.injEq] at hlinkA
    have hv : ∀ j, j < st1.fragments.length → j ∉ st1.freelist →
        valueAt A.1 j = valueAt st1.fragments j := by
      intro j hjl hjf
      apply valueAt_eq_of_get?_eq
      apply a10
      intro hc
      subst hc
      rcases hslotc with hs | hs
      · exact hjf hs
      · omega
    have hrcA_off : ∀ j, j ≠ A.2.2 → rcAt A.1 j = rcAt st1.fragments j :=
      fun j hj => rcAt_eq_of_get?_eq _ _ j (a10 j hj)
    have hrcA_slot : rcAt A.1 A.2.2 = 1 := by
      unfold rcAt
      rw [hslotget]
    have hrc_slot_pre : rcAt st1.fragments A.2.2 = 0 := by
      rcases hslotc with hs | hs
      · exact hz _ hs
      · exact rcAt_oob _ _ (Nat.le_of_eq hs.symm)
    have ht_ne_slot : thread.fragidx ≠ A.2.2 := by
      intro hc
      rw [hc] at hrc1t
      omega
    obtain ⟨htsp', htavoid⟩ := spine_step st1.fragments A.1 st1.freelist
      thread.fragidx tns tops htsp hz hlA hrc1t hv
    have hvalslot : valueAt A.1 A.2.2 =
        some (.RuleTermValue thread.fragidx st1.tokidx nameidx) :=
      valueAt_of_get? _ _ _ hslotget
    have hslot_notin : A.2.2 ∉ tns := by
      intro hc
      rcases hslotc with hs | hs
      · exact htavoid _ hc hs
      · have := spine_nodes_bound st1.fragments thread.fragidx tns tops htsp _ hc
        omega
    have hspine_slot : SpineL A.1 A.2.2 (A.2.2 :: tns) tops :=
      SpineL.term A.2.2 thread.fragidx st1.tokidx nameidx tns tops hvalslot htsp'
        (tchain_ne_nil cg ntOf st1.sharedStack thread.sp tops htTC)
    have hhr : ∀ i, headRefs
        { st1 with fragments := A.1,
                   freelist := A.2.1,
                   runnable := (⟨thread.sp, thread.ip + 1, A.2.2⟩ :: st1.runnable) } i =
        headRefs st1 i + (if A.2.2 = i then 1 else 0) := by
      intro i
      unfold headRefs
      show ((⟨thread.sp, thread.ip + 1, A.2.2⟩ :: st1.runnable).map
          (fun t => t.fragidx)).count i +
        (st1.matchable.map (fun p => p.2.fragidx)).count i +
        (st1.tails.map (fun c => c.1)).count i =
        (st1.runnable.map (fun t => t.fragidx)).count i +
        (st1.matchable.map (fun p => p.2.fragidx)).count i +
        (st1.tails.map (fun c => c.1)).count i + (if A.2.2 = i then 1 else 0)
      rw [List.map_cons, List.count_cons]
      simp only [beq_iff_eq]
      omega
    refine ⟨?_, ?_, ?_, ?_, a7, a8, a9, ?_, ?_, rfl⟩
    · intro x hx
      rcases List.mem_cons.mp hx with hxe | hxm
      · subst hxe
        refine ⟨A.2.2 :: tns, tops, hspine_slot,
          List.nodup_cons.mpr ⟨hslot_notin, htnd⟩, htTC, ?_⟩
        show (tops.getLast?).map Prod.fst = some (ntOf (thread.ip + 1))
        rw [hnt1]
        exact htlast
      · obtain ⟨ns, ops, hsp, hnd', hTCx, hlast⟩ := hrun x hxm
        exact ⟨ns, ops, (spine_step st1.fragments A.1 st1.freelist x.fragidx
          ns ops hsp hz hlA (hrcpos _ (headRefs_run_pos st1 x hxm)) hv).1,
          hnd', hTCx, hlast⟩
    · intro q hq
      obtain ⟨ns, ops, hsp, hnd', hTCx, hlast⟩ := hmat q hq
      exact ⟨ns, ops, (spine_step st1.fragments A.1 st1.freelist q.2.fragidx
        ns ops hsp hz hlA (hrcpos _ (headRefs_mat_pos st1 q hq)) hv).1,
        hnd', hTCx, hlast⟩
    · intro c hc
      obtain ⟨ns, nt', name', hsp, hnd'⟩ := htl c hc
      exact ⟨ns, nt', name', (spine_step st1.fragments A.1 st1.freelist c.1
        ns _ hsp hz hlA (hrcpos _ (headRefs_tail_pos st1 c hc)) hv).1, hnd'⟩
    · exact allocFrag_strOk st1.fragments st1.freelist _ cg.strings.length hstr
        (fragStrOkB_term cg.strings.length 1 thread.fragidx st1.tokidx nameidx hnmok)
    · intro i
      rw [hhr i]
      show headRefs st1 i + (if A.2.2 = i then 1 else 0) +
        linkRefs A.1 A.2.1 i + E i ≤ rcAt A.1 i
      rw [hlinkA i]
      by_cases hi : i = A.2.2
      · subst hi
        rw [hrcA_slot, if_pos rfl, if_neg ht_ne_slot]
        have := hrb A.2.2
        rw [if_neg ht_ne_slot] at this
        omega
      · rw [hrcA_off i hi, if_neg (fun hc => hi hc.symm)]
        have := hrb i
        omega
    · intro k ns ops hsp hrc1
      exact (spine_step st1.fragments A.1 st1.freelist k ns ops hsp hz hlA
        hrc1 hv).1
  · -- failure: the dead thread's chain is reclaimed
    split at h
    case h_1 frags2 fl2 hrec =>
      simp only [Res.ok.injEq, Prod.mk.injEq] at h
      obtain ⟨h, -⟩ := h
      subst h
      obtain ⟨e1, e2, e3, e4, e5⟩ := reclaim_rc _ _ _ _ _ _ hrec hz hb hnd
      have hvals := reclaim_values _ _ _ _ _ _ hrec
      have hrbnd := reclaim_rcBound _ _ _ _ _ _
        (fun i => headRefs st1 i + E i) hrec hz hb hnd
        (by
          intro i
          show headRefs st1 i + E i + linkRefs st1.fragments st1.freelist i +
            (if thread.fragidx = i then 1 else 0) ≤ rcAt st1.fragments i
          have := hrb i
          omega)
      refine ⟨?_, ?_, ?_, ?_, e2, e3, e4, ?_, ?_, rfl⟩
      · intro x hx
        obtain ⟨ns, ops, hsp, hnd', hTCx, hlast⟩ := hrun x hx
        exact ⟨ns, ops, spine_transport _ _ _ _ _ hsp (fun j _ => hvals j),
          hnd', hTCx, hlast⟩
      · intro q hq
        obtain ⟨ns, ops, hsp, hnd', hTCx, hlast⟩ := hmat q hq
        exact ⟨ns, ops, spine_transport _ _ _ _ _ hsp (fun j _ => hvals j),
          hnd', hTCx, hlast⟩
      · intro c hc
        obtain ⟨ns, nt', name', hsp, hnd'⟩ := htl c hc
        exact ⟨ns, nt', name', spine_transport _ _ _ _ _ hsp (fun j _ => hvals j),
          hnd'⟩
      · exact strOk_of_values st1.fragments frags2 cg.strings.length hvals hstr
      · intro i
        have h2 : headRefs st1 i + E i + linkRefs frags2 fl2 i ≤ rcAt frags2 i :=
          hrbnd i
        show headRefs st1 i + linkRefs frags2 fl2 i + E i ≤ rcAt frags2 i
        omega
      · intro k ns ops hsp _
        exact spine_transport _ _ _ _ _ hsp (fun j _ => hvals j)
    case h_2 hrec => exact Res.noConfusion h
    case h_3 hrec => exact Res.noConfusion h

/-- One match-phase thread preserves the chain invariant. -/
theorem matchOne_chainInv (cg : CompiledGrammar) (ntOf : Nat → Nat)
    (matchFn : String → Nat → Bool) (hG : GrammarShapeOk cg ntOf)
    (prevValidx : Option Nat) (vkey : Nat) (thread : VMThread)
    (st st' : VMState) (prev' : Option Nat) (E : Nat → Nat)
    (h : matchOne cg matchFn prevValidx vkey thread st = .ok (st', prev'))
    (hrun : ∀ x ∈ st.runnable, ThreadOk cg ntOf st x)
    (hmat : ∀ p ∈ st.matchable, ThreadOk cg ntOf st p.2)
    (htl : ∀ c ∈ st.tails, TailOk st.fragments c.1)
    (hstr : ∀ f ∈ st.fragments, fragStrOkB cg.strings.length f = true)
    (hz : ∀ i ∈ st.freelist, rcAt st.fragments i = 0)
    (hb : ∀ i ∈ st.freelist, i < st.fragments.length)
    (hnd : st.freelist.Nodup)
    (ht : ThreadOk cg ntOf st thread)
    (hrb : ∀ i, headRefs st i + linkRefs st.fragments st.freelist i + E i +
      (if thread.fragidx = i then 1 else 0) ≤ rcAt st.fragments i) :
    (∀ x ∈ st'.runnable, ThreadOk cg ntOf st' x) ∧
    (∀ p ∈ st'.matchable, ThreadOk cg ntOf st' p.2) ∧
    (∀ c ∈ st'.tails, TailOk st'.fragments c.1) ∧
    (∀ f ∈ st'.fragments, fragStrOkB cg.strings.length f = true) ∧
    (∀ i ∈ st'.freelist, rcAt st'.fragments i = 0) ∧
    (∀ i ∈ st'.freelist, i < st'.fragments.length) ∧
    st'.freelist.Nodup ∧
    (∀ i, headRefs st' i + linkRefs st'.fragments st'.freelist i + E i ≤
      rcAt st'.fragments i) ∧
    (∀ k ns ops, SpineL st.fragments k ns ops → 1 ≤ rcAt st.fragments k →
      SpineL st'.fragments k ns ops) ∧
    st'.sharedStack = st.sharedStack := by
  unfold matchOne at h
  repeat' split at h
  all_goals try exact Res.noConfusion h
  rename_i validx nameidx hop hscrut r st1 hc
  have hnt1 := gs_match_step cg ntOf hG thread.ip validx nameidx hop
  have hstrm := gs_match_str cg ntOf hG thread.ip validx nameidx hop
  obtain ⟨c1, c2, c3, c4, c5, c6⟩ := matchConsult_state_fields _ _ _ _ _ _ hc
  have c7 := (matchConsult_tails_completions _ _ _ _ _ _ hc).1
  have c8 := matchConsult_shared _ _ _ _ _ _ hc
  have hhead1 : ∀ i, headRefs st1 i = headRefs st i := by
    intro i
    unfold headRefs
    rw [c3, c4, c7]
  have hrun1 : ∀ y ∈ st1.runnable, ThreadOk cg ntOf st1 y := by
    intro y hy
    rw [c3] at hy
    obtain ⟨ns, ops, hsp, hnd', hTC, hlast⟩ := hrun y hy
    refine ⟨ns, ops, ?_, hnd', ?_, hlast⟩
    · rw [c1]
      exact hsp
    · rw [c8]
      exact hTC
  have hmat1 : ∀ p ∈ st1.matchable, ThreadOk cg ntOf st1 p.2 := by
    intro p hp
    rw [c4] at hp
    obtain ⟨ns, ops, hsp, hnd', hTC, hlast⟩ := hmat p hp
    refine ⟨ns, ops, ?_, hnd', ?_, hlast⟩
    · rw [c1]
      exact hsp
    · rw [c8]
      exact hTC
  have htl1 : ∀ c ∈ st1.tails, TailOk st1.fragments c.1 := by
    intro c hcm
    rw [c7] at hcm
    obtain ⟨ns, nt', name', hsp, hnd'⟩ := htl c hcm
    refine ⟨ns, nt', name', ?_, hnd'⟩
    rw [c1]
    exact hsp
  have ht1 : ThreadOk cg ntOf st1 thread := by
    obtain ⟨ns, ops, hsp, hnd', hTC, hlast⟩ := ht
    refine ⟨ns, ops, ?_, hnd', ?_, hlast⟩
    · rw [c1]
      exact hsp
    · rw [c8]
      exact hTC
  have hrb1 : ∀ i, headRefs st1 i + linkRefs st1.fragments st1.freelist i + E i +
      (if thread.fragidx = i then 1 else 0) ≤ rcAt st1.fragments i := by
    intro i
    rw [hhead1 i, c1, c2]
    exact hrb i
  obtain ⟨b1, b2, b3, b4, b5, b6, b7, b8, btr, bsh⟩ :=
    matchProceed_chainInv cg ntOf thread vkey nameidx r st1 st' prev' E h
      hnt1 hstrm.2
      hrun1 hmat1 htl1 (by rw [c1]; exact hstr) (by rw [c1, c2]; exact hz)
      (by rw [c1, c2]; exact hb) (by rw [c2]; exact hnd) ht1 hrb1
  refine ⟨b1, b2, b3, b4, b5, b6, b7, b8, ?_, bsh.trans c8⟩
  intro k ns ops hsp hrc1
  refine btr k ns ops ?_ ?_
  · rw [c1]
    exact hsp
  · rw [c1]
    exact hrc1

/-- The match loop preserves the chain invariant, working off the drained
`matchable` list whose references are the per-slot pending counts. -/
theorem matchLoop_chainInv (cg : CompiledGrammar) (ntOf : Nat → Nat)
    (matchFn : String → Nat → Bool) (hG : GrammarShapeOk cg ntOf) :
    ∀ (work : List (Nat × VMThread)) (prev : Option Nat) (st st' : VMState),
    matchLoop cg matchFn work prev st = .ok st' →
    (∀ x ∈ st.runnable, ThreadOk cg ntOf st x) →
    (∀ p ∈ st.matchable, ThreadOk cg ntOf st p.2) →
    (∀ c ∈ st.tails, TailOk st.fragments c.1) →
    (∀ f ∈ st.fragments, fragStrOkB cg.strings.length f = true) →
    (∀ i ∈ st.freelist, rcAt st.fragments i = 0) →
    (∀ i ∈ st.freelist, i < st.fragments.length) →
    st.freelist.Nodup →
    (∀ p ∈ work, ThreadOk cg ntOf st p.2) →
    (∀ i, headRefs st i + linkRefs st.fragments st.freelist i +
      (work.map (fun p => p.2.fragidx)).count i ≤ rcAt st.fragments i) →
    ChainInv cg ntOf st' := by
  intro work
  induction work with
  | nil =>
    intro prev st st' h hrun hmat htl hstr hz hb hnd _ hrb
    simp only [matchLoop, Res.ok.injEq] at h
    subst h
    refine ⟨hrun, hmat, htl, ?_, hstr, hz, hb, hnd⟩
    intro i
    have h1 := hrb i
    simp only [List.map_nil, List.count_nil] at h1
    show headRefs st i + linkRefs st.fragments st.freelist i + 0 ≤
      rcAt st.fragments i
    omega
  | cons q rest ih =>
    intro prev st st' h hrun hmat htl hstr hz hb hnd hwork hrb
    rw [matchLoop] at h
    split at h
    · rename_i st1 prev1 hm
      have hrb' : ∀ i, headRefs st i + linkRefs st.fragments st.freelist i +
          (rest.map (fun p => p.2.fragidx)).count i +
          (if q.2.fragidx = i then 1 else 0) ≤ rcAt st.fragments i := by
        intro i
        have h1 := hrb i
        rw [List.map_cons, List.count_cons] at h1
        simp only [beq_iff_eq] at h1
        omega
      obtain ⟨b1, b2, b3, b4, b5, b6, b7, b8, btr, bsh⟩ :=
        matchOne_chainInv cg ntOf matchFn hG prev q.1 q.2 st st1 prev1
          (fun i => (rest.map (fun p => p.2.fragidx)).count i) hm
          hrun hmat htl hstr hz hb hnd (hwork q (List.mem_cons_self q rest)) hrb'
      have hb8 : ∀ i, headRefs st1 i + linkRefs st1.fragments st1.freelist i +
          (rest.map (fun p => p.2.fragidx)).count i ≤ rcAt st1.fragments i := b8
      have hwork1 : ∀ p ∈ rest, ThreadOk cg ntOf st1 p.2 := by
        intro p hp
        obtain ⟨ns, ops, hsp, hnd', hTC, hlast⟩ := hwork p (List.mem_cons_of_mem q hp)
        have hrcp : 1 ≤ rcAt st.fragments p.2.fragidx := by
          have h1 := hrb p.2.fragidx
          have h2 : p.2.fragidx ∈ (q :: rest).map (fun p => p.2.fragidx) :=
            List.mem_map_of_mem _ (List.mem_cons_of_mem q hp)
          have h3 := List.count_pos_iff.mpr h2
          omega
        refine ⟨ns, ops, btr _ _ _ hsp hrcp, hnd', ?_, hlast⟩
        rw [bsh]
        exact hTC
      exact ih prev1 st1 st' h b1 b2 b3 b4 b5 b6 b7 hwork1 hb8
    · exact Res.noConfusion h
    · exact Res.noConfusion h

/-- One outer token iteration preserves the chain invariant. -/
theorem outerIter_chainInv (cg : CompiledGrammar) (ntOf : Nat → Nat)
    (matchFn : String → Nat → Bool) (minMatch dispatchFuel : Nat)
    (hG : GrammarShapeOk cg ntOf) (st st' : VMState)
    (h : outerIter cg matchFn minMatch dispatchFuel st = .ok st')
    (hinv : ChainInv cg ntOf st) : ChainInv cg ntOf st' := by
  unfold outerIter at h
  split at h
  · rename_i st1 hd
    split at h
    · rename_i st3 hm
      simp only [Res.ok.injEq] at h
      subst h
      obtain ⟨c1, c2, c3, c4, c5, c6, c7, c8⟩ :=
        dispatchLoop_chainInv cg ntOf minMatch hG dispatchFuel st st1 hd hinv
      have hinv3 : ChainInv cg ntOf st3 := by
        refine matchLoop_chainInv cg ntOf matchFn hG st1.matchable none
          { st1 with matchable := [],
                     matched := List.replicate cg.strings.length 0 }
          st3 hm ?_ ?_ c3 c5 c6 c7 c8 ?_ ?_
        · intro x hx
          exact c1 x hx
        · intro p hp
          exact absurd hp (List.not_mem_nil p)
        · intro p hp
          exact c2 p hp
        · intro i
          have hc4 : headRefs st1 i + linkRefs st1.fragments st1.freelist i + 0 ≤
              rcAt st1.fragments i := c4 i
          unfold headRefs at hc4
          show (st1.runnable.map (fun t => t.fragidx)).count i +
            (List.map (fun p => p.2.fragidx) ([] : List (Nat × VMThread))).count i +
            (st1.tails.map (fun c => c.1)).count i +
            linkRefs st1.fragments st1.freelist i +
            (st1.matchable.map (fun p => p.2.fragidx)).count i ≤ rcAt st1.fragments i
          simp only [List.map_nil, List.count_nil]
          omega
      exact hinv3
    · exact Res.noConfusion h
    · exact Res.noConfusion h
  · exact Res.noConfusion h
  · exact Res.noConfusion h

/-- The outer token loop preserves the chain invariant. -/
theorem outerLoop_chainInv (cg : CompiledGrammar) (ntOf : Nat → Nat)
    (matchFn : String → Nat → Bool) (minMatch dispatchFuel : Nat)
    (hG : GrammarShapeOk cg ntOf) :
    ∀ (fuel : Nat) (st st' : VMState),
    outerLoop cg matchFn minMatch dispatchFuel fuel st = .ok st' →
    ChainInv cg ntOf st → ChainInv cg ntOf st' := by
  intro fuel
  induction fuel with
  | zero => intro st st' h; exact fun _ => Res.noConfusion h
  | succ n ih =>
    intro st st' h hinv
    rw [outerLoop] at h
    split at h
    · simp only [Res.ok.injEq] at h
      subst h
      exact hinv
    · split at h
      · rename_i st1 ho
        exact ih st1 st' h
          (outerIter_chainInv cg ntOf matchFn minMatch dispatchFuel hG st st1 ho hinv)
      · exact Res.noConfusion h
      · exact Res.noConfusion h

/-- Slot index bound from a successful string lookup. -/
theorem lookupString_lt (cg : CompiledGrammar) (s : String) (idx : Nat)
    (h : cg.lookupString s = some idx) : idx < cg.strings.length := by
  unfold CompiledGrammar.lookupString at h
  have h2 := List.findIdx?_eq_some_iff_findIdx_eq.mp h
  omega

/-- The initialization loop establishes the chain invariant: each planted
root fragment heads a singleton spine held by its one thread. -/
theorem initLoop_chainInv (cg : CompiledGrammar) (ntOf : Nat → Nat) (nt : Nat)
    (hnt : nt < cg.strings.length) :
    ∀ (l : List Nat) (st : VMState),
    (∀ a ∈ l, ntOf a = nt) →
    st.freelist = [] → st.tails = [] → st.matchable = [] →
    (∀ x ∈ st.runnable, ThreadOk cg ntOf st x) →
    (∀ f ∈ st.fragments, fragStrOkB cg.strings.length f = true) →
    (∀ i, headRefs st i + linkRefs st.fragments st.freelist i ≤
      rcAt st.fragments i) →
    ChainInv cg ntOf (initLoop nt l st) := by
  intro l
  induction l with
  | nil =>
    intro st _ hfl htl hmb hrun hstr hrb
    show ChainInv cg ntOf st
    refine ⟨hrun, ?_, ?_, ?_, hstr, ?_, ?_, ?_⟩
    · intro p hp
      rw [hmb] at hp
      exact absurd hp (List.not_mem_nil p)
    · intro c hc
      rw [htl] at hc
      exact absurd hc (List.not_mem_nil c)
    · intro i
      have h0 := hrb i
      show headRefs st i + linkRefs st.fragments st.freelist i + 0 ≤
        rcAt st.fragments i
      omega
    · intro i hi
      rw [hfl] at hi
      exact absurd hi (List.not_mem_nil i)
    · intro i hi
      rw [hfl] at hi
      exact absurd hi (List.not_mem_nil i)
    · rw [hfl]
      exact List.nodup_nil
  | cons addr rest ih =>
    intro st hl hfl htl hmb hrun hstr hrb
    rw [initLoop]
    refine ih _ (fun a ha => hl a (List.mem_cons_of_mem addr ha)) hfl htl hmb
      ?_ ?_ ?_
    · intro x hx
      have hx' : x = (⟨none, addr, st.fragments.length⟩ : VMThread) ∨
          x ∈ st.runnable := List.mem_cons.mp hx
      rcases hx' with hx1 | hx2
      · subst hx1
        refine ⟨[st.fragments.length], [(nt, none)], ?_,
          List.nodup_singleton _, ?_, ?_⟩
        · refine SpineL.root _ none nt ?_
          show valueAt (st.fragments ++ [⟨1, .RuleStart none none nt⟩])
            st.fragments.length = some (.RuleStart none none nt)
          unfold valueAt
          rw [List.get?_eq_getElem?, List.getElem?_concat_length]
        · exact TChain.top (nt, none)
        · show (([(nt, none)]).getLast?).map Prod.fst = some (ntOf addr)
          rw [hl addr (List.mem_cons_self addr rest)]
          rfl
      · obtain ⟨ns, ops, hsp, hndp, hTC, hlast⟩ := hrun x hx2
        have hbd := spine_nodes_bound _ _ _ _ hsp
        refine ⟨ns, ops, ?_, hndp, hTC, hlast⟩
        refine spine_transport st.fragments
          (st.fragments ++ [⟨1, .RuleStart none none nt⟩]) _ _ _ hsp ?_
        intro j hj
        exact valueAt_eq_of_get?_eq _ _ j (get?_append_left_frag _ _ j (hbd j hj))
    · intro f hf
      have hf' : f ∈ st.fragments ++ [⟨1, .RuleStart none none nt⟩] := hf
      rcases List.mem_append.mp hf' with hf1 | hf2
      · exact hstr f hf1
      · rw [List.mem_singleton] at hf2
        subst hf2
        exact fragStrOkB_start _ 1 none none nt hnt rfl
    · intro i
      have h0 := hrb i
      rw [hfl] at h0
      have he : allocFrag st.fragments [] ⟨1, .RuleStart none none nt⟩ =
          (st.fragments ++ [⟨1, .RuleStart none none nt⟩], [],
            st.fragments.length) := by
        unfold allocFrag
        rfl
      have hlk : linkRefs (st.fragments ++ [⟨1, .RuleStart none none nt⟩]) [] i =
          linkRefs st.fragments [] i := by
        have h3 := linkRefs_alloc st.fragments [] ⟨1, .RuleStart none none nt⟩
          (fun j hj => absurd hj (List.not_mem_nil j)) List.nodup_nil i
        rw [he] at h3
        simpa [ParseFragment.prevIdx] using h3
      have hh : headRefs { st with
            fragments := st.fragments ++ [⟨1, .RuleStart none none nt⟩],
            runnable := ⟨none, addr, st.fragments.length⟩ :: st.runnable } i =
          headRefs st i + (if i = st.fragments.length then 1 else 0) := by
        show ((⟨none, addr, st.fragments.length⟩ :: st.runnable).map
            (fun t => t.fragidx)).count i +
          (st.matchable.map (fun p => p.2.fragidx)).count i +
          (st.tails.map (fun c => c.1)).count i =
          ((st.runnable.map (fun t => t.fragidx)).count i +
            (st.matchable.map (fun p => p.2.fragidx)).count i +
            (st.tails.map (fun c => c.1)).count i) +
          (if i = st.fragments.length then 1 else 0)
        rw [List.map_cons, List.count_cons]
        simp only [beq_iff_eq]
        by_cases hq : i = st.fragments.length
        · simp [hq]
          omega
        · simp [hq, Ne.symm hq]
      show headRefs { st with
          fragments := st.fragments ++ [⟨1, .RuleStart none none nt⟩],
          runnable := ⟨none, addr, st.fragments.length⟩ :: st.runnable } i +
        linkRefs (st.fragments ++ [⟨1, .RuleStart none none nt⟩]) st.freelist i ≤
        rcAt (st.fragments ++ [⟨1, .RuleStart none none nt⟩]) i
      rw [hh]
      rw [hfl]
      rw [hlk]
      by_cases hq : i = st.fragments.length
      · have h1 : rcAt (st.fragments ++ [⟨1, .RuleStart none none nt⟩]) i = 1 := by
          rw [hq]
          exact rcAt_append_self _ _
        have h2 : rcAt st.fragments i = 0 := by
          rw [hq]
          exact rcAt_oob _ _ (Nat.le_refl _)
        rw [if_pos hq, h1]
        omega
      · have h1 : rcAt (st.fragments ++ [⟨1, .RuleStart none none nt⟩]) i =
            rcAt st.fragments i := by
          rcases Nat.lt_or_ge i st.fragments.length with hlt | hge
          · exact rcAt_eq_of_get?_eq _ _ i (get?_append_left_frag _ _ i hlt)
          · have hge' : st.fragments.length < i := by omega
            rw [rcAt_oob _ _ (by simp; omega), rcAt_oob _ _ (by omega)]
        rw [if_neg hq, h1]
        omega

/-- The state at the top of the outer loop of `run` satisfies the chain
invariant. -/
theorem initState_chainInv (cg : CompiledGrammar) (ntOf : Nat → Nat)
    (idx : Nat) (hG : GrammarShapeOk cg ntOf) (hidx : idx < cg.strings.length) :
    ChainInv cg ntOf (initState cg idx) := by
  unfold initState
  refine initLoop_chainInv cg ntOf idx hidx _ _ ?_ rfl rfl rfl ?_ ?_ ?_
  · exact fun a ha => gs_lookup_nt cg ntOf hG idx a ha
  · intro x hx
    exact absurd hx (List.not_mem_nil x)
  · intro f hf
    exact absurd hf (List.not_mem_nil f)
  · intro i
    exact Nat.le_refl 0

/-- Whenever `run` returns, its final state satisfies the chain
invariant. -/
theorem runVM_chainInv (cg : CompiledGrammar) (ntOf : Nat → Nat)
    (ntStart : String) (matchFn : String → Nat → Bool) (minMatch fuel : Nat)
    (st' : VMState) (hG : GrammarShapeOk cg ntOf)
    (h : runVM cg ntStart matchFn minMatch fuel = .ok st') :
    ChainInv cg ntOf st' := by
  unfold runVM at h
  split at h
  · exact Res.noConfusion h
  · rename_i idx hidx
    exact outerLoop_chainInv cg ntOf matchFn minMatch fuel hG fuel _ st' h
      (initState_chainInv cg ntOf idx hG (lookupString_lt cg ntStart idx hidx))

theorem gsOk_cgA : GrammarShapeOk cgA ntOfZero := by
  refine ⟨by decide, ?_, ?_⟩ <;>
    (intro ip hip; have h2 : ip < 2 := hip; clear hip; interval_cases ip <;>
      first | exact rfl | exact ⟨by decide, rfl⟩)

theorem gsOk_cg3 : GrammarShapeOk cg3 ntOfZero := by
  refine ⟨by decide, ?_, ?_⟩ <;>
    (intro ip hip; have h6 : ip < 6 := hip; clear hip; interval_cases ip <;>
      first | exact rfl | exact ⟨by decide, rfl⟩)

theorem gsOk_cgBind : GrammarShapeOk cgBind ntOfBind := by
  refine ⟨by decide, ?_, ?_⟩ <;>
    (intro ip hip; have h4 : ip < 4 := hip; clear hip; interval_cases ip <;>
      first | exact rfl | exact ⟨by decide, rfl⟩)

theorem executeEvents_eq (p : ParsedTrees) (tidx : Nat) (c : Nat × Nat)
    (hc : p.tails.get? tidx = some c) :
    executeEvents p tidx =
      match chainWalk p.fragments (p.fragments.length + 1) c.1 with
      | none => none
      | some idxs => streamEvents p.strings p.fragments idxs.reverse := by
  obtain ⟨c1, c2⟩ := c
  unfold executeEvents
  rw [hc]

/-- Every tail of a returned run streams an event list on which the stack
of open nonterminal names empties: each start is closed by a later end
with the same nonterminal name, properly nested. -/
theorem run_tail_stackRun (cg : CompiledGrammar) (ntOf : Nat → Nat)
    (ntStart : String) (matchFn : String → Nat → Bool) (minMatch fuel : Nat)
    (st : VMState) (hG : GrammarShapeOk cg ntOf)
    (h : runVM cg ntStart matchFn minMatch fuel = .ok st)
    (tidx : Nat) (htidx : tidx < (mkParsedTrees cg st).count) :
    ∃ evs, executeEvents (mkParsedTrees cg st) tidx = some evs ∧
      stackRun [] evs = some [] := by
  obtain ⟨-, -, htails, -, hstr, -, -, -⟩ :=
    runVM_chainInv cg ntOf ntStart matchFn minMatch fuel st hG h
  have hcount : tidx < st.tails.length := htidx
  obtain ⟨c, hc⟩ : ∃ c, st.tails.get? tidx = some c := by
    rw [List.get?_eq_getElem?]
    exact ⟨st.tails[tidx], List.getElem?_eq_getElem hcount⟩
  have hmem : c ∈ st.tails := List.get?_mem hc
  obtain ⟨ns, evs, hwalk, hstream, hstack, -⟩ :=
    tail_events cg.strings st.fragments c.1 (htails c hmem) hstr
  refine ⟨evs, ?_, hstack⟩
  have hc' : (mkParsedTrees cg st).tails.get? tidx = some c := hc
  rw [executeEvents_eq (mkParsedTrees cg st) tidx c hc']
  have hwalk' : chainWalk (mkParsedTrees cg st).fragments
      ((mkParsedTrees cg st).fragments.length + 1) c.1 = some ns := hwalk
  rw [hwalk']
  exact hstream

/-- Claim C3: for every ParsedTrees produced by `run` on a shape-correct
compiled grammar and every tail index `tidx < count()`, `execute(tidx)`
emits a balanced, properly nested event sequence: a depth counter
incremented on each `start` and decremented on each `end` never goes
negative (and every `term` occurs at depth at least 1), and it is exactly
0 after the walk. -/
theorem c3_execute_balanced (cg : CompiledGrammar) (ntOf : Nat → Nat)
    (ntStart : String) (matchFn : String → Nat → Bool) (minMatch fuel : Nat)
    (st : VMState) (hG : GrammarShapeOk cg ntOf)
    (h : runVM cg ntStart matchFn minMatch fuel = .ok st) :
    ∀ tidx < (mkParsedTrees cg st).count,
    ∃ evs, executeEvents (mkParsedTrees cg st) tidx = some evs ∧
      depthRun 0 evs = some 0 := by
  intro tidx htidx
  obtain ⟨evs, he, hs⟩ := run_tail_stackRun cg ntOf ntStart matchFn minMatch
    fuel st hG h tidx htidx
  exact ⟨evs, he, depthRun_of_stackRun evs [] [] hs⟩

/-- Claim C3 witness: on the compiled grammar of `S : 'a' ;` with its one
token, the single tail streams a balanced event list with final depth 0. -/
theorem c3_witness :
    ∃ evs, executeEvents (mkParsedTrees cgA stA0) 0 = some evs ∧
      depthRun 0 evs = some 0 :=
  c3_execute_balanced cgA ntOfZero "S" orA 0 10 stA0 gsOk_cgA (by rfl) 0
    (by decide)

/-- Claim C2, counterexample: an `end` event does not always carry the
same optional binding name as its `start`.  In `S : X(b) ; X : 'x' p ;`
(production of X labelled `p`, component X bound as `b`) the streamed
events open X with binding name `b` but close it with the production
label `p`, so the start/end pairing with equal nonterminal AND equal name
rejects the emitted sequence. -/
theorem c2_counterexample_binding_name :
    runVM cgBind "S" orX 0 10 = .ok stBind ∧
    executeEvents (mkParsedTrees cgBind stBind) 0 =
      some [.startEv "S" none, .startEv "X" (some "b"), .termEv 0 none,
        .endEv "X" (some "p"), .endEv "S" none] ∧
    pairRun [] [.startEv "S" none, .startEv "X" (some "b"), .termEv 0 none,
        .endEv "X" (some "p"), .endEv "S" none] = none :=
  ⟨rfl, rfl, rfl⟩

/-- Claim C2 (amended): for every ParsedTrees produced by `run` on a
shape-correct compiled grammar and every tail index `tidx < count()`, the
event sequence emitted by `execute(tidx)` pairs each `start` with a later
matching `end` carrying the same nonterminal name, properly nested (the
stack of open nonterminals empties); the `end`'s optional name is the
production label of the closing Return, not the binding name of the
opening Fork. -/
theorem c2_amended_start_end_same_nonterminal (cg : CompiledGrammar)
    (ntOf : Nat → Nat) (ntStart : String) (matchFn : String → Nat → Bool)
    (minMatch fuel : Nat) (st : VMState) (hG : GrammarShapeOk cg ntOf)
    (h : runVM cg ntStart matchFn minMatch fuel = .ok st) :
    ∀ tidx < (mkParsedTrees cg st).count,
    ∃ evs, executeEvents (mkParsedTrees cg st) tidx = some evs ∧
      stackRun [] evs = some [] := by
  intro tidx htidx
  exact run_tail_stackRun cg ntOf ntStart matchFn minMatch fuel st hG h
    tidx htidx

/-- Claim C2 witness: on the compiled grammar of `S : X(b) ; X : 'x' p ;`
the single tail streams an event list whose nonterminal open/close stack
empties. -/
theorem c2_witness :
    ∃ evs, executeEvents (mkParsedTrees cgBind stBind) 0 = some evs ∧
      stackRun [] evs = some [] :=
  c2_amended_start_end_same_nonterminal cgBind ntOfBind "S" orX 0 10 stBind
    gsOk_cgBind (by rfl) 0 (by decide)

/-- Claim C6, counterexample: a fragment's stored arena index is not
always strictly below its own index at creation time.  In
`S : 'x' | 'y' | 'z' ;` on token `z`, the `x` and `y` roots are freed
before the `z` thread allocates its RuleTermValue, which reuses slot 1
while storing prev index 2 (its root). -/
theorem c6_counterexample_stored_index_not_lower :
    outerIter cg3 orZ 0 10 (initState cg3 0) = .ok stC8 ∧
    stC8.fragments.get? 1 = some ⟨1, .RuleTermValue 2 0 none⟩ ∧
    ¬(2 < 1) :=
  ⟨rfl, rfl, by decide⟩

/-- Claim C6 (amended): rootedness and acyclicity hold even though the
stored-index-ordering half is false: from every tail of a returned run,
following the stored prev/child/parent links (the backward walk of
ParsedTrees::execute) visits pairwise-distinct arena slots and reaches a
root RuleStart with no parent within |arena| steps. -/
theorem c6_amended_rooted (cg : CompiledGrammar) (ntOf : Nat → Nat)
    (ntStart : String) (matchFn : String → Nat → Bool) (minMatch fuel : Nat)
    (st : VMState) (hG : GrammarShapeOk cg ntOf)
    (h : runVM cg ntStart matchFn minMatch fuel = .ok st) :
    ∀ c ∈ st.tails, ∃ ns,
      chainWalk st.fragments (st.fragments.length + 1) c.1 = some ns ∧
      ns.Nodup ∧
      ∃ r rc nm nt2, ns.getLast? = some r ∧
        st.fragments.get? r = some ⟨rc, .RuleStart none nm nt2⟩ := by
  intro c hcm
  obtain ⟨-, -, htails, -, hstr, -, -, -⟩ :=
    runVM_chainInv cg ntOf ntStart matchFn minMatch fuel st hG h
  obtain ⟨ns, nt2, name, hsp, hnd⟩ := htails c hcm
  have hbound := spine_nodes_bound st.fragments c.1 ns _ hsp
  have hlen : ns.length ≤ st.fragments.length :=
    nodup_length_le ns st.fragments.length hnd hbound
  have hwalk := spine_chainWalk st.fragments (st.fragments.length + 1) c.1 ns
    _ hsp (by omega)
  obtain ⟨evs0, opsS, r, nmR, ntR, -, -, -, he4, he5, -⟩ :=
    spine_events cg.strings st.fragments hstr c.1 ns _ hsp
  obtain ⟨f, hf, hfv⟩ := valueAt_eq_some st.fragments r _ he5
  refine ⟨ns, hwalk, hnd, r, f.refcount, nmR, ntR, he4, ?_⟩
  have hfe : (⟨f.refcount, .RuleStart none nmR ntR⟩ : ParseFragment) = f := by
    rw [← hfv]
  rw [hfe]
  exact hf

/-- Claim C6 witness: on the run of `S : 'x' | 'y' | 'z' ;` that reused a
freed slot, the single tail's backward walk still reaches a parentless
root RuleStart through distinct slots. -/
theorem c6_witness :
    ∃ ns, chainWalk stC3run.fragments (stC3run.fragments.length + 1)
        ((1, 1) : Nat × Nat).1 = some ns ∧
      ns.Nodup ∧
      ∃ r rc nm nt2, ns.getLast? = some r ∧
        stC3run.fragments.get? r = some ⟨rc, .RuleStart none nm nt2⟩ :=
  c6_amended_rooted cg3 ntOfZero "S" orZ 0 10 stC3run gsOk_cg3 (by rfl)
    ((1, 1) : Nat × Nat) (by decide)

end Rparse
